import Mathlib

/-!
Threadpool: a work-queue thread pool and its result collector.

A shallow embedding of `threadpool/threadpool.cpp` and `threadpool/threadpool.hpp`.

The pool is a multi-threaded program.  Its shared fields are only touched while
`jobs_mutex` is held (one exception: the unlocked read of `status` at the end of
`wait_for_idle`), and the two semaphores are touched by single `sem_wait` /
`sem_post` calls.  The embedding is therefore a transition system whose atomic steps
are exactly

* one whole critical section (a `std::lock_guard` scope), or
* one `sem_wait` returning, or one `sem_post` outside a lock, or
* one job running to completion outside any lock, or
* the single unlocked read of `status` in `wait_for_idle`.

Every interleaving of the threads is a list of such steps.  Jobs are opaque values of
an arbitrary type `J`; history fields (`submitted`, `dequeued`, `executed`) record what
happened to them and are never read by the code.
-/

set_option autoImplicit false

/-- The C++ type `uint` holds the naturals below `2 ^ 32`. -/
def UINT_SIZE : Nat := 2 ^ 32

/-- The enumeration `_Threadpool_Status` of `threadpool.hpp`. -/
inductive _Threadpool_Status
  | IDLE
  | RUNNING
  | CLOSING
  deriving DecidableEq

/-- Control state of one thread running `Threadpool::_run_worker`. -/
inductive Worker (J : Type)
  /-- blocked in `sem_wait(&worker_semaphore)` (line 38) -/
  | blocked
  /-- past `sem_wait`, about to take `jobs_mutex` (line 44); carries the local `first_job` -/
  | claiming (first_job : Bool)
  /-- running `unit_of_work()` outside the lock (line 72); `first_job` is `false` here -/
  | executing (unit_of_work : J)
  /-- left the loop through `return` (line 48) -/
  | returned

/-- Control state of the thread running `Threadpool::~Threadpool`. -/
inductive Dtor
  /-- the destructor has not been called -/
  | alive
  /-- inside its `wait_for_idle`, blocked in `sem_wait(&wait_for_idle_semaphore)` (line 85) -/
  | wait_sem
  /-- inside its `wait_for_idle`, past `sem_wait`, before the read of `status` (line 86) -/
  | wait_check
  /-- `wait_for_idle` has returned; before the critical section of line 94 -/
  | close
  /-- `status` is `CLOSING`; before `sem_post(&worker_semaphore)` (line 97) -/
  | post
  /-- joining the worker threads (lines 98-99) -/
  | join
  /-- all threads joined, semaphores destroyed -/
  | destroyed
  deriving DecidableEq

/-- The fields of `class Threadpool`, the control state of every thread that is inside
one of its member functions, and the history of the jobs. -/
structure Threadpool (J : Type) where
  /-- `threads`: one entry per worker thread; its length is `threads.size()` -/
  threads : List (Worker J)
  /-- `jobs`: the deque, head first -/
  jobs : List J
  status : _Threadpool_Status
  idle_waiting : Bool
  /-- `working_threads`, a `uint` -/
  working_threads : Nat
  /-- permits of `worker_semaphore` -/
  worker_semaphore : Nat
  /-- permits of `wait_for_idle_semaphore` -/
  wait_for_idle_semaphore : Nat
  /-- number of `wait_for_idle` callers blocked in `sem_wait` (line 85) -/
  waiting : Nat
  /-- number of `wait_for_idle` callers past `sem_wait`, before the read of `status` (line 86) -/
  checking : Nat
  dtor : Dtor
  /-- `abort()` has been called (at line 87, or by `std::terminate`): the process is gone -/
  aborted : Bool
  /-- history: every job passed to `add_work`, in lock-acquisition order -/
  submitted : List J
  /-- history: every job popped from `jobs`, in pop order -/
  dequeued : List J
  /-- history: every job whose call `unit_of_work()` has returned, in completion order -/
  executed : List J
  /-- history: number of calls `sem_post(&worker_semaphore)` so far -/
  wake_posts : Nat

/-- The steps of the threads working on one pool. -/
inductive PoolAction (J : Type)
  /-- some thread runs `add_work(work)` (lines 25-31, one critical section) -/
  | add_work (work : J)
  /-- worker `i`: `sem_wait(&worker_semaphore)` returns (lines 38-39) -/
  | worker_wake (i : Nat)
  /-- worker `i`: the critical section of lines 44-71 -/
  | worker_claim (i : Nat)
  /-- worker `i`: `unit_of_work()` runs to completion (line 72) -/
  | worker_execute (i : Nat)
  /-- some thread calls `wait_for_idle`: the critical section of lines 80-83 -/
  | wait_enter
  /-- a blocked `wait_for_idle` caller: `sem_wait` returns (line 85) -/
  | wait_wake
  /-- a woken `wait_for_idle` caller reads `status` (lines 86-87) -/
  | wait_check
  /-- the destructor starts: the critical section of its `wait_for_idle` (line 92) -/
  | dtor_enter
  /-- the destructor, blocked in its `wait_for_idle`: `sem_wait` returns -/
  | dtor_wake
  /-- the destructor, woken in its `wait_for_idle`, reads `status` -/
  | dtor_check
  /-- the destructor: the critical section of lines 94-95 -/
  | dtor_close
  /-- the destructor: `sem_post(&worker_semaphore)` (line 97) -/
  | dtor_post
  /-- the destructor: every `thread.join()` has returned (lines 98-101) -/
  | dtor_join

namespace Threadpool

variable {J : Type}

/-- `Threadpool::Threadpool(uint num_threads)`: the argument is converted to `uint`, both
semaphores start with no permit, and every worker thread starts in `_run_worker`, where it
blocks on `worker_semaphore`. -/
def ctor (num_threads : Nat) : Threadpool J where
  threads := List.replicate (num_threads % UINT_SIZE) Worker.blocked
  jobs := []
  status := _Threadpool_Status.IDLE
  idle_waiting := false
  working_threads := 0
  worker_semaphore := 0
  wait_for_idle_semaphore := 0
  waiting := 0
  checking := 0
  dtor := Dtor.alive
  aborted := false
  submitted := []
  dequeued := []
  executed := []
  wake_posts := 0

/-- `Threadpool::add_work`: the whole body is one critical section. -/
def add_work (s : Threadpool J) (work : J) : Threadpool J :=
  let s1 := { s with jobs := s.jobs ++ [work], submitted := s.submitted ++ [work] }
  if s1.status = _Threadpool_Status.IDLE then
    { s1 with status := _Threadpool_Status.RUNNING, worker_semaphore := s1.worker_semaphore + 1,
              wake_posts := s1.wake_posts + 1 }
  else s1

/-- The critical section of `Threadpool::_run_worker` (lines 44-71), entered with the
local variable `first_job`.  Returns the new shared state and where the worker goes next:
`returned` (line 48), `executing unit_of_work` (line 72) or, through `break`, back to
`sem_wait` (line 38). -/
def _run_worker_critical (s : Threadpool J) (first_job : Bool) : Threadpool J × Worker J :=
  if s.status = _Threadpool_Status.CLOSING then
    ({ s with worker_semaphore := s.worker_semaphore + 1, wake_posts := s.wake_posts + 1 },
     Worker.returned)
  else
    match s.jobs with
    | unit_of_work :: rest =>
      let wt := if first_job then (s.working_threads + 1) % UINT_SIZE else s.working_threads
      let post := if 0 < rest.length ∧ wt < s.threads.length then 1 else 0
      ({ s with jobs := rest, working_threads := wt,
                worker_semaphore := s.worker_semaphore + post,
                dequeued := s.dequeued ++ [unit_of_work],
                wake_posts := s.wake_posts + post },
       Worker.executing unit_of_work)
    | [] =>
      if first_job then (s, Worker.blocked)
      else
        let wt := (UINT_SIZE - 1 + s.working_threads) % UINT_SIZE
        if wt = 0 then
          let s1 := { s with working_threads := wt, status := _Threadpool_Status.IDLE }
          if s1.idle_waiting then
            ({ s1 with idle_waiting := false,
                       wait_for_idle_semaphore := s1.wait_for_idle_semaphore + 1 },
             Worker.blocked)
          else (s1, Worker.blocked)
        else ({ s with working_threads := wt }, Worker.blocked)

/-- The critical section of `Threadpool::wait_for_idle` (lines 80-83).  The flag is `true`
when the function returns at line 82 and `false` when the caller goes on to `sem_wait`. -/
def wait_for_idle_critical (s : Threadpool J) : Threadpool J × Bool :=
  if s.status = _Threadpool_Status.IDLE then (s, true)
  else ({ s with idle_waiting := true }, false)

/-- One step of one thread; `none` when the thread that would take the step is not at
that point of its code, is blocked there, or the process is gone. -/
def step (s : Threadpool J) (a : PoolAction J) : Option (Threadpool J) :=
  if s.aborted = true ∨ s.dtor = Dtor.destroyed then none
  else
    match a with
    | PoolAction.add_work work => some (s.add_work work)
    | PoolAction.worker_wake i =>
      match s.threads.get? i with
      | some Worker.blocked =>
        if 0 < s.worker_semaphore then
          some { s with worker_semaphore := s.worker_semaphore - 1,
                        threads := s.threads.set i (Worker.claiming true) }
        else none
      | _ => none
    | PoolAction.worker_claim i =>
      match s.threads.get? i with
      | some (Worker.claiming first_job) =>
        let r := s._run_worker_critical first_job
        some { r.1 with threads := r.1.threads.set i r.2 }
      | _ => none
    | PoolAction.worker_execute i =>
      match s.threads.get? i with
      | some (Worker.executing unit_of_work) =>
        some { s with executed := s.executed ++ [unit_of_work],
                      threads := s.threads.set i (Worker.claiming false) }
      | _ => none
    | PoolAction.wait_enter =>
      let r := s.wait_for_idle_critical
      if r.2 = true then some r.1 else some { r.1 with waiting := r.1.waiting + 1 }
    | PoolAction.wait_wake =>
      if 0 < s.waiting ∧ 0 < s.wait_for_idle_semaphore then
        some { s with wait_for_idle_semaphore := s.wait_for_idle_semaphore - 1,
                      waiting := s.waiting - 1, checking := s.checking + 1 }
      else none
    | PoolAction.wait_check =>
      if 0 < s.checking then
        if s.status ≠ _Threadpool_Status.IDLE then
          some { s with checking := s.checking - 1, aborted := true }
        else some { s with checking := s.checking - 1 }
      else none
    | PoolAction.dtor_enter =>
      if s.dtor = Dtor.alive then
        let r := s.wait_for_idle_critical
        if r.2 = true then some { r.1 with dtor := Dtor.close }
        else some { r.1 with dtor := Dtor.wait_sem }
      else none
    | PoolAction.dtor_wake =>
      if s.dtor = Dtor.wait_sem ∧ 0 < s.wait_for_idle_semaphore then
        some { s with wait_for_idle_semaphore := s.wait_for_idle_semaphore - 1,
                      dtor := Dtor.wait_check }
      else none
    | PoolAction.dtor_check =>
      if s.dtor = Dtor.wait_check then
        if s.status ≠ _Threadpool_Status.IDLE then some { s with aborted := true }
        else some { s with dtor := Dtor.close }
      else none
    | PoolAction.dtor_close =>
      if s.dtor = Dtor.close then
        some { s with status := _Threadpool_Status.CLOSING, dtor := Dtor.post }
      else none
    | PoolAction.dtor_post =>
      if s.dtor = Dtor.post then
        some { s with worker_semaphore := s.worker_semaphore + 1, dtor := Dtor.join,
                      wake_posts := s.wake_posts + 1 }
      else none
    | PoolAction.dtor_join =>
      if s.dtor = Dtor.join ∧ s.threads.all (fun w => match w with
                                                      | Worker.returned => true
                                                      | _ => false) = true then
        some { s with dtor := Dtor.destroyed }
      else none

/-- Runs a schedule: the steps are taken from left to right, and the run fails as soon as
one of them cannot be taken. -/
def run (s : Threadpool J) : List (PoolAction J) → Option (Threadpool J)
  | [] => some s
  | a :: acts => (s.step a).bind (fun s1 => run s1 acts)

/-- The states some schedule reaches from the constructed pool. -/
def Reachable (num_threads : Nat) (s : Threadpool J) : Prop :=
  ∃ acts : List (PoolAction J), (ctor num_threads).run acts = some s

/-- The state a schedule ends in, or the start state when the schedule cannot be run. -/
def runD (s : Threadpool J) (acts : List (PoolAction J)) : Threadpool J :=
  (s.run acts).getD s

end Threadpool

/-! ## Counting the workers -/

/-- The worker is in a run of consecutive claims: its `first_job` is `false`. -/
def Worker.busy {J : Type} : Worker J → Bool
  | Worker.claiming first_job => !first_job
  | Worker.executing _ => true
  | _ => false

/-- The job the worker is executing, when it is at line 72. -/
def Worker.current {J : Type} : Worker J → Option J
  | Worker.executing unit_of_work => some unit_of_work
  | _ => none

/-- Number of workers whose `first_job` is `false`. -/
def Threadpool.busy_count {J : Type} (s : Threadpool J) : Nat :=
  s.threads.countP Worker.busy

/-- The jobs that are being executed right now, in thread order. -/
def Threadpool.in_execution {J : Type} (s : Threadpool J) : List J :=
  s.threads.filterMap Worker.current

/-- What holds in every state a schedule can reach from `ctor num_threads`. -/
structure Threadpool.Inv {J : Type} (num_threads : Nat) (s : Threadpool J) : Prop where
  size : s.threads.length = num_threads % UINT_SIZE
  fifo : s.submitted = s.dequeued ++ s.jobs
  once : s.dequeued.Perm (s.executed ++ s.in_execution)
  count : s.status ≠ _Threadpool_Status.CLOSING → s.working_threads = s.busy_count
  idle : s.status = _Threadpool_Status.IDLE → s.jobs = [] ∧ s.working_threads = 0
  drained : s.jobs = [] → s.working_threads = 0 → s.status ≠ _Threadpool_Status.RUNNING

/-- The steps at which a call of `wait_for_idle` can return: the critical section
(`return` at line 82) and the read of `status` after `sem_wait` (line 86), for an ordinary
caller and for the destructor.  The call does return at such a step exactly when the step
reads `status == IDLE`. -/
def PoolAction.is_wait_exit {J : Type} : PoolAction J → Bool
  | PoolAction.wait_enter => true
  | PoolAction.wait_check => true
  | PoolAction.dtor_enter => true
  | PoolAction.dtor_check => true
  | _ => false

/-- The steps of the worker threads. -/
def PoolAction.is_worker {J : Type} : PoolAction J → Bool
  | PoolAction.worker_wake _ => true
  | PoolAction.worker_claim _ => true
  | PoolAction.worker_execute _ => true
  | _ => false

/-- The steps of an ordinary caller of `wait_for_idle`. -/
def PoolAction.is_wait {J : Type} : PoolAction J → Bool
  | PoolAction.wait_enter => true
  | PoolAction.wait_wake => true
  | PoolAction.wait_check => true
  | _ => false

/-- The steps of the destructor. -/
def PoolAction.is_dtor {J : Type} : PoolAction J → Bool
  | PoolAction.dtor_enter => true
  | PoolAction.dtor_wake => true
  | PoolAction.dtor_check => true
  | PoolAction.dtor_close => true
  | PoolAction.dtor_post => true
  | PoolAction.dtor_join => true
  | _ => false

/-- Runs a schedule like `run`, but only while every step is allowed by `ok` in the state
it is taken from. -/
def Threadpool.run_where {J : Type} (ok : Threadpool J → PoolAction J → Bool)
    (s : Threadpool J) : List (PoolAction J) → Option (Threadpool J)
  | [] => some s
  | a :: acts =>
    if ok s a = true then (s.step a).bind (fun s1 => Threadpool.run_where ok s1 acts)
    else none

/-- Usage rule: the pool is not being destroyed, and a thread calls `wait_for_idle` only
when no other thread is inside `wait_for_idle`. -/
def Threadpool.single_waiter {J : Type} (s : Threadpool J) (a : PoolAction J) : Bool :=
  !a.is_dtor &&
  match a with
  | PoolAction.wait_enter => s.waiting + s.checking == 0
  | _ => true

/-- Usage rule: `single_waiter`, and no `add_work` between the post of a permit of
`wait_for_idle_semaphore` (line 66) and the released caller's read of `status` (line 86). -/
def Threadpool.single_waiter_quiet_wake {J : Type} (s : Threadpool J) (a : PoolAction J) :
    Bool :=
  s.single_waiter a &&
  match a with
  | PoolAction.add_work _ => s.wait_for_idle_semaphore + s.checking == 0
  | _ => true

/-- What holds along every schedule that follows `single_waiter_quiet_wake`. -/
structure Threadpool.Calm {J : Type} (s : Threadpool J) : Prop where
  alive : s.aborted = false
  one_permit : s.wait_for_idle_semaphore + s.checking ≤ 1
  woken_idle : 0 < s.wait_for_idle_semaphore + s.checking → s.status = _Threadpool_Status.IDLE
  flagged : s.idle_waiting = true →
    s.waiting = 1 ∧ s.wait_for_idle_semaphore = 0 ∧ s.checking = 0
  one_waiter : s.waiting + s.checking ≤ 1
  permit_for : 0 < s.wait_for_idle_semaphore → s.waiting = 1

/-- The worker is between `sem_wait` and its next look at the status: it is about to enter
the critical section, or it runs a job and enters the critical section after it. -/
def Worker.active {J : Type} : Worker J → Bool
  | Worker.claiming _ => true
  | Worker.executing _ => true
  | _ => false

/-- The worker has left the loop. -/
def Worker.is_returned {J : Type} : Worker J → Bool
  | Worker.returned => true
  | _ => false

/-- How many steps a worker still takes at most once the status is `CLOSING`. -/
def Worker.rank {J : Type} : Worker J → Nat
  | Worker.blocked => 3
  | Worker.executing _ => 2
  | Worker.claiming _ => 1
  | Worker.returned => 0

/-- The sum of the ranks of the workers. -/
def Threadpool.closing_rank {J : Type} (s : Threadpool J) : Nat :=
  (s.threads.map Worker.rank).sum

/-- What holds in every reachable state once the destructor is past `wait_for_idle`: from
the assignment of line 95 on the status is `CLOSING`, and from the post of line 97 on there
is a permit of `worker_semaphore` or a worker that will post one. -/
structure Threadpool.Cascade {J : Type} (s : Threadpool J) : Prop where
  closed : s.dtor = Dtor.post ∨ s.dtor = Dtor.join ∨ s.dtor = Dtor.destroyed →
    s.status = _Threadpool_Status.CLOSING
  signal : s.dtor = Dtor.join ∨ s.dtor = Dtor.destroyed →
    1 ≤ s.worker_semaphore ∨ ∃ w ∈ s.threads, w.active = true

/-- The call of `wait_for_idle` returns at this step, told by what the step does to the
caller.  A thread in the critical section of lines 80-83 returns at line 82 when it does not
go on to `sem_wait`: the number of blocked callers stays.  A woken caller that reads
`status` at line 86 returns when it does not call `abort()`.  The destructor returns from its
`wait_for_idle`, at either place, when it goes on to the critical section of line 94. -/
def Threadpool.wait_for_idle_returns {J : Type} (s : Threadpool J) (a : PoolAction J)
    (t : Threadpool J) : Bool :=
  match a with
  | PoolAction.wait_enter => t.waiting == s.waiting
  | PoolAction.wait_check => !t.aborted
  | PoolAction.dtor_enter => t.dtor == Dtor.close
  | PoolAction.dtor_check => t.dtor == Dtor.close
  | _ => false

/-- An example run: two workers; a client submits three jobs and calls `wait_for_idle`,
which blocks; the workers run the jobs, the last one to find the queue empty posts the
permit of the client; the client wakes and reads `status`. -/
def example_wait_schedule : List (PoolAction Nat) :=
  [PoolAction.add_work 1, PoolAction.add_work 2, PoolAction.add_work 3,
   PoolAction.wait_enter, PoolAction.worker_wake 0, PoolAction.worker_claim 0,
   PoolAction.worker_wake 1, PoolAction.worker_claim 1, PoolAction.worker_execute 1,
   PoolAction.worker_claim 1, PoolAction.worker_execute 0, PoolAction.worker_execute 1,
   PoolAction.worker_claim 0, PoolAction.worker_claim 1, PoolAction.wait_wake,
   PoolAction.wait_check]

/-- The run in which a single caller of `wait_for_idle` aborts: one worker; thread A submits
job 1 and calls `wait_for_idle`, which sets the flag and blocks; the worker runs the job,
finds the queue empty, sets `IDLE` and posts the permit of A (line 66); thread B submits
job 2, which sets `RUNNING` (line 29); A wakes (line 85) and reads `status` without the lock
(line 86). -/
def example_racing_add_work : List (PoolAction Nat) :=
  [PoolAction.add_work 1, PoolAction.wait_enter, PoolAction.worker_wake 0,
   PoolAction.worker_claim 0, PoolAction.worker_execute 0, PoolAction.worker_claim 0,
   PoolAction.add_work 2, PoolAction.wait_wake, PoolAction.wait_check]

/-- A failure escapes from the job that worker `i` is executing.  The worker threads are
`std::thread`s running `_run_worker` (line 20), and `unit_of_work()` is called at line 72
with no handler around it, there or anywhere else in the pool: the failure leaves the thread
function, and for a `std::thread` the C++ runtime then calls `std::terminate`, which calls
`abort()`.  So no field of the pool is written, the job is not completed, and the process is
gone. -/
def Threadpool.job_fails {J : Type} (s : Threadpool J) (i : Nat) : Option (Threadpool J) :=
  if s.aborted = true ∨ s.dtor = Dtor.destroyed then none
  else
    match s.threads.get? i with
    | some (Worker.executing _) => some { s with aborted := true }
    | _ => none

/-- The example of a failing job: two workers, two jobs; worker 0 claims the first job,
posts a permit for the second one, and fails inside its job. -/
def example_after_failure : Threadpool Nat :=
  (((Threadpool.ctor 2).runD
      [PoolAction.add_work 1, PoolAction.add_work 2, PoolAction.worker_wake 0,
       PoolAction.worker_claim 0]).job_fails 0).getD (Threadpool.ctor 2)

/-- What holds in every reachable state as long as the status is not `CLOSING`: no worker
has left the loop, and while the status is `RUNNING` there is a permit of `worker_semaphore`
or a worker past `sem_wait`. -/
structure Threadpool.Awake {J : Type} (s : Threadpool J) : Prop where
  no_exit : s.status ≠ _Threadpool_Status.CLOSING → ∀ w ∈ s.threads, w.is_returned = false
  signal : s.status = _Threadpool_Status.RUNNING →
    1 ≤ s.worker_semaphore ∨ ∃ w ∈ s.threads, w.active = true

/-- How many steps a worker takes at most before it is back at `sem_wait`, when it finds
the queue empty at its next look. -/
def Worker.drain_rank {J : Type} : Worker J → Nat
  | Worker.executing _ => 2
  | Worker.claiming _ => 1
  | _ => 0

/-- A bound on the work the workers have left while nothing is submitted: every queued job,
every worker away from `sem_wait` and every permit of `worker_semaphore` counts. -/
def Threadpool.drain_measure {J : Type} (s : Threadpool J) : Nat :=
  5 * s.jobs.length + (s.threads.map Worker.drain_rank).sum + 2 * s.worker_semaphore

/-! ## The result collector -/

/-- The fields of `class ThreadpoolResultCollector<T>`, the control state of the threads
inside `get_results`, and the history of what `get_results` returned.  A job of the inner
pool is the lambda built by `add_work`; it is identified with the `func` it wraps, and
executing it appends `func()` to `results` under `results_mutex`. -/
structure ThreadpoolResultCollector (T : Type) where
  /-- `inner`: the pool the collector refers to -/
  inner : Threadpool (Unit → T)
  results : List T
  /-- callers of `get_results` blocked inside `inner.wait_for_idle()` (line 85 of the pool) -/
  get_waiting : Nat
  /-- callers of `get_results` woken inside `inner.wait_for_idle()`, before its read of
  `status` (line 86 of the pool) -/
  get_checking : Nat
  /-- callers of `get_results` whose `inner.wait_for_idle()` has returned, before the
  critical section of lines 95-99 -/
  get_swapping : Nat
  /-- history: the sequences returned by `get_results`, in the order of their swaps -/
  returned : List (List T)

/-- The steps of the threads working on a collector and its pool. -/
inductive CollectorAction (T : Type)
  /-- some thread runs `ThreadpoolResultCollector::add_work(func)` -/
  | add_work (func : Unit → T)
  /-- a step of a worker of the inner pool, of its destructor, or of a thread that calls
  `wait_for_idle` on the inner pool itself -/
  | pool (a : PoolAction (Unit → T))
  /-- a thread calls `get_results`: the critical section of `inner.wait_for_idle()` -/
  | get_enter
  /-- a caller of `get_results` blocked in `inner.wait_for_idle()`: `sem_wait` returns -/
  | get_wake
  /-- a woken caller of `get_results` reads `status` at the end of `inner.wait_for_idle()` -/
  | get_check
  /-- a caller of `get_results` runs the critical section of lines 95-99 and returns -/
  | get_swap

namespace ThreadpoolResultCollector

variable {T : Type}

/-- The collector constructed on a pool. -/
def ctor (inner : Threadpool (Unit → T)) : ThreadpoolResultCollector T where
  inner := inner
  results := []
  get_waiting := 0
  get_checking := 0
  get_swapping := 0
  returned := []

/-- `ThreadpoolResultCollector::add_work`: hands the lambda wrapping `func` to the pool. -/
def add_work (c : ThreadpoolResultCollector T) (func : Unit → T) : ThreadpoolResultCollector T :=
  { c with inner := c.inner.add_work func }

/-- The body of the lambda built by `add_work` (lines 84-88): calls `func` and appends its
result to `results`. -/
def run_job (c : ThreadpoolResultCollector T) (func : Unit → T) : ThreadpoolResultCollector T :=
  { c with results := c.results ++ [func ()] }

/-- The critical section of `get_results` (lines 94-99): `rv` starts empty, is swapped with
`results`, and is returned. -/
def get_results_critical (c : ThreadpoolResultCollector T) :
    List T × ThreadpoolResultCollector T :=
  (c.results, { c with results := [] })

/-- One step of one thread; `none` when the step cannot be taken. -/
def step (c : ThreadpoolResultCollector T) :
    CollectorAction T → Option (ThreadpoolResultCollector T)
  | CollectorAction.add_work func =>
    if c.inner.aborted = true ∨ c.inner.dtor = Dtor.destroyed then none
    else some (c.add_work func)
  | CollectorAction.pool a =>
    match a with
    | PoolAction.add_work _ => none
    | PoolAction.worker_execute i =>
      match c.inner.threads.get? i with
      | some (Worker.executing func) =>
        (c.inner.step a).map (fun p => { c.run_job func with inner := p })
      | _ => none
    | _ => (c.inner.step a).map (fun p => { c with inner := p })
  | CollectorAction.get_enter =>
    (c.inner.step PoolAction.wait_enter).map (fun p =>
      if c.inner.wait_for_idle_critical.2 = true then
        { c with inner := p, get_swapping := c.get_swapping + 1 }
      else { c with inner := p, get_waiting := c.get_waiting + 1 })
  | CollectorAction.get_wake =>
    if 0 < c.get_waiting then
      (c.inner.step PoolAction.wait_wake).map (fun p =>
        { c with inner := p, get_waiting := c.get_waiting - 1,
                 get_checking := c.get_checking + 1 })
    else none
  | CollectorAction.get_check =>
    if 0 < c.get_checking then
      (c.inner.step PoolAction.wait_check).map (fun p =>
        if p.aborted = true then { c with inner := p, get_checking := c.get_checking - 1 }
        else { c with inner := p, get_checking := c.get_checking - 1,
                      get_swapping := c.get_swapping + 1 })
    else none
  | CollectorAction.get_swap =>
    if 0 < c.get_swapping ∧ c.inner.aborted = false then
      some { c.get_results_critical.2 with
             get_swapping := c.get_swapping - 1,
             returned := c.returned ++ [c.get_results_critical.1] }
    else none

/-- Runs a schedule, failing as soon as a step cannot be taken. -/
def run (c : ThreadpoolResultCollector T) :
    List (CollectorAction T) → Option (ThreadpoolResultCollector T)
  | [] => some c
  | a :: acts => (c.step a).bind (fun c1 => run c1 acts)

/-- Runs a schedule like `run`, but only while every step is allowed by `ok` in the state
it is taken from. -/
def run_where (ok : ThreadpoolResultCollector T → CollectorAction T → Bool)
    (c : ThreadpoolResultCollector T) :
    List (CollectorAction T) → Option (ThreadpoolResultCollector T)
  | [] => some c
  | a :: acts =>
    if ok c a = true then (c.step a).bind (fun c1 => run_where ok c1 acts) else none

/-- The state a schedule ends in, or the start state when the schedule cannot be run. -/
def runD (c : ThreadpoolResultCollector T) (acts : List (CollectorAction T)) :
    ThreadpoolResultCollector T :=
  (c.run acts).getD c

/-- The states some schedule reaches from a collector on a freshly constructed pool. -/
def Reachable (num_threads : Nat) (c : ThreadpoolResultCollector T) : Prop :=
  ∃ acts : List (CollectorAction T), (ctor (Threadpool.ctor num_threads)).run acts = some c

/-- Usage rule: one client thread.  It calls `add_work` and `get_results` one after the
other, never `add_work` while it is inside `get_results`; apart from it only the workers
of the pool run. -/
def single_client (c : ThreadpoolResultCollector T) : CollectorAction T → Bool
  | CollectorAction.add_work _ => c.get_waiting + c.get_checking + c.get_swapping == 0
  | CollectorAction.get_enter => c.get_waiting + c.get_checking + c.get_swapping == 0
  | CollectorAction.pool (PoolAction.worker_wake _) => true
  | CollectorAction.pool (PoolAction.worker_claim _) => true
  | CollectorAction.pool (PoolAction.worker_execute _) => true
  | CollectorAction.pool _ => false
  | _ => true

/-- The step is a call of `add_work`. -/
def is_add_work : CollectorAction T → Bool
  | CollectorAction.add_work _ => true
  | _ => false

/-- What holds in every state a schedule can reach from a collector on `ctor num_threads`:
the pool's invariant, and the returned sequences followed by `results` list the result of
every completed job once, in completion order. -/
structure Inv (num_threads : Nat) (c : ThreadpoolResultCollector T) : Prop where
  pool : Threadpool.Inv num_threads c.inner
  once : c.returned.flatten ++ c.results = c.inner.executed.map (fun func => func ())

/-- What holds along every schedule that follows `single_client`: a caller of `get_results`
that is past `inner.wait_for_idle()` still finds the pool idle. -/
structure Solo (c : ThreadpoolResultCollector T) : Prop where
  swap_idle : 0 < c.get_swapping → c.inner.status = _Threadpool_Status.IDLE

/-- What holds along every schedule that follows `single_client`: no caller of
`wait_for_idle` has aborted, the pool is not being destroyed, and the only callers of
`inner.wait_for_idle()` are the callers of `get_results`. -/
structure Client (c : ThreadpoolResultCollector T) : Prop where
  calm : c.inner.Calm
  alive : c.inner.dtor = Dtor.alive
  running : c.inner.status ≠ _Threadpool_Status.CLOSING
  waiting : c.inner.waiting = c.get_waiting
  checking : c.inner.checking = c.get_checking

end ThreadpoolResultCollector

/-- The step of the inner pool that a step of the collector contains, if any. -/
def ThreadpoolResultCollector.inner_action {T : Type} :
    CollectorAction T → Option (PoolAction (Unit → T))
  | CollectorAction.add_work func => some (PoolAction.add_work func)
  | CollectorAction.pool a => some a
  | CollectorAction.get_enter => some PoolAction.wait_enter
  | CollectorAction.get_wake => some PoolAction.wait_wake
  | CollectorAction.get_check => some PoolAction.wait_check
  | CollectorAction.get_swap => none

/-- The job that completes at a step of the pool, if one does. -/
def Threadpool.finished {J : Type} (s : Threadpool J) : PoolAction J → List J
  | PoolAction.worker_execute i =>
    match s.threads.get? i with
    | some (Worker.executing unit_of_work) => [unit_of_work]
    | _ => []
  | _ => []

/-- The result a step of the inner pool appends to `results`: the value of the job that
completes at that step, if one does. -/
def ThreadpoolResultCollector.completed {T : Type} (c : ThreadpoolResultCollector T)
    (a : PoolAction (Unit → T)) : List T :=
  (c.inner.finished a).map (fun func => func ())

/-- Modelled from the spec: the job of the concrete scenario of the testable properties,
"computing the sum 1..1000"; the test that submits it is not among the sources.  It is the
sum `1 + 2 + ... + n`. -/
def sum_1_to : Nat → Nat
  | 0 => 0
  | n + 1 => sum_1_to n + (n + 1)

/-- The example run: a client hands ten jobs `sum_1_to 1000` to a collector on a pool of
four workers and calls `get_results` while the workers are busy; the workers drain the
queue, the last one to find it empty releases the client.  The schedule stops right before
the swap of `get_results`. -/
def example_schedule : List (CollectorAction Nat) :=
  [CollectorAction.add_work (fun _ => sum_1_to 1000),
   CollectorAction.add_work (fun _ => sum_1_to 1000),
   CollectorAction.add_work (fun _ => sum_1_to 1000),
   CollectorAction.add_work (fun _ => sum_1_to 1000),
   CollectorAction.add_work (fun _ => sum_1_to 1000),
   CollectorAction.add_work (fun _ => sum_1_to 1000),
   CollectorAction.add_work (fun _ => sum_1_to 1000),
   CollectorAction.add_work (fun _ => sum_1_to 1000),
   CollectorAction.add_work (fun _ => sum_1_to 1000),
   CollectorAction.add_work (fun _ => sum_1_to 1000),
   CollectorAction.pool (PoolAction.worker_wake 0),
   CollectorAction.pool (PoolAction.worker_claim 0),
   CollectorAction.pool (PoolAction.worker_wake 1),
   CollectorAction.pool (PoolAction.worker_claim 1),
   CollectorAction.pool (PoolAction.worker_wake 2),
   CollectorAction.pool (PoolAction.worker_claim 2),
   CollectorAction.pool (PoolAction.worker_wake 3),
   CollectorAction.pool (PoolAction.worker_claim 3),
   CollectorAction.get_enter,
   CollectorAction.pool (PoolAction.worker_execute 0),
   CollectorAction.pool (PoolAction.worker_claim 0),
   CollectorAction.pool (PoolAction.worker_execute 1),
   CollectorAction.pool (PoolAction.worker_claim 1),
   CollectorAction.pool (PoolAction.worker_execute 2),
   CollectorAction.pool (PoolAction.worker_claim 2),
   CollectorAction.pool (PoolAction.worker_execute 3),
   CollectorAction.pool (PoolAction.worker_claim 3),
   CollectorAction.pool (PoolAction.worker_execute 0),
   CollectorAction.pool (PoolAction.worker_claim 0),
   CollectorAction.pool (PoolAction.worker_execute 1),
   CollectorAction.pool (PoolAction.worker_claim 1),
   CollectorAction.pool (PoolAction.worker_execute 2),
   CollectorAction.pool (PoolAction.worker_claim 2),
   CollectorAction.pool (PoolAction.worker_execute 3),
   CollectorAction.pool (PoolAction.worker_claim 3),
   CollectorAction.pool (PoolAction.worker_execute 0),
   CollectorAction.pool (PoolAction.worker_claim 0),
   CollectorAction.pool (PoolAction.worker_execute 1),
   CollectorAction.pool (PoolAction.worker_claim 1),
   CollectorAction.get_wake,
   CollectorAction.get_check]

/-! ## The vector of `linalg.hpp` -/

/-- The class `linalg::Vector<T>`: its only field is `inner`. -/
structure linalg.Vector (T : Type) where
  inner : List T

namespace linalg

variable {T : Type}

/-- `Vector::dimension`. -/
def Vector.dimension (self : Vector T) : Nat :=
  self.inner.length

/-- `Vector::_binop`: throws on a size mismatch, otherwise `std::transform` applies `op`
to the components of the two vectors pairwise and appends the results to a new vector. -/
def Vector._binop (self rhs : Vector T) (op : T → T → T) : Except String (Vector T) :=
  if self.inner.length ≠ rhs.inner.length then Except.error "Dimension error"
  else Except.ok { inner := List.zipWith op self.inner rhs.inner }

/-- `Vector::componentwise_multiplication`. -/
def Vector.componentwise_multiplication [Mul T] (self other : Vector T) :
    Except String (Vector T) :=
  self._binop other (fun a b => a * b)

/-- `Vector::operator-`. -/
def Vector.operator_minus [Sub T] (self rhs : Vector T) : Except String (Vector T) :=
  self._binop rhs (fun a b => a - b)

/-- `Vector::operator+`. -/
def Vector.operator_plus [Add T] (self rhs : Vector T) : Except String (Vector T) :=
  self._binop rhs (fun a b => a + b)

/-- `std::inner_product(first1, last1, first2, init)`: the accumulator starts as `init` and
takes `acc + x * y` for each pair of components, from the front. -/
def inner_product [Add T] [Mul T] : List T → List T → T → T
  | x :: xs, y :: ys, acc => inner_product xs ys (acc + x * y)
  | _, _, acc => acc

/-- `Vector::scalar_product`; `T()` is the zero of `T`. -/
def Vector.scalar_product [Add T] [Mul T] [Zero T] (self rhs : Vector T) : Except String T :=
  if self.inner.length ≠ rhs.inner.length then
    Except.error "Dimension error on scalar multiplication"
  else Except.ok (inner_product self.inner rhs.inner 0)

/-- The loop of `std::transform(first1, last1, first2, d_first, op)` when `d_first` is
`first1`: at index `i`, with `remaining` components still to go, the component `i` of the
vector is overwritten by `op` of itself and of the component `i` of `rhs`. -/
def transform_in_place (op : T → T → T) (rhs : List T) : Nat → Nat → List T → List T
  | 0, _, a => a
  | remaining + 1, i, a =>
    match a.get? i, rhs.get? i with
    | some x, some y => transform_in_place op rhs remaining (i + 1) (a.set i (op x y))
    | _, _ => a

/-- `Vector::operator+=`: the final value of `*this`, and the message thrown, if any. -/
def Vector.operator_plus_assign [Add T] (self rhs : Vector T) : Vector T × Option String :=
  if self.inner.length ≠ rhs.inner.length then (self, some "Dimension error on +=")
  else
    ({ inner := transform_in_place (fun a b => a + b) rhs.inner self.inner.length 0
                  self.inner },
     none)

end linalg

section ListFacts

variable {α β : Type}

theorem countP_set_of_get? (p : α → Bool) :
    ∀ (l : List α) (i : Nat) (w v : α), l.get? i = some w →
      (l.set i v).countP p + (if p w = true then 1 else 0)
        = l.countP p + (if p v = true then 1 else 0)
  | [], i, w, v, h => by simp at h
  | x :: l, 0, w, v, h => by
      simp only [List.get?_cons_zero, Option.some.injEq] at h
      subst h
      simp only [List.set_cons_zero, List.countP_cons]
      omega
  | x :: l, i + 1, w, v, h => by
      simp only [List.get?_cons_succ] at h
      have ih := countP_set_of_get? p l i w v h
      simp only [List.set_cons_succ, List.countP_cons]
      omega

theorem filterMap_set_of_get? (f : α → Option β) :
    ∀ (l : List α) (i : Nat) (w v : α), l.get? i = some w →
      ((l.set i v).filterMap f ++ (f w).toList).Perm (l.filterMap f ++ (f v).toList)
  | [], i, w, v, h => by simp at h
  | x :: l, 0, w, v, h => by
      simp only [List.get?_cons_zero, Option.some.injEq] at h
      subst h
      simp only [List.set_cons_zero, List.filterMap_cons]
      cases hx : f x with
      | none =>
        cases hv : f v with
        | none => simp [Option.toList]
        | some b =>
          simp only [Option.toList, List.append_nil]
          exact (List.perm_append_singleton b _).symm
      | some a =>
        cases hv : f v with
        | none =>
          simp only [Option.toList, List.append_nil]
          exact List.perm_append_singleton a _
        | some b =>
          simp only [Option.toList, List.cons_append]
          have h1 : (b :: (l.filterMap f ++ [a])).Perm (b :: a :: l.filterMap f) :=
            List.Perm.cons b (List.perm_append_singleton a _)
          have h2 : (a :: (l.filterMap f ++ [b])).Perm (a :: b :: l.filterMap f) :=
            List.Perm.cons a (List.perm_append_singleton b _)
          exact h1.trans ((List.Perm.swap a b _).trans h2.symm)
  | x :: l, i + 1, w, v, h => by
      simp only [List.get?_cons_succ] at h
      have ih := filterMap_set_of_get? f l i w v h
      simp only [List.set_cons_succ, List.filterMap_cons]
      cases hx : f x
      · simpa using ih
      · simpa using ih

theorem mem_of_get? : ∀ (l : List α) (i : Nat) (w : α), l.get? i = some w → w ∈ l
  | [], i, w, h => by simp at h
  | x :: l, 0, w, h => by
      simp only [List.get?_cons_zero, Option.some.injEq] at h
      simp [h]
  | x :: l, i + 1, w, h => by
      simp only [List.get?_cons_succ] at h
      exact List.mem_cons_of_mem _ (mem_of_get? l i w h)

theorem countP_pos_of_get? (p : α → Bool) (l : List α) (i : Nat) (w : α)
    (h : l.get? i = some w) (hw : p w = true) : 0 < l.countP p :=
  List.countP_pos_iff.mpr ⟨w, mem_of_get? l i w h, hw⟩

theorem countP_lt_of_get? (p : α → Bool) (l : List α) (i : Nat) (w v : α)
    (h : l.get? i = some w) (hw : p w = false) (hv : p v = true) :
    l.countP p < l.length := by
  have h1 := countP_set_of_get? p l i w v h
  have h2 : (l.set i v).countP p ≤ (l.set i v).length := List.countP_le_length p
  simp only [hw, hv, List.length_set] at h1 h2
  simp at h1
  omega

theorem filterMap_eq_nil_of_countP (f : α → Option β) (p : α → Bool)
    (hp : ∀ a, (f a).isSome = true → p a = true) :
    ∀ l : List α, l.countP p = 0 → l.filterMap f = []
  | [], _ => rfl
  | x :: l, h => by
      simp only [List.countP_cons] at h
      have hx : p x = false := by
        cases hpx : p x
        · rfl
        · simp [hpx] at h
      have hl : l.countP p = 0 := by omega
      have hfx : f x = none := by
        cases hf : f x
        · rfl
        · have := hp x (by simp [hf])
          simp [hx] at this
      simp [List.filterMap_cons, hfx, filterMap_eq_nil_of_countP f p hp l hl]

end ListFacts

/-! ## The steps, case by case -/

namespace Threadpool

variable {J : Type}

/-! ### The branches of the worker's critical section -/

theorem critical_closing (s : Threadpool J) (first_job : Bool)
    (h : s.status = _Threadpool_Status.CLOSING) :
    s._run_worker_critical first_job
      = ({ s with worker_semaphore := s.worker_semaphore + 1,
                  wake_posts := s.wake_posts + 1 }, Worker.returned) := by
  unfold _run_worker_critical
  rw [if_pos h]

theorem critical_pop (s : Threadpool J) (first_job : Bool) (unit_of_work : J) (rest : List J)
    (h : s.status ≠ _Threadpool_Status.CLOSING) (hj : s.jobs = unit_of_work :: rest) :
    s._run_worker_critical first_job
      = ({ s with
            jobs := rest,
            working_threads :=
              if first_job then (s.working_threads + 1) % UINT_SIZE else s.working_threads,
            worker_semaphore := s.worker_semaphore +
              (if 0 < rest.length ∧
                  (if first_job then (s.working_threads + 1) % UINT_SIZE
                   else s.working_threads) < s.threads.length
               then 1 else 0),
            dequeued := s.dequeued ++ [unit_of_work],
            wake_posts := s.wake_posts +
              (if 0 < rest.length ∧
                  (if first_job then (s.working_threads + 1) % UINT_SIZE
                   else s.working_threads) < s.threads.length
               then 1 else 0) },
          Worker.executing unit_of_work) := by
  unfold _run_worker_critical
  rw [if_neg h]
  simp only [hj]

theorem critical_surplus (s : Threadpool J)
    (h : s.status ≠ _Threadpool_Status.CLOSING) (hj : s.jobs = []) :
    s._run_worker_critical true = (s, Worker.blocked) := by
  unfold _run_worker_critical
  rw [if_neg h]
  simp only [hj, if_true]

theorem critical_leave (s : Threadpool J)
    (h : s.status ≠ _Threadpool_Status.CLOSING) (hj : s.jobs = [])
    (hz : (UINT_SIZE - 1 + s.working_threads) % UINT_SIZE ≠ 0) :
    s._run_worker_critical false
      = ({ s with working_threads := (UINT_SIZE - 1 + s.working_threads) % UINT_SIZE },
          Worker.blocked) := by
  unfold _run_worker_critical
  rw [if_neg h]
  simp only [hj, Bool.false_eq_true, if_false, if_neg hz]

theorem critical_last (s : Threadpool J)
    (h : s.status ≠ _Threadpool_Status.CLOSING) (hj : s.jobs = [])
    (hz : (UINT_SIZE - 1 + s.working_threads) % UINT_SIZE = 0) :
    s._run_worker_critical false
      = ({ s with
            working_threads := (UINT_SIZE - 1 + s.working_threads) % UINT_SIZE,
            status := _Threadpool_Status.IDLE,
            idle_waiting := false,
            wait_for_idle_semaphore :=
              if s.idle_waiting then s.wait_for_idle_semaphore + 1
              else s.wait_for_idle_semaphore },
          Worker.blocked) := by
  unfold _run_worker_critical
  rw [if_neg h]
  simp only [hj, Bool.false_eq_true, if_false, if_pos hz]
  cases hiw : s.idle_waiting
  · simp only [Bool.false_eq_true, if_false]
  · simp only [if_true]

/-! ### What one step does, action by action -/

theorem step_spec {s t : Threadpool J} {a : PoolAction J} (hs : s.step a = some t) :
    s.aborted = false ∧ s.dtor ≠ Dtor.destroyed ∧
    match a with
    | PoolAction.add_work work => t = s.add_work work
    | PoolAction.worker_wake i =>
      s.threads.get? i = some Worker.blocked ∧ 0 < s.worker_semaphore
      ∧ t = { s with worker_semaphore := s.worker_semaphore - 1,
                     threads := s.threads.set i (Worker.claiming true) }
    | PoolAction.worker_claim i =>
      ∃ first_job, s.threads.get? i = some (Worker.claiming first_job)
      ∧ t = { (s._run_worker_critical first_job).1 with
              threads := (s._run_worker_critical first_job).1.threads.set i
                (s._run_worker_critical first_job).2 }
    | PoolAction.worker_execute i =>
      ∃ unit_of_work, s.threads.get? i = some (Worker.executing unit_of_work)
      ∧ t = { s with executed := s.executed ++ [unit_of_work],
                     threads := s.threads.set i (Worker.claiming false) }
    | PoolAction.wait_enter =>
      (s.status = _Threadpool_Status.IDLE ∧ t = s)
      ∨ (s.status ≠ _Threadpool_Status.IDLE
         ∧ t = { s with idle_waiting := true, waiting := s.waiting + 1 })
    | PoolAction.wait_wake =>
      0 < s.waiting ∧ 0 < s.wait_for_idle_semaphore
      ∧ t = { s with wait_for_idle_semaphore := s.wait_for_idle_semaphore - 1,
                     waiting := s.waiting - 1, checking := s.checking + 1 }
    | PoolAction.wait_check =>
      0 < s.checking ∧
      ((s.status = _Threadpool_Status.IDLE ∧ t = { s with checking := s.checking - 1 })
       ∨ (s.status ≠ _Threadpool_Status.IDLE
          ∧ t = { s with checking := s.checking - 1, aborted := true }))
    | PoolAction.dtor_enter =>
      s.dtor = Dtor.alive ∧
      ((s.status = _Threadpool_Status.IDLE ∧ t = { s with dtor := Dtor.close })
       ∨ (s.status ≠ _Threadpool_Status.IDLE
          ∧ t = { s with idle_waiting := true, dtor := Dtor.wait_sem }))
    | PoolAction.dtor_wake =>
      s.dtor = Dtor.wait_sem ∧ 0 < s.wait_for_idle_semaphore
      ∧ t = { s with wait_for_idle_semaphore := s.wait_for_idle_semaphore - 1,
                     dtor := Dtor.wait_check }
    | PoolAction.dtor_check =>
      s.dtor = Dtor.wait_check ∧
      ((s.status = _Threadpool_Status.IDLE ∧ t = { s with dtor := Dtor.close })
       ∨ (s.status ≠ _Threadpool_Status.IDLE ∧ t = { s with aborted := true }))
    | PoolAction.dtor_close =>
      s.dtor = Dtor.close
      ∧ t = { s with status := _Threadpool_Status.CLOSING, dtor := Dtor.post }
    | PoolAction.dtor_post =>
      s.dtor = Dtor.post
      ∧ t = { s with worker_semaphore := s.worker_semaphore + 1, dtor := Dtor.join,
                     wake_posts := s.wake_posts + 1 }
    | PoolAction.dtor_join =>
      s.dtor = Dtor.join ∧ t = { s with dtor := Dtor.destroyed } := by
  unfold step at hs
  split at hs
  · cases hs
  · rename_i hlive
    have hab : s.aborted = false := by
      cases hb : s.aborted
      · rfl
      · exact absurd (Or.inl hb) hlive
    have hd : s.dtor ≠ Dtor.destroyed := fun hd => hlive (Or.inr hd)
    refine ⟨hab, hd, ?_⟩
    cases a with
    | add_work work =>
      simp only [Option.some.injEq] at hs
      exact hs.symm
    | worker_wake i =>
      simp only at hs
      split at hs
      · rename_i hw
        split at hs
        · rename_i hp
          simp only [Option.some.injEq] at hs
          exact ⟨hw, hp, hs.symm⟩
        · cases hs
      · cases hs
    | worker_claim i =>
      simp only at hs
      split at hs
      · rename_i first_job hw
        simp only [Option.some.injEq] at hs
        exact ⟨first_job, hw, hs.symm⟩
      · cases hs
    | worker_execute i =>
      simp only at hs
      split at hs
      · rename_i unit_of_work hw
        simp only [Option.some.injEq] at hs
        exact ⟨unit_of_work, hw, hs.symm⟩
      · cases hs
    | wait_enter =>
      simp only [wait_for_idle_critical] at hs
      by_cases hst : s.status = _Threadpool_Status.IDLE
      · simp only [hst, if_true, Option.some.injEq] at hs
        exact Or.inl ⟨hst, hs.symm⟩
      · simp only [hst, if_false, Bool.false_eq_true, Option.some.injEq] at hs
        exact Or.inr ⟨hst, hs.symm⟩
    | wait_wake =>
      simp only at hs
      split at hs
      · rename_i hen
        simp only [Option.some.injEq] at hs
        exact ⟨hen.1, hen.2, hs.symm⟩
      · cases hs
    | wait_check =>
      simp only at hs
      split at hs
      · rename_i hen
        refine ⟨hen, ?_⟩
        by_cases hst : s.status = _Threadpool_Status.IDLE
        · rw [if_neg (not_not.mpr hst)] at hs
          simp only [Option.some.injEq] at hs
          exact Or.inl ⟨hst, hs.symm⟩
        · rw [if_pos hst] at hs
          simp only [Option.some.injEq] at hs
          exact Or.inr ⟨hst, hs.symm⟩
      · cases hs
    | dtor_enter =>
      simp only [wait_for_idle_critical] at hs
      split at hs
      · rename_i hen
        refine ⟨hen, ?_⟩
        by_cases hst : s.status = _Threadpool_Status.IDLE
        · simp only [hst, if_true, Option.some.injEq] at hs
          refine Or.inl ⟨hst, ?_⟩
          rw [← hs]
          cases s
          simp only at hst
          simp [hst]
        · simp only [hst, if_false, Bool.false_eq_true, Option.some.injEq] at hs
          exact Or.inr ⟨hst, hs.symm⟩
      · cases hs
    | dtor_wake =>
      simp only at hs
      split at hs
      · rename_i hen
        simp only [Option.some.injEq] at hs
        exact ⟨hen.1, hen.2, hs.symm⟩
      · cases hs
    | dtor_check =>
      simp only at hs
      split at hs
      · rename_i hen
        refine ⟨hen, ?_⟩
        by_cases hst : s.status = _Threadpool_Status.IDLE
        · rw [if_neg (not_not.mpr hst)] at hs
          simp only [Option.some.injEq] at hs
          exact Or.inl ⟨hst, hs.symm⟩
        · rw [if_pos hst] at hs
          simp only [Option.some.injEq] at hs
          exact Or.inr ⟨hst, hs.symm⟩
      · cases hs
    | dtor_close =>
      simp only at hs
      split at hs
      · rename_i hen
        simp only [Option.some.injEq] at hs
        exact ⟨hen, hs.symm⟩
      · cases hs
    | dtor_post =>
      simp only at hs
      split at hs
      · rename_i hen
        simp only [Option.some.injEq] at hs
        exact ⟨hen, hs.symm⟩
      · cases hs
    | dtor_join =>
      simp only at hs
      split at hs
      · rename_i hen
        simp only [Option.some.injEq] at hs
        exact ⟨hen.1, hs.symm⟩
      · cases hs

/-- The worker's critical section: what it leaves alone, and what it can do to the status. -/
theorem critical_frame (s : Threadpool J) (first_job : Bool) :
    (s._run_worker_critical first_job).1.executed = s.executed
    ∧ (s._run_worker_critical first_job).1.submitted = s.submitted
    ∧ (s._run_worker_critical first_job).1.threads = s.threads
    ∧ (s._run_worker_critical first_job).1.aborted = s.aborted
    ∧ (s._run_worker_critical first_job).1.dtor = s.dtor
    ∧ (s._run_worker_critical first_job).1.waiting = s.waiting
    ∧ (s._run_worker_critical first_job).1.checking = s.checking
    ∧ ((s._run_worker_critical first_job).1.status = s.status
       ∨ (s._run_worker_critical first_job).1.status = _Threadpool_Status.IDLE)
    ∧ (s.jobs = [] → (s._run_worker_critical first_job).1.jobs = []
        ∧ (s._run_worker_critical first_job).2.current = none) := by
  by_cases hcl : s.status = _Threadpool_Status.CLOSING
  · rw [critical_closing s first_job hcl]
    exact ⟨rfl, rfl, rfl, rfl, rfl, rfl, rfl, Or.inl rfl, fun hj => ⟨hj, rfl⟩⟩
  · cases hj : s.jobs with
    | cons unit_of_work rest =>
      rw [critical_pop s first_job unit_of_work rest hcl hj]
      refine ⟨rfl, rfl, rfl, rfl, rfl, rfl, rfl, Or.inl rfl, ?_⟩
      intro hf
      cases hf
    | nil =>
      cases first_job with
      | true =>
        rw [critical_surplus s hcl hj]
        exact ⟨rfl, rfl, rfl, rfl, rfl, rfl, rfl, Or.inl rfl, fun _ => ⟨hj, rfl⟩⟩
      | false =>
        by_cases hz : (UINT_SIZE - 1 + s.working_threads) % UINT_SIZE = 0
        · rw [critical_last s hcl hj hz]
          exact ⟨rfl, rfl, rfl, rfl, rfl, rfl, rfl, Or.inr rfl, fun _ => ⟨hj, rfl⟩⟩
        · rw [critical_leave s hcl hj hz]
          exact ⟨rfl, rfl, rfl, rfl, rfl, rfl, rfl, Or.inl rfl, fun _ => ⟨hj, rfl⟩⟩

end Threadpool

/-! ## The invariant of the pool -/

namespace Threadpool

variable {J : Type}

theorem inv_ctor (num_threads : Nat) : Inv num_threads (ctor num_threads : Threadpool J) where
  size := by simp [ctor]
  fifo := by simp [ctor]
  once := by
    have h : (List.replicate (num_threads % UINT_SIZE) (Worker.blocked : Worker J)).filterMap
        Worker.current = [] := by
      induction (num_threads % UINT_SIZE) with
      | zero => rfl
      | succ n ih => simp [List.replicate_succ, List.filterMap_cons, Worker.current]
    simp [ctor, in_execution, h]
  count := by
    intro _
    simp [ctor, busy_count, List.countP_replicate, Worker.busy]
  idle := by simp [ctor]
  drained := by simp [ctor]

theorem uint_lt (num_threads : Nat) : num_threads % UINT_SIZE < UINT_SIZE :=
  Nat.mod_lt _ (by decide)

theorem inv_add_work {n : Nat} {s : Threadpool J} (h : Inv n s) (work : J) :
    Inv n (s.add_work work) := by
  obtain ⟨h1, h2, h3, h4, h5, h6⟩ := h
  unfold add_work
  by_cases hst : s.status = _Threadpool_Status.IDLE
  · simp only [hst, if_true]
    refine ⟨h1, ?_, h3, ?_, ?_, ?_⟩
    · simp [h2]
    · intro _
      have := h4 (by simp [hst])
      simpa [busy_count] using this
    · intro hc
      simp at hc
    · intro hc
      simp at hc
  · simp only [hst, if_false]
    refine ⟨h1, ?_, h3, ?_, ?_, ?_⟩
    · simp [h2]
    · intro hc
      simpa [busy_count] using h4 hc
    · intro hc
      exact absurd hc hst
    · intro hc
      simp at hc

/-- A step that leaves the queue, the status, the counter, the workers and the history
alone keeps the invariant. -/
theorem inv_frame {n : Nat} {s t : Threadpool J} (h : Inv n s)
    (e1 : t.threads = s.threads) (e2 : t.jobs = s.jobs) (e3 : t.status = s.status)
    (e4 : t.working_threads = s.working_threads) (e5 : t.submitted = s.submitted)
    (e6 : t.dequeued = s.dequeued) (e7 : t.executed = s.executed) : Inv n t := by
  obtain ⟨h1, h2, h3, h4, h5, h6⟩ := h
  refine ⟨?_, ?_, ?_, ?_, ?_, ?_⟩
  · rw [e1]; exact h1
  · rw [e5, e6, e2]; exact h2
  · rw [e6, e7]; simpa [in_execution, e1] using h3
  · rw [e3, e4]; simpa [busy_count, e1] using h4
  · rw [e3, e2, e4]; exact h5
  · rw [e3, e2, e4]; exact h6

/-- Setting `CLOSING` keeps the invariant. -/
theorem inv_closing {n : Nat} {s t : Threadpool J} (h : Inv n s)
    (e1 : t.threads = s.threads) (e2 : t.jobs = s.jobs)
    (e3 : t.status = _Threadpool_Status.CLOSING)
    (e5 : t.submitted = s.submitted)
    (e6 : t.dequeued = s.dequeued) (e7 : t.executed = s.executed) : Inv n t := by
  obtain ⟨h1, h2, h3, h4, h5, h6⟩ := h
  refine ⟨?_, ?_, ?_, ?_, ?_, ?_⟩
  · rw [e1]; exact h1
  · rw [e5, e6, e2]; exact h2
  · rw [e6, e7]; simpa [in_execution, e1] using h3
  · intro hc; exact absurd e3 hc
  · intro hc; rw [e3] at hc; cases hc
  · intro _ _ hc; rw [e3] at hc; cases hc

/-- A worker that changes its control state without changing `first_job`, and is not
executing before or after, keeps the invariant. -/
theorem inv_move {n : Nat} {s t : Threadpool J} (h : Inv n s) (i : Nat) (w v : Worker J)
    (hw : s.threads.get? i = some w) (hb : v.busy = w.busy)
    (hcw : w.current = none) (hcv : v.current = none)
    (e1 : t.threads = s.threads.set i v) (e2 : t.jobs = s.jobs)
    (e3 : t.status = s.status)
    (e4 : t.working_threads = s.working_threads) (e5 : t.submitted = s.submitted)
    (e6 : t.dequeued = s.dequeued) (e7 : t.executed = s.executed) : Inv n t := by
  obtain ⟨h1, h2, h3, h4, h5, h6⟩ := h
  have hc := countP_set_of_get? Worker.busy s.threads i w v hw
  have hf := filterMap_set_of_get? Worker.current s.threads i w v hw
  rw [hb] at hc
  simp only [hcw, hcv, Option.toList, List.append_nil] at hf
  have hcnt : t.busy_count = s.busy_count := by
    simp only [busy_count, e1]; omega
  refine ⟨?_, ?_, ?_, ?_, ?_, ?_⟩
  · rw [e1, List.length_set]; exact h1
  · rw [e5, e6, e2]; exact h2
  · rw [e6, e7]
    refine h3.trans (List.Perm.append_left _ ?_)
    simpa [in_execution, e1] using hf.symm
  · rw [e3, e4, hcnt]; exact h4
  · rw [e3, e2, e4]; exact h5
  · rw [e3, e2, e4]; exact h6

/-- A worker that leaves the loop while the status is `CLOSING` keeps the invariant. -/
theorem inv_exit {n : Nat} {s t : Threadpool J} (h : Inv n s) (i : Nat) (w v : Worker J)
    (hw : s.threads.get? i = some w) (hcw : w.current = none) (hcv : v.current = none)
    (e1 : t.threads = s.threads.set i v) (e2 : t.jobs = s.jobs)
    (e3 : t.status = _Threadpool_Status.CLOSING) (e5 : t.submitted = s.submitted)
    (e6 : t.dequeued = s.dequeued) (e7 : t.executed = s.executed) : Inv n t := by
  obtain ⟨h1, h2, h3, h4, h5, h6⟩ := h
  have hf := filterMap_set_of_get? Worker.current s.threads i w v hw
  simp only [hcw, hcv, Option.toList, List.append_nil] at hf
  refine ⟨?_, ?_, ?_, ?_, ?_, ?_⟩
  · rw [e1, List.length_set]; exact h1
  · rw [e5, e6, e2]; exact h2
  · rw [e6, e7]
    refine h3.trans (List.Perm.append_left _ ?_)
    simpa [in_execution, e1] using hf.symm
  · intro hc; exact absurd e3 hc
  · intro hc; rw [e3] at hc; cases hc
  · intro _ _ hc; rw [e3] at hc; cases hc

/-- The worker's critical section keeps the invariant. -/
theorem inv_claim {n : Nat} {s : Threadpool J} (h : Inv n s) (i : Nat) (first_job : Bool)
    (hw : s.threads.get? i = some (Worker.claiming first_job)) :
    Inv n { (s._run_worker_critical first_job).1 with
            threads := (s._run_worker_critical first_job).1.threads.set i
              (s._run_worker_critical first_job).2 } := by
  have hU := uint_lt n
  have hsz := h.size
  unfold _run_worker_critical
  by_cases hcl : s.status = _Threadpool_Status.CLOSING
  · rw [if_pos hcl]
    exact inv_exit h i _ Worker.returned hw rfl rfl rfl rfl hcl rfl rfl rfl
  · rw [if_neg hcl]
    have hwt := h.count hcl
    have hcs := fun v => countP_set_of_get? Worker.busy s.threads i _ v hw
    have hfs := fun v => filterMap_set_of_get? Worker.current s.threads i _ v hw
    have hle : s.threads.countP Worker.busy ≤ s.threads.length := List.countP_le_length _
    cases hj : s.jobs with
    | cons unit_of_work rest =>
      simp only
      have hc := hcs (Worker.executing unit_of_work)
      have hf := hfs (Worker.executing unit_of_work)
      simp only [Worker.current, Worker.busy, Option.toList, List.append_nil] at hc hf
      have hwt2 : (if first_job = true then (s.working_threads + 1) % UINT_SIZE
            else s.working_threads)
          = (s.threads.set i (Worker.executing unit_of_work)).countP Worker.busy
          ∧ 0 < (s.threads.set i (Worker.executing unit_of_work)).countP Worker.busy := by
        cases first_job
        · have hp := countP_pos_of_get? Worker.busy s.threads i _ hw rfl
          simp at hc
          simp only [busy_count] at hwt
          simp only [Bool.false_eq_true, if_false]
          omega
        · have hlt := countP_lt_of_get? Worker.busy s.threads i _
            (Worker.executing unit_of_work) hw rfl rfl
          simp at hc
          simp only [busy_count] at hwt
          simp only [if_true]
          rw [Nat.mod_eq_of_lt (by omega)]
          omega
      refine ⟨?_, ?_, ?_, ?_, ?_, ?_⟩
      · simpa using hsz
      · simp [h.fifo, hj]
      · simp only [in_execution]
        have h3 := h.once
        simp only [in_execution] at h3
        have : (s.dequeued ++ [unit_of_work]).Perm
            (s.executed ++ (s.threads.filterMap Worker.current ++ [unit_of_work])) := by
          rw [← List.append_assoc]
          exact List.Perm.append_right _ h3
        exact this.trans (List.Perm.append_left _ hf.symm)
      · intro _
        simpa [busy_count] using hwt2.1
      · intro hi
        have := (h.idle hi).1
        rw [hj] at this
        cases this
      · intro _ hz
        simp only at hz
        omega
    | nil =>
      simp only
      cases first_job with
      | true =>
        simp only [if_true]
        exact inv_move h i _ Worker.blocked hw rfl rfl rfl rfl rfl rfl rfl rfl rfl rfl
      | false =>
        simp only [Bool.false_eq_true, if_false]
        have hp := countP_pos_of_get? Worker.busy s.threads i _ hw rfl
        have hc := hcs Worker.blocked
        have hf := hfs Worker.blocked
        simp only [Worker.current, Worker.busy, Option.toList, List.append_nil, Bool.not_false,
          if_true, Bool.false_eq_true, if_false] at hc hf
        simp only [busy_count] at hwt
        have hdec : (UINT_SIZE - 1 + s.working_threads) % UINT_SIZE
            = (s.threads.set i Worker.blocked).countP Worker.busy := by
          have : UINT_SIZE - 1 + s.working_threads = (s.working_threads - 1) + UINT_SIZE := by
            omega
          rw [this, Nat.add_mod_right, Nat.mod_eq_of_lt (by omega)]
          omega
        have honce : s.dequeued.Perm
            (s.executed ++ (s.threads.set i Worker.blocked).filterMap Worker.current) :=
          h.once.trans (List.Perm.append_left _ hf.symm)
        by_cases hz : (UINT_SIZE - 1 + s.working_threads) % UINT_SIZE = 0
        · rw [if_pos hz]
          cases hiw : s.idle_waiting
          · simp only [Bool.false_eq_true, if_false]
            refine ⟨?_, ?_, ?_, ?_, ?_, ?_⟩
            · simpa using hsz
            · simpa [hj] using h.fifo
            · simpa [in_execution] using honce
            · intro _
              simp only [busy_count]
              omega
            · intro _
              exact ⟨rfl, hz⟩
            · intro _ _ hr
              cases hr
          · simp only [if_true]
            refine ⟨?_, ?_, ?_, ?_, ?_, ?_⟩
            · simpa using hsz
            · simpa [hj] using h.fifo
            · simpa [in_execution] using honce
            · intro _
              simp only [busy_count]
              omega
            · intro _
              exact ⟨rfl, hz⟩
            · intro _ _ hr
              cases hr
        · rw [if_neg hz]
          refine ⟨?_, ?_, ?_, ?_, ?_, ?_⟩
          · simpa using hsz
          · simpa [hj] using h.fifo
          · simpa [in_execution] using honce
          · intro _
            simp only [busy_count]
            omega
          · intro hi
            have := (h.idle hi).2
            omega
          · intro _ hz2
            exact absurd hz2 hz

/-- Every step keeps the invariant. -/
theorem inv_step {n : Nat} {s t : Threadpool J} (h : Inv n s) (a : PoolAction J)
    (hs : s.step a = some t) : Inv n t := by
  unfold step at hs
  split at hs
  · cases hs
  · cases a with
    | add_work work =>
      simp only [Option.some.injEq] at hs
      subst hs
      exact inv_add_work h work
    | worker_wake i =>
      simp only at hs
      split at hs
      · rename_i hw
        split at hs
        · simp only [Option.some.injEq] at hs
          subst hs
          exact inv_move h i _ (Worker.claiming true) hw rfl rfl rfl rfl rfl rfl rfl rfl rfl rfl
        · cases hs
      · cases hs
    | worker_claim i =>
      simp only at hs
      split at hs
      · rename_i first_job hw
        simp only [Option.some.injEq] at hs
        subst hs
        exact inv_claim h i first_job hw
      · cases hs
    | worker_execute i =>
      simp only at hs
      split at hs
      · rename_i unit_of_work hw
        simp only [Option.some.injEq] at hs
        subst hs
        have hc := countP_set_of_get? Worker.busy s.threads i _ (Worker.claiming false) hw
        have hf := filterMap_set_of_get? Worker.current s.threads i _ (Worker.claiming false) hw
        simp [Worker.busy] at hc
        simp only [Worker.current, Option.toList, List.append_nil] at hf
        obtain ⟨h1, h2, h3, h4, h5, h6⟩ := h
        refine ⟨?_, h2, ?_, ?_, h5, h6⟩
        · simpa using h1
        · simp only [in_execution] at h3 ⊢
          refine h3.trans ?_
          rw [List.append_assoc]
          refine List.Perm.append_left _ ?_
          exact hf.symm.trans List.perm_append_comm
        · intro hcl
          have := h4 hcl
          simp only [busy_count] at this ⊢
          omega
      · cases hs
    | wait_enter =>
      simp only [wait_for_idle_critical] at hs
      by_cases hst : s.status = _Threadpool_Status.IDLE
      · simp only [hst, if_true, Option.some.injEq] at hs
        subst hs
        exact h
      · simp only [hst, if_false, Bool.false_eq_true, Option.some.injEq] at hs
        subst hs
        exact inv_frame h rfl rfl rfl rfl rfl rfl rfl
    | wait_wake =>
      simp only at hs
      split at hs
      · simp only [Option.some.injEq] at hs
        subst hs
        exact inv_frame h rfl rfl rfl rfl rfl rfl rfl
      · cases hs
    | wait_check =>
      simp only at hs
      split at hs
      · split at hs <;>
          (simp only [Option.some.injEq] at hs
           subst hs
           exact inv_frame h rfl rfl rfl rfl rfl rfl rfl)
      · cases hs
    | dtor_enter =>
      simp only [wait_for_idle_critical] at hs
      split at hs
      · by_cases hst : s.status = _Threadpool_Status.IDLE
        · simp only [hst, if_true, Option.some.injEq] at hs
          subst hs
          exact inv_frame h rfl rfl hst.symm rfl rfl rfl rfl
        · simp only [hst, if_false, Bool.false_eq_true, Option.some.injEq] at hs
          subst hs
          exact inv_frame h rfl rfl rfl rfl rfl rfl rfl
      · cases hs
    | dtor_wake =>
      simp only at hs
      split at hs
      · simp only [Option.some.injEq] at hs
        subst hs
        exact inv_frame h rfl rfl rfl rfl rfl rfl rfl
      · cases hs
    | dtor_check =>
      simp only at hs
      split at hs
      · split at hs <;>
          (simp only [Option.some.injEq] at hs
           subst hs
           exact inv_frame h rfl rfl rfl rfl rfl rfl rfl)
      · cases hs
    | dtor_close =>
      simp only at hs
      split at hs
      · simp only [Option.some.injEq] at hs
        subst hs
        exact inv_closing h rfl rfl rfl rfl rfl rfl
      · cases hs
    | dtor_post =>
      simp only at hs
      split at hs
      · simp only [Option.some.injEq] at hs
        subst hs
        exact inv_frame h rfl rfl rfl rfl rfl rfl rfl
      · cases hs
    | dtor_join =>
      simp only at hs
      split at hs
      · simp only [Option.some.injEq] at hs
        subst hs
        exact inv_frame h rfl rfl rfl rfl rfl rfl rfl
      · cases hs

theorem inv_run {n : Nat} : ∀ (acts : List (PoolAction J)) (s t : Threadpool J),
    Inv n s → s.run acts = some t → Inv n t
  | [], s, t, h, hr => by
      simp only [run, Option.some.injEq] at hr
      exact hr ▸ h
  | a :: acts, s, t, h, hr => by
      simp only [run] at hr
      cases hs : s.step a with
      | none => simp [hs] at hr
      | some s1 =>
        simp only [hs, Option.some_bind] at hr
        exact inv_run acts s1 t (inv_step h a hs) hr

theorem inv_of_reachable {n : Nat} {s : Threadpool J} (h : Reachable n s) : Inv n s := by
  obtain ⟨acts, hr⟩ := h
  exact inv_run acts _ s (inv_ctor n) hr

theorem reachable_ctor (n : Nat) : Reachable n (ctor n : Threadpool J) := ⟨[], rfl⟩

theorem run_append : ∀ (acts more : List (PoolAction J)) (s : Threadpool J),
    s.run (acts ++ more) = (s.run acts).bind (fun t => t.run more)
  | [], more, s => by simp [run]
  | a :: acts, more, s => by
      simp only [List.cons_append, run]
      cases hs : s.step a with
      | none => simp
      | some s1 => simp [run_append acts more s1]

theorem reachable_step {n : Nat} {s t : Threadpool J} (h : Reachable n s) (a : PoolAction J)
    (hs : s.step a = some t) : Reachable n t := by
  obtain ⟨acts, hr⟩ := h
  refine ⟨acts ++ [a], ?_⟩
  rw [run_append, hr]
  simp [run, hs]

/-- A schedule that can be run ends in a reachable state. -/
theorem reachable_runD (n : Nat) (acts : List (PoolAction J))
    (h : ((ctor n : Threadpool J).run acts).isSome = true) :
    Reachable n ((ctor n : Threadpool J).runD acts) := by
  refine ⟨acts, ?_⟩
  unfold runD
  cases hr : (ctor n : Threadpool J).run acts with
  | none => simp [hr] at h
  | some t => rfl

/-- What `add_work` leaves alone. -/
theorem add_work_frame (s : Threadpool J) (work : J) :
    (s.add_work work).threads = s.threads
    ∧ (s.add_work work).idle_waiting = s.idle_waiting
    ∧ (s.add_work work).working_threads = s.working_threads
    ∧ (s.add_work work).wait_for_idle_semaphore = s.wait_for_idle_semaphore
    ∧ (s.add_work work).waiting = s.waiting
    ∧ (s.add_work work).checking = s.checking
    ∧ (s.add_work work).dtor = s.dtor
    ∧ (s.add_work work).aborted = s.aborted
    ∧ (s.add_work work).dequeued = s.dequeued
    ∧ (s.add_work work).executed = s.executed := by
  unfold add_work
  by_cases hst : s.status = _Threadpool_Status.IDLE
  · simp only [hst, if_true, and_self]
  · simp only [hst, if_false, and_self]

/-- The only step that makes the idle semaphore grow is a worker's critical section that
runs line 66. -/
theorem step_idle_post {s t : Threadpool J} {a : PoolAction J} (hs : s.step a = some t)
    (hlt : s.wait_for_idle_semaphore < t.wait_for_idle_semaphore) :
    ∃ i, a = PoolAction.worker_claim i ∧ s.threads.get? i = some (Worker.claiming false)
      ∧ s.status ≠ _Threadpool_Status.CLOSING ∧ s.jobs = []
      ∧ s.idle_waiting = true ∧ t.idle_waiting = false
      ∧ t.status = _Threadpool_Status.IDLE
      ∧ t.wait_for_idle_semaphore = s.wait_for_idle_semaphore + 1 := by
  obtain ⟨_, _, h⟩ := step_spec hs
  cases a with
  | worker_claim i =>
    simp only at h
    obtain ⟨first_job, hw, rfl⟩ := h
    refine ⟨i, rfl, ?_⟩
    by_cases hcl : s.status = _Threadpool_Status.CLOSING
    · rw [critical_closing s first_job hcl] at hlt
      simp only [lt_self_iff_false] at hlt
    · cases hj : s.jobs with
      | cons unit_of_work rest =>
        rw [critical_pop s first_job unit_of_work rest hcl hj] at hlt
        simp only [lt_self_iff_false] at hlt
      | nil =>
        cases first_job with
        | true =>
          rw [critical_surplus s hcl hj] at hlt
          simp only [lt_self_iff_false] at hlt
        | false =>
          by_cases hz : (UINT_SIZE - 1 + s.working_threads) % UINT_SIZE = 0
          · rw [critical_last s hcl hj hz] at hlt ⊢
            cases hiw : s.idle_waiting
            · simp only [hiw, Bool.false_eq_true, if_false, lt_self_iff_false] at hlt
            · exact ⟨hw, hcl, rfl, rfl, rfl, rfl, by simp only [if_true]⟩
          · rw [critical_leave s hcl hj hz] at hlt
            simp only [lt_self_iff_false] at hlt
  | add_work work =>
    simp only at h
    subst h
    rw [(add_work_frame s work).2.2.2.1] at hlt
    exact absurd hlt (lt_irrefl _)
  | wait_enter =>
    simp only at h
    rcases h with ⟨_, rfl⟩ | ⟨_, rfl⟩ <;> exact absurd hlt (lt_irrefl _)
  | dtor_enter =>
    simp only at h
    rcases h with ⟨_, ⟨_, rfl⟩ | ⟨_, rfl⟩⟩ <;> exact absurd hlt (lt_irrefl _)
  | worker_wake i =>
    simp only at h
    obtain ⟨_, _, rfl⟩ := h
    exact absurd hlt (lt_irrefl _)
  | worker_execute i =>
    simp only at h
    obtain ⟨_, _, rfl⟩ := h
    exact absurd hlt (lt_irrefl _)
  | wait_check =>
    simp only at h
    rcases h with ⟨_, ⟨_, rfl⟩ | ⟨_, rfl⟩⟩ <;> exact absurd hlt (lt_irrefl _)
  | dtor_check =>
    simp only at h
    rcases h with ⟨_, ⟨_, rfl⟩ | ⟨_, rfl⟩⟩ <;> exact absurd hlt (lt_irrefl _)
  | wait_wake =>
    simp only at h
    obtain ⟨_, _, rfl⟩ := h
    simp only at hlt
    omega
  | dtor_wake =>
    simp only at h
    obtain ⟨_, _, rfl⟩ := h
    simp only at hlt
    omega
  | dtor_close =>
    simp only at h
    obtain ⟨_, rfl⟩ := h
    exact absurd hlt (lt_irrefl _)
  | dtor_post =>
    simp only at h
    obtain ⟨_, rfl⟩ := h
    exact absurd hlt (lt_irrefl _)
  | dtor_join =>
    simp only at h
    obtain ⟨_, rfl⟩ := h
    exact absurd hlt (lt_irrefl _)

/-! ## The claims about the pool -/

/-- C1, as stated, fails: after the destructor of a freshly constructed pool has set
`CLOSING`, the queue is empty and `working_threads` is 0, yet `status` is not `IDLE`. -/
theorem idle_iff_drained_fails :
    ¬ (∀ (n : Nat) (s : Threadpool Nat), Reachable n s →
        (s.status = _Threadpool_Status.IDLE ↔ s.jobs = [] ∧ s.working_threads = 0)) := by
  intro h
  have h1 := h 1 ((ctor 1).runD [PoolAction.dtor_enter, PoolAction.dtor_close])
    (reachable_runD 1 _ (by decide))
  have h2 := h1.mpr (by decide)
  revert h2
  decide

/-- C1 (amended): in every reachable state whose status is not `CLOSING`, `status` is `IDLE`
if and only if the job queue is empty and `working_threads` is 0. -/
theorem idle_iff_drained (n : Nat) (s : Threadpool J) (h : Reachable n s)
    (hc : s.status ≠ _Threadpool_Status.CLOSING) :
    s.status = _Threadpool_Status.IDLE ↔ s.jobs = [] ∧ s.working_threads = 0 := by
  have hi := inv_of_reachable h
  constructor
  · exact hi.idle
  · rintro ⟨hj, hw⟩
    have hr := hi.drained hj hw
    cases hst : s.status with
    | IDLE => rfl
    | RUNNING => exact absurd hst hr
    | CLOSING => exact absurd hst hc

/-- Witness of C1 (amended): a two-worker pool, two jobs submitted, the first one claimed. -/
theorem idle_iff_drained_witness :
    Reachable 2 ((ctor 2 : Threadpool Nat).runD
        [PoolAction.add_work 1, PoolAction.add_work 2, PoolAction.worker_wake 0,
         PoolAction.worker_claim 0])
    ∧ ((ctor 2 : Threadpool Nat).runD
        [PoolAction.add_work 1, PoolAction.add_work 2, PoolAction.worker_wake 0,
         PoolAction.worker_claim 0]).status ≠ _Threadpool_Status.CLOSING
    ∧ (((ctor 2 : Threadpool Nat).runD
        [PoolAction.add_work 1, PoolAction.add_work 2, PoolAction.worker_wake 0,
         PoolAction.worker_claim 0]).status = _Threadpool_Status.IDLE
       ↔ ((ctor 2 : Threadpool Nat).runD
        [PoolAction.add_work 1, PoolAction.add_work 2, PoolAction.worker_wake 0,
         PoolAction.worker_claim 0]).jobs = []
         ∧ ((ctor 2 : Threadpool Nat).runD
        [PoolAction.add_work 1, PoolAction.add_work 2, PoolAction.worker_wake 0,
         PoolAction.worker_claim 0]).working_threads = 0) :=
  ⟨reachable_runD 2 _ (by decide), by decide,
   idle_iff_drained 2 _ (reachable_runD 2 _ (by decide)) (by decide)⟩

/-- C2: in every reachable state, the jobs passed to `add_work` so far (in lock order) are the
jobs dequeued so far followed by the current queue: jobs leave the queue in submission
order, none twice and none skipped. -/
theorem fifo_dequeue (n : Nat) (s : Threadpool J) (h : Reachable n s) :
    s.submitted = s.dequeued ++ s.jobs :=
  (inv_of_reachable h).fifo

/-- Witness of C2: three jobs submitted to a two-worker pool, two of them dequeued. -/
theorem fifo_dequeue_witness :
    Reachable 2 ((ctor 2 : Threadpool Nat).runD
        [PoolAction.add_work 5, PoolAction.add_work 6, PoolAction.worker_wake 0,
         PoolAction.worker_claim 0, PoolAction.add_work 7, PoolAction.worker_wake 1,
         PoolAction.worker_claim 1])
    ∧ ((ctor 2 : Threadpool Nat).runD
        [PoolAction.add_work 5, PoolAction.add_work 6, PoolAction.worker_wake 0,
         PoolAction.worker_claim 0, PoolAction.add_work 7, PoolAction.worker_wake 1,
         PoolAction.worker_claim 1]).dequeued = [5, 6]
    ∧ ((ctor 2 : Threadpool Nat).runD
        [PoolAction.add_work 5, PoolAction.add_work 6, PoolAction.worker_wake 0,
         PoolAction.worker_claim 0, PoolAction.add_work 7, PoolAction.worker_wake 1,
         PoolAction.worker_claim 1]).submitted
      = ((ctor 2 : Threadpool Nat).runD
        [PoolAction.add_work 5, PoolAction.add_work 6, PoolAction.worker_wake 0,
         PoolAction.worker_claim 0, PoolAction.add_work 7, PoolAction.worker_wake 1,
         PoolAction.worker_claim 1]).dequeued
        ++ ((ctor 2 : Threadpool Nat).runD
        [PoolAction.add_work 5, PoolAction.add_work 6, PoolAction.worker_wake 0,
         PoolAction.worker_claim 0, PoolAction.add_work 7, PoolAction.worker_wake 1,
         PoolAction.worker_claim 1]).jobs :=
  ⟨reachable_runD 2 _ (by decide), by decide,
   fifo_dequeue 2 _ (reachable_runD 2 _ (by decide))⟩

/-- C4: `add_work` appends the job at the tail of the queue; when the status was `IDLE` it
becomes `RUNNING` and one permit of `worker_semaphore` is posted, otherwise the status is
unchanged and no permit is posted; `working_threads`, `idle_waiting` and the permits of
`wait_for_idle_semaphore` are unchanged. -/
theorem add_work_effect (s : Threadpool J) (work : J) :
    (s.add_work work).jobs = s.jobs ++ [work]
    ∧ (s.add_work work).status
        = (if s.status = _Threadpool_Status.IDLE then _Threadpool_Status.RUNNING else s.status)
    ∧ (s.add_work work).worker_semaphore
        = s.worker_semaphore + (if s.status = _Threadpool_Status.IDLE then 1 else 0)
    ∧ (s.add_work work).working_threads = s.working_threads
    ∧ (s.add_work work).idle_waiting = s.idle_waiting
    ∧ (s.add_work work).wait_for_idle_semaphore = s.wait_for_idle_semaphore := by
  unfold add_work
  by_cases hst : s.status = _Threadpool_Status.IDLE
  · simp [hst]
  · simp [hst]

/-- C5: every step that posts a permit of `wait_for_idle_semaphore` is the critical section
of a worker (line 66), it posts exactly one permit, and the state it leaves has an empty queue,
`working_threads = 0`, status `IDLE` (it was `RUNNING` before the step) and no worker
executing a job or in a run of claims; so a blocked `wait_for_idle` caller, who can only be
released by such a permit, is released only from such a state. -/
theorem idle_post_only_when_drained (n : Nat) (s t : Threadpool J) (a : PoolAction J)
    (h : Reachable n s) (hs : s.step a = some t)
    (hpost : s.wait_for_idle_semaphore < t.wait_for_idle_semaphore) :
    (∃ i, a = PoolAction.worker_claim i)
    ∧ t.wait_for_idle_semaphore = s.wait_for_idle_semaphore + 1
    ∧ s.status = _Threadpool_Status.RUNNING
    ∧ t.status = _Threadpool_Status.IDLE
    ∧ t.jobs = []
    ∧ t.working_threads = 0
    ∧ t.busy_count = 0
    ∧ t.in_execution = [] := by
  obtain ⟨i, ha, hw, hcl, hj, _, _, hti, hsem⟩ := step_idle_post hs hpost
  have hi := inv_of_reachable h
  have hit := inv_step hi a hs
  have hbusy : 0 < s.busy_count := countP_pos_of_get? Worker.busy s.threads i _ hw rfl
  have hrun : s.status = _Threadpool_Status.RUNNING := by
    cases hst : s.status with
    | IDLE =>
      have h0 := (hi.idle hst).2
      have hc := hi.count hcl
      omega
    | RUNNING => rfl
    | CLOSING => exact absurd hst hcl
  have hcnt : t.busy_count = 0 := by
    have := hit.count (by rw [hti]; decide)
    rw [← this]
    exact (hit.idle hti).2
  refine ⟨⟨i, ha⟩, hsem, hrun, hti, (hit.idle hti).1, (hit.idle hti).2, hcnt, ?_⟩
  refine filterMap_eq_nil_of_countP Worker.current Worker.busy ?_ t.threads hcnt
  intro w hw
  cases w <;> simp [Worker.current, Worker.busy] at hw ⊢

/-- Witness of C5: one worker runs the only job while a caller of `wait_for_idle` is blocked;
the worker's next critical section finds the queue empty and posts the permit. -/
theorem idle_post_only_when_drained_witness :
    ((ctor 1 : Threadpool Nat).runD
        [PoolAction.add_work 7, PoolAction.wait_enter, PoolAction.worker_wake 0,
         PoolAction.worker_claim 0, PoolAction.worker_execute 0]).wait_for_idle_semaphore = 0
    ∧ ((ctor 1 : Threadpool Nat).runD
        [PoolAction.add_work 7, PoolAction.wait_enter, PoolAction.worker_wake 0,
         PoolAction.worker_claim 0, PoolAction.worker_execute 0,
         PoolAction.worker_claim 0]).wait_for_idle_semaphore = 1
    ∧ ((ctor 1 : Threadpool Nat).runD
        [PoolAction.add_work 7, PoolAction.wait_enter, PoolAction.worker_wake 0,
         PoolAction.worker_claim 0, PoolAction.worker_execute 0,
         PoolAction.worker_claim 0]).in_execution = [] :=
  ⟨by decide, by decide,
   (idle_post_only_when_drained 1
      ((ctor 1 : Threadpool Nat).runD
        [PoolAction.add_work 7, PoolAction.wait_enter, PoolAction.worker_wake 0,
         PoolAction.worker_claim 0, PoolAction.worker_execute 0])
      ((ctor 1 : Threadpool Nat).runD
        [PoolAction.add_work 7, PoolAction.wait_enter, PoolAction.worker_wake 0,
         PoolAction.worker_claim 0, PoolAction.worker_execute 0,
         PoolAction.worker_claim 0])
      (PoolAction.worker_claim 0)
      (reachable_runD 1 _ (by decide)) (by rfl) (by decide)).2.2.2.2.2.2.2⟩

/-- The steps at which `wait_for_idle` returns change nothing but the caller's own
control state. -/
theorem step_wait_exit {s t : Threadpool J} {a : PoolAction J} (hs : s.step a = some t)
    (ha : a.is_wait_exit = true) (hst : s.status = _Threadpool_Status.IDLE) :
    t.executed = s.executed ∧ t.submitted = s.submitted ∧ t.jobs = s.jobs
    ∧ t.threads = s.threads ∧ t.status = s.status ∧ t.aborted = false := by
  obtain ⟨hab, _, h⟩ := step_spec hs
  cases a with
  | wait_enter =>
    simp only at h
    rcases h with ⟨_, rfl⟩ | ⟨hne, _⟩
    · exact ⟨rfl, rfl, rfl, rfl, rfl, hab⟩
    · exact absurd hst hne
  | wait_check =>
    simp only at h
    rcases h with ⟨_, ⟨_, rfl⟩ | ⟨hne, _⟩⟩
    · exact ⟨rfl, rfl, rfl, rfl, rfl, hab⟩
    · exact absurd hst hne
  | dtor_enter =>
    simp only at h
    rcases h with ⟨_, ⟨_, rfl⟩ | ⟨hne, _⟩⟩
    · exact ⟨rfl, rfl, rfl, rfl, rfl, hab⟩
    · exact absurd hst hne
  | dtor_check =>
    simp only at h
    rcases h with ⟨_, ⟨_, rfl⟩ | ⟨hne, _⟩⟩
    · exact ⟨rfl, rfl, rfl, rfl, rfl, hab⟩
    · exact absurd hst hne
  | add_work work => cases ha
  | worker_wake i => cases ha
  | worker_claim i => cases ha
  | worker_execute i => cases ha
  | wait_wake => cases ha
  | dtor_wake => cases ha
  | dtor_close => cases ha
  | dtor_post => cases ha
  | dtor_join => cases ha

/-- In an idle state every submitted job has been executed exactly once. -/
theorem executed_perm_of_idle {n : Nat} {s : Threadpool J} (h : Inv n s)
    (hst : s.status = _Threadpool_Status.IDLE) :
    s.executed.Perm s.submitted ∧ s.jobs = [] ∧ s.in_execution = [] := by
  have hj := (h.idle hst).1
  have hw := (h.idle hst).2
  have hc := h.count (by rw [hst]; decide)
  have hnil : s.in_execution = [] := by
    refine filterMap_eq_nil_of_countP Worker.current Worker.busy ?_ s.threads ?_
    · intro w hw
      cases w <;> simp [Worker.current, Worker.busy] at hw ⊢
    · simp only [busy_count] at hc
      omega
  refine ⟨?_, hj, hnil⟩
  have h1 := h.once
  rw [hnil, List.append_nil] at h1
  have h2 := h.fifo
  rw [hj, List.append_nil] at h2
  rw [h2]
  exact h1.symm

/-- C6, as stated, fails: the destructor of a one-worker pool returns from `wait_for_idle`
at once, another thread then submits a job, and the destructor sets `CLOSING` over a
non-empty queue without aborting. -/
theorem dtor_close_abort_fails :
    ¬ (∀ (n : Nat) (s t : Threadpool Nat), Reachable n s →
        s.step PoolAction.dtor_close = some t →
        (s.jobs ≠ [] ∨ s.working_threads ≠ 0) → t.aborted = true) := by
  intro h
  have h1 := h 1
    ((ctor 1).runD [PoolAction.dtor_enter, PoolAction.add_work 7])
    ((ctor 1).runD [PoolAction.dtor_enter, PoolAction.add_work 7, PoolAction.dtor_close])
    (reachable_runD 1 _ (by decide)) (by rfl) (Or.inl (by decide))
  revert h1
  decide

/-- C6 (amended): a step of the destructor aborts exactly when it is the read of `status`
after the destructor was woken inside its `wait_for_idle` and that read is not `IDLE`.  The
step that sets `CLOSING` checks nothing: it never aborts, leaves the queue, the counter and
the workers as they are, and the shutdown goes on with the post of line 97. -/
theorem dtor_aborts_only_in_wait (s t : Threadpool J) (a : PoolAction J)
    (hs : s.step a = some t) (hd : a.is_dtor = true) :
    (t.aborted = true ↔ a = PoolAction.dtor_check ∧ s.status ≠ _Threadpool_Status.IDLE)
    ∧ (a = PoolAction.dtor_close →
        t.aborted = false ∧ t.status = _Threadpool_Status.CLOSING ∧ t.dtor = Dtor.post
        ∧ t.jobs = s.jobs ∧ t.working_threads = s.working_threads
        ∧ t.threads = s.threads) := by
  unfold step at hs
  split at hs
  · cases hs
  · rename_i hlive
    have hab : s.aborted = false := by
      cases hb : s.aborted
      · rfl
      · exact absurd (Or.inl hb) hlive
    cases a with
    | dtor_enter =>
      simp only [wait_for_idle_critical] at hs
      split at hs
      · by_cases hst : s.status = _Threadpool_Status.IDLE
        · simp only [hst, if_true, Option.some.injEq] at hs
          subst hs
          simp [hab]
        · simp only [hst, if_false, Bool.false_eq_true, Option.some.injEq] at hs
          subst hs
          simp [hab]
      · cases hs
    | dtor_wake =>
      simp only at hs
      split at hs
      · simp only [Option.some.injEq] at hs
        subst hs
        simp [hab]
      · cases hs
    | dtor_check =>
      simp only at hs
      split at hs
      · by_cases hst : s.status = _Threadpool_Status.IDLE
        · simp only [hst, ne_eq, not_true_eq_false, if_false, Option.some.injEq] at hs
          subst hs
          simp [hab, hst]
        · simp only [ne_eq, hst, not_false_eq_true, if_true, Option.some.injEq] at hs
          subst hs
          simp [hst]
      · cases hs
    | dtor_close =>
      simp only at hs
      split at hs
      · simp only [Option.some.injEq] at hs
        subst hs
        simp [hab]
      · cases hs
    | dtor_post =>
      simp only at hs
      split at hs
      · simp only [Option.some.injEq] at hs
        subst hs
        simp [hab]
      · cases hs
    | dtor_join =>
      simp only at hs
      split at hs
      · simp only [Option.some.injEq] at hs
        subst hs
        simp [hab]
      · cases hs
    | add_work work => cases hd
    | worker_wake i => cases hd
    | worker_claim i => cases hd
    | worker_execute i => cases hd
    | wait_enter => cases hd
    | wait_wake => cases hd
    | wait_check => cases hd

/-- Witness of C6 (amended): the destructor closes a one-worker pool whose queue holds a job
submitted after its `wait_for_idle` returned; no abort, and the whole shutdown runs to its
last step with the job still in the queue, never executed. -/
theorem dtor_aborts_only_in_wait_witness :
    ((ctor 1 : Threadpool Nat).runD
        [PoolAction.dtor_enter, PoolAction.add_work 7]).jobs = [7]
    ∧ ((ctor 1 : Threadpool Nat).runD
        [PoolAction.dtor_enter, PoolAction.add_work 7, PoolAction.dtor_close]).aborted = false
    ∧ ((ctor 1 : Threadpool Nat).runD
        [PoolAction.dtor_enter, PoolAction.add_work 7, PoolAction.dtor_close,
         PoolAction.dtor_post, PoolAction.worker_wake 0, PoolAction.worker_claim 0,
         PoolAction.dtor_join]).dtor = Dtor.destroyed
    ∧ ((ctor 1 : Threadpool Nat).runD
        [PoolAction.dtor_enter, PoolAction.add_work 7, PoolAction.dtor_close,
         PoolAction.dtor_post, PoolAction.worker_wake 0, PoolAction.worker_claim 0,
         PoolAction.dtor_join]).jobs = [7]
    ∧ ((ctor 1 : Threadpool Nat).runD
        [PoolAction.dtor_enter, PoolAction.add_work 7, PoolAction.dtor_close,
         PoolAction.dtor_post, PoolAction.worker_wake 0, PoolAction.worker_claim 0,
         PoolAction.dtor_join]).executed = [] :=
  ⟨by decide,
   ((dtor_aborts_only_in_wait
      ((ctor 1 : Threadpool Nat).runD [PoolAction.dtor_enter, PoolAction.add_work 7])
      ((ctor 1 : Threadpool Nat).runD
        [PoolAction.dtor_enter, PoolAction.add_work 7, PoolAction.dtor_close])
      PoolAction.dtor_close (by rfl) rfl).2 rfl).1,
   by decide, by decide, by decide⟩

/-- C7: the failing run.  With one worker, a single caller of `wait_for_idle` and no
destructor, the run `example_racing_add_work` follows the usage rule `single_waiter`; after
its first six steps every submitted job has been executed, the status is `IDLE` and the
permit of the caller is posted; the `add_work` of another thread then sets `RUNNING`, and
the caller, woken, reads `RUNNING` at line 86 and calls `abort()`.  So it is not true that
`wait_for_idle` never reaches its abort branch when at most one thread is inside it and the
pool is not being destroyed. -/
theorem single_waiter_abort_free_fails :
    ((ctor 1 : Threadpool Nat).run_where single_waiter example_racing_add_work).isSome = true
    ∧ ((ctor 1 : Threadpool Nat).runD (example_racing_add_work.take 6)).executed = [1]
    ∧ ((ctor 1 : Threadpool Nat).runD (example_racing_add_work.take 6)).status
        = _Threadpool_Status.IDLE
    ∧ ((ctor 1 : Threadpool Nat).runD (example_racing_add_work.take 6)).wait_for_idle_semaphore
        = 1
    ∧ ((ctor 1 : Threadpool Nat).runD (example_racing_add_work.take 7)).status
        = _Threadpool_Status.RUNNING
    ∧ ((ctor 1 : Threadpool Nat).runD (example_racing_add_work.take 8)).aborted = false
    ∧ ((ctor 1 : Threadpool Nat).runD example_racing_add_work).aborted = true
    ∧ ¬ (∀ (n : Nat) (acts : List (PoolAction Nat)) (s : Threadpool Nat),
        (ctor n).run_where single_waiter acts = some s → s.aborted = false) := by
  refine ⟨by decide, by decide, by decide, by decide, by decide, by decide, by decide, ?_⟩
  intro h
  have h1 := h 1 example_racing_add_work ((ctor 1).runD example_racing_add_work) (by rfl)
  revert h1
  decide

theorem calm_ctor (n : Nat) : Calm (ctor n : Threadpool J) where
  alive := rfl
  one_permit := by simp [ctor]
  woken_idle := by simp [ctor]
  flagged := by simp [ctor]
  one_waiter := by simp [ctor]
  permit_for := by simp [ctor]

/-- A step that touches neither the status nor anything of `wait_for_idle` keeps `Calm`. -/
theorem calm_frame {s t : Threadpool J} (h : Calm s)
    (e1 : t.aborted = s.aborted) (e2 : t.wait_for_idle_semaphore = s.wait_for_idle_semaphore)
    (e3 : t.checking = s.checking) (e4 : t.waiting = s.waiting)
    (e5 : t.idle_waiting = s.idle_waiting) (e6 : t.status = s.status) : Calm t := by
  obtain ⟨h1, h2, h3, h4, h5, h6⟩ := h
  refine ⟨?_, ?_, ?_, ?_, ?_, ?_⟩
  · rw [e1]; exact h1
  · rw [e2, e3]; exact h2
  · rw [e2, e3, e6]; exact h3
  · rw [e5, e4, e2, e3]; exact h4
  · rw [e4, e3]; exact h5
  · rw [e2, e4]; exact h6

theorem calm_claim {s : Threadpool J} (h : Calm s) (i : Nat) (first_job : Bool) :
    Calm { (s._run_worker_critical first_job).1 with
            threads := (s._run_worker_critical first_job).1.threads.set i
              (s._run_worker_critical first_job).2 } := by
  by_cases hcl : s.status = _Threadpool_Status.CLOSING
  · rw [critical_closing s first_job hcl]
    exact calm_frame h rfl rfl rfl rfl rfl rfl
  · cases hj : s.jobs with
    | cons unit_of_work rest =>
      rw [critical_pop s first_job unit_of_work rest hcl hj]
      exact calm_frame h rfl rfl rfl rfl rfl rfl
    | nil =>
      cases first_job with
      | true =>
        rw [critical_surplus s hcl hj]
        exact calm_frame h rfl rfl rfl rfl rfl rfl
      | false =>
        by_cases hz : (UINT_SIZE - 1 + s.working_threads) % UINT_SIZE = 0
        · rw [critical_last s hcl hj hz]
          obtain ⟨h1, h2, h3, h4, h5, h6⟩ := h
          cases hiw : s.idle_waiting
          · refine ⟨h1, ?_, ?_, ?_, h5, ?_⟩
            · simpa [hiw] using h2
            · intro _; rfl
            · intro hf; cases hf
            · simpa [hiw] using h6
          · obtain ⟨k1, k2, k3⟩ := h4 hiw
            refine ⟨h1, ?_, ?_, ?_, h5, ?_⟩
            · simp [k2, k3]
            · intro _; rfl
            · intro hf; cases hf
            · intro _; exact k1
        · rw [critical_leave s hcl hj hz]
          exact calm_frame h rfl rfl rfl rfl rfl rfl

theorem calm_step {s t : Threadpool J} {a : PoolAction J} (h : Calm s)
    (hok : s.single_waiter_quiet_wake a = true) (hs : s.step a = some t) : Calm t := by
  obtain ⟨_, _, hsp⟩ := step_spec hs
  cases a with
  | add_work work =>
    simp only at hsp
    subst hsp
    simp only [single_waiter_quiet_wake, single_waiter, PoolAction.is_dtor, Bool.not_false,
      Bool.and_self, Bool.true_and, beq_iff_eq] at hok
    obtain ⟨h1, h2, h3, h4, h5, h6⟩ := h
    obtain ⟨_, f2, _, f4, f5, f6, _, f8, _, _⟩ := add_work_frame s work
    refine ⟨?_, ?_, ?_, ?_, ?_, ?_⟩
    · rw [f8]; exact h1
    · rw [f4, f6]; exact h2
    · rw [f4, f6]
      intro hp
      omega
    · rw [f2, f5, f4, f6]; exact h4
    · rw [f5, f6]; exact h5
    · rw [f4, f5]; exact h6
  | worker_wake i =>
    simp only at hsp
    obtain ⟨_, _, rfl⟩ := hsp
    exact calm_frame h rfl rfl rfl rfl rfl rfl
  | worker_claim i =>
    simp only at hsp
    obtain ⟨first_job, _, rfl⟩ := hsp
    exact calm_claim h i first_job
  | worker_execute i =>
    simp only at hsp
    obtain ⟨_, _, rfl⟩ := hsp
    exact calm_frame h rfl rfl rfl rfl rfl rfl
  | wait_enter =>
    simp only [single_waiter_quiet_wake, single_waiter, PoolAction.is_dtor, Bool.not_false,
      Bool.and_true, Bool.true_and, beq_iff_eq] at hok
    simp only at hsp
    rcases hsp with ⟨_, rfl⟩ | ⟨_, rfl⟩
    · exact h
    · obtain ⟨h1, h2, h3, h4, h5, h6⟩ := h
      have hsem : s.wait_for_idle_semaphore = 0 := by
        by_contra hne
        have := h6 (by omega)
        omega
      refine ⟨h1, h2, h3, ?_, ?_, ?_⟩
      · intro _
        simp only
        omega
      · simp only
        omega
      · intro _
        simp only
        omega
  | wait_wake =>
    simp only at hsp
    obtain ⟨hw0, hp0, rfl⟩ := hsp
    obtain ⟨h1, h2, h3, h4, h5, h6⟩ := h
    have hw := h6 hp0
    refine ⟨h1, ?_, ?_, ?_, ?_, ?_⟩
    · simp only; omega
    · intro _
      exact h3 (by omega)
    · intro hf
      have := (h4 hf).2.1
      omega
    · simp only; omega
    · intro hp
      simp only at hp
      omega
  | wait_check =>
    simp only at hsp
    obtain ⟨h1, h2, h3, h4, h5, h6⟩ := h
    rcases hsp with ⟨hc0, ⟨hst, rfl⟩ | ⟨hne, _⟩⟩
    · refine ⟨h1, ?_, ?_, ?_, ?_, h6⟩
      · simp only; omega
      · intro _; exact hst
      · intro hf
        have := (h4 hf).2.2
        omega
      · simp only; omega
    · exact absurd (h3 (by omega)) hne
  | dtor_enter => simp [single_waiter_quiet_wake, single_waiter, PoolAction.is_dtor] at hok
  | dtor_wake => simp [single_waiter_quiet_wake, single_waiter, PoolAction.is_dtor] at hok
  | dtor_check => simp [single_waiter_quiet_wake, single_waiter, PoolAction.is_dtor] at hok
  | dtor_close => simp [single_waiter_quiet_wake, single_waiter, PoolAction.is_dtor] at hok
  | dtor_post => simp [single_waiter_quiet_wake, single_waiter, PoolAction.is_dtor] at hok
  | dtor_join => simp [single_waiter_quiet_wake, single_waiter, PoolAction.is_dtor] at hok

theorem calm_run : ∀ (acts : List (PoolAction J)) (s t : Threadpool J),
    Calm s → s.run_where single_waiter_quiet_wake acts = some t → Calm t
  | [], s, t, h, hr => by
      simp only [run_where, Option.some.injEq] at hr
      exact hr ▸ h
  | a :: acts, s, t, h, hr => by
      simp only [run_where] at hr
      split at hr
      · rename_i hok
        cases hs : s.step a with
        | none => simp [hs] at hr
        | some s1 =>
          simp only [hs, Option.some_bind] at hr
          exact calm_run acts s1 t (calm_step h hok hs) hr
      · cases hr

/-- Along every schedule that follows `single_waiter_quiet_wake` no caller of
`wait_for_idle` reaches the abort branch. -/
theorem single_waiter_quiet_wake_abort_free (n : Nat) (acts : List (PoolAction J))
    (s : Threadpool J)
    (h : (ctor n).run_where single_waiter_quiet_wake acts = some s) :
    s.aborted = false :=
  (calm_run acts _ s (calm_ctor n) h).alive

/-- C8: in a state with status `IDLE` (the process alive, the pool not destroyed), and in
particular in the state the constructor produces, `wait_for_idle` returns at line 82, inside
its critical section: the caller never reaches `sem_wait`, and the whole state is unchanged
(no flag set, no permit taken or posted, no waiter registered, no job executed). -/
theorem wait_for_idle_idle_noop (n : Nat) (s : Threadpool J)
    (hst : s.status = _Threadpool_Status.IDLE) (hab : s.aborted = false)
    (hd : s.dtor ≠ Dtor.destroyed) :
    s.wait_for_idle_critical = (s, true)
    ∧ s.step PoolAction.wait_enter = some s
    ∧ (ctor n : Threadpool J).status = _Threadpool_Status.IDLE
    ∧ (ctor n : Threadpool J).step PoolAction.wait_enter = some (ctor n) := by
  refine ⟨?_, ?_, rfl, ?_⟩
  · simp [wait_for_idle_critical, hst]
  · simp [step, wait_for_idle_critical, hst, hab, hd]
  · simp [step, wait_for_idle_critical, ctor]

/-- Witness of C8: a pool that ran one job and went back to `IDLE`. -/
theorem wait_for_idle_idle_noop_witness :
    ((ctor 1 : Threadpool Nat).runD
        [PoolAction.add_work 7, PoolAction.worker_wake 0, PoolAction.worker_claim 0,
         PoolAction.worker_execute 0, PoolAction.worker_claim 0]).step PoolAction.wait_enter
      = some ((ctor 1 : Threadpool Nat).runD
        [PoolAction.add_work 7, PoolAction.worker_wake 0, PoolAction.worker_claim 0,
         PoolAction.worker_execute 0, PoolAction.worker_claim 0]) :=
  (wait_for_idle_idle_noop 1
    ((ctor 1 : Threadpool Nat).runD
        [PoolAction.add_work 7, PoolAction.worker_wake 0, PoolAction.worker_claim 0,
         PoolAction.worker_execute 0, PoolAction.worker_claim 0])
    (by decide) (by decide) (by decide)).2.1

/-- Only `worker_execute` extends the completion log, by the job the worker was running. -/
theorem step_executed {s t : Threadpool J} {a : PoolAction J} (hs : s.step a = some t) :
    t.executed = s.executed ++ s.finished a := by
  obtain ⟨_, _, h⟩ := step_spec hs
  cases a with
  | add_work work =>
    simp only at h
    subst h
    simp only [finished, List.append_nil]
    exact (add_work_frame s work).2.2.2.2.2.2.2.2.2
  | worker_wake i =>
    simp only at h
    obtain ⟨_, _, rfl⟩ := h
    simp only [finished, List.append_nil]
  | worker_claim i =>
    simp only at h
    obtain ⟨first_job, _, rfl⟩ := h
    simp only [finished, List.append_nil]
    exact (critical_frame s first_job).1
  | worker_execute i =>
    simp only at h
    obtain ⟨unit_of_work, hw, rfl⟩ := h
    simp only [finished, hw]
  | wait_enter =>
    simp only at h
    rcases h with ⟨_, rfl⟩ | ⟨_, rfl⟩ <;> simp only [finished, List.append_nil]
  | wait_wake =>
    simp only at h
    obtain ⟨_, _, rfl⟩ := h
    simp only [finished, List.append_nil]
  | wait_check =>
    simp only at h
    rcases h with ⟨_, ⟨_, rfl⟩ | ⟨_, rfl⟩⟩ <;> simp only [finished, List.append_nil]
  | dtor_enter =>
    simp only at h
    rcases h with ⟨_, ⟨_, rfl⟩ | ⟨_, rfl⟩⟩ <;> simp only [finished, List.append_nil]
  | dtor_wake =>
    simp only at h
    obtain ⟨_, _, rfl⟩ := h
    simp only [finished, List.append_nil]
  | dtor_check =>
    simp only at h
    rcases h with ⟨_, ⟨_, rfl⟩ | ⟨_, rfl⟩⟩ <;> simp only [finished, List.append_nil]
  | dtor_close =>
    simp only at h
    obtain ⟨_, rfl⟩ := h
    simp only [finished, List.append_nil]
  | dtor_post =>
    simp only at h
    obtain ⟨_, rfl⟩ := h
    simp only [finished, List.append_nil]
  | dtor_join =>
    simp only at h
    obtain ⟨_, rfl⟩ := h
    simp only [finished, List.append_nil]

/-- A step of a worker leaves the status alone or sets it to `IDLE`. -/
theorem step_worker_status {s t : Threadpool J} {a : PoolAction J} (hs : s.step a = some t)
    (ha : a.is_worker = true) :
    t.status = s.status ∨ t.status = _Threadpool_Status.IDLE := by
  obtain ⟨_, _, h⟩ := step_spec hs
  cases a with
  | worker_wake i => simp only at h; obtain ⟨_, _, rfl⟩ := h; exact Or.inl rfl
  | worker_claim i =>
    simp only at h
    obtain ⟨first_job, _, rfl⟩ := h
    exact (critical_frame s first_job).2.2.2.2.2.2.2.1
  | worker_execute i => simp only at h; obtain ⟨_, _, rfl⟩ := h; exact Or.inl rfl
  | add_work work => cases ha
  | wait_enter => cases ha
  | wait_wake => cases ha
  | wait_check => cases ha
  | dtor_enter => cases ha
  | dtor_wake => cases ha
  | dtor_check => cases ha
  | dtor_close => cases ha
  | dtor_post => cases ha
  | dtor_join => cases ha

theorem in_execution_set_nil {s : Threadpool J} (i : Nat) (w v : Worker J)
    (hw : s.threads.get? i = some w) (hv : v.current = none)
    (hq : s.threads.filterMap Worker.current = []) :
    (s.threads.set i v).filterMap Worker.current = [] := by
  have hf := filterMap_set_of_get? Worker.current s.threads i w v hw
  rw [hq, hv] at hf
  exact (List.append_eq_nil.mp hf.eq_nil).1

theorem not_executing_of_nil {s : Threadpool J} (i : Nat) (unit_of_work : J)
    (hq : s.threads.filterMap Worker.current = [])
    (hw : s.threads.get? i = some (Worker.executing unit_of_work)) : False := by
  have hm := mem_of_get? _ _ _ hw
  have : unit_of_work ∈ s.threads.filterMap Worker.current :=
    List.mem_filterMap.mpr ⟨_, hm, rfl⟩
  rw [hq] at this
  cases this

/-- With an empty queue and no job in execution, a step other than `add_work` keeps the
queue empty, starts no job and completes none. -/
theorem quiet_step {s t : Threadpool J} {a : PoolAction J} (hs : s.step a = some t)
    (ha : ∀ work, a ≠ PoolAction.add_work work)
    (hj : s.jobs = []) (hq : s.in_execution = []) :
    t.jobs = [] ∧ t.in_execution = [] ∧ t.executed = s.executed := by
  obtain ⟨_, _, h⟩ := step_spec hs
  unfold in_execution at hq ⊢
  cases a with
  | add_work work => exact absurd rfl (ha work)
  | worker_wake i =>
    simp only at h
    obtain ⟨hw, _, rfl⟩ := h
    exact ⟨hj, in_execution_set_nil i _ _ hw rfl hq, rfl⟩
  | worker_claim i =>
    simp only at h
    obtain ⟨first_job, hw, rfl⟩ := h
    obtain ⟨e1, _, e3, _, _, _, _, _, e9⟩ := critical_frame s first_job
    obtain ⟨k1, k2⟩ := e9 hj
    refine ⟨k1, ?_, e1⟩
    simp only [e3]
    exact in_execution_set_nil i _ _ hw k2 hq
  | worker_execute i =>
    simp only at h
    obtain ⟨unit_of_work, hw, rfl⟩ := h
    exact (not_executing_of_nil i unit_of_work hq hw).elim
  | wait_enter =>
    simp only at h
    rcases h with ⟨_, rfl⟩ | ⟨_, rfl⟩ <;> exact ⟨hj, hq, rfl⟩
  | wait_wake => simp only at h; obtain ⟨_, _, rfl⟩ := h; exact ⟨hj, hq, rfl⟩
  | wait_check =>
    simp only at h
    rcases h with ⟨_, ⟨_, rfl⟩ | ⟨_, rfl⟩⟩ <;> exact ⟨hj, hq, rfl⟩
  | dtor_enter =>
    simp only at h
    rcases h with ⟨_, ⟨_, rfl⟩ | ⟨_, rfl⟩⟩ <;> exact ⟨hj, hq, rfl⟩
  | dtor_wake => simp only at h; obtain ⟨_, _, rfl⟩ := h; exact ⟨hj, hq, rfl⟩
  | dtor_check =>
    simp only at h
    rcases h with ⟨_, ⟨_, rfl⟩ | ⟨_, rfl⟩⟩ <;> exact ⟨hj, hq, rfl⟩
  | dtor_close => simp only at h; obtain ⟨_, rfl⟩ := h; exact ⟨hj, hq, rfl⟩
  | dtor_post => simp only at h; obtain ⟨_, rfl⟩ := h; exact ⟨hj, hq, rfl⟩
  | dtor_join => simp only at h; obtain ⟨_, rfl⟩ := h; exact ⟨hj, hq, rfl⟩

/-- With no job in execution, no step completes a job. -/
theorem finished_nil_of_quiet (s : Threadpool J) (a : PoolAction J)
    (hq : s.in_execution = []) : s.finished a = [] := by
  cases a with
  | worker_execute i =>
    simp only [finished]
    split
    · rename_i unit_of_work hw
      exact (not_executing_of_nil i unit_of_work hq hw).elim
    · rfl
  | add_work work => rfl
  | worker_wake i => rfl
  | worker_claim i => rfl
  | wait_enter => rfl
  | wait_wake => rfl
  | wait_check => rfl
  | dtor_enter => rfl
  | dtor_wake => rfl
  | dtor_check => rfl
  | dtor_close => rfl
  | dtor_post => rfl
  | dtor_join => rfl

/-- The steps of a caller of `wait_for_idle` leave the status alone, and the read of
`status` goes on without abort only when it reads `IDLE`. -/
theorem step_wait_status {s t : Threadpool J} {a : PoolAction J} (hs : s.step a = some t)
    (ha : a.is_wait = true) :
    t.status = s.status
    ∧ (a = PoolAction.wait_check → t.aborted = false → s.status = _Threadpool_Status.IDLE) := by
  obtain ⟨_, _, h⟩ := step_spec hs
  cases a with
  | wait_enter =>
    simp only at h
    rcases h with ⟨_, rfl⟩ | ⟨_, rfl⟩
    · exact ⟨rfl, fun hf => PoolAction.noConfusion hf⟩
    · exact ⟨rfl, fun hf => PoolAction.noConfusion hf⟩
  | wait_wake =>
    simp only at h
    obtain ⟨_, _, rfl⟩ := h
    exact ⟨rfl, fun hf => PoolAction.noConfusion hf⟩
  | wait_check =>
    simp only at h
    rcases h with ⟨_, ⟨hst, rfl⟩ | ⟨_, rfl⟩⟩
    · exact ⟨rfl, fun _ _ => hst⟩
    · exact ⟨rfl, fun _ hf => Bool.noConfusion hf⟩
  | add_work work => cases ha
  | worker_wake i => cases ha
  | worker_claim i => cases ha
  | worker_execute i => cases ha
  | dtor_enter => cases ha
  | dtor_wake => cases ha
  | dtor_check => cases ha
  | dtor_close => cases ha
  | dtor_post => cases ha
  | dtor_join => cases ha

/-! ## One worker: execution order -/

theorem single_thread {w : Worker J} : ∀ (l : List (Worker J)) (i : Nat),
    l.length = 1 → l.get? i = some w → l = [w] ∧ ∀ v, l.set i v = [v]
  | [], _, hl, _ => by simp at hl
  | [x], 0, _, hw => by
      simp only [List.get?_cons_zero, Option.some.injEq] at hw
      subst hw
      exact ⟨rfl, fun v => rfl⟩
  | [x], i + 1, _, hw => by simp at hw
  | x :: y :: l, _, hl, _ => by simp at hl

theorem sequential_step {s t : Threadpool J} {a : PoolAction J} (hs : s.step a = some t)
    (hl : s.threads.length = 1) (h : s.dequeued = s.executed ++ s.in_execution) :
    t.threads.length = 1 ∧ t.dequeued = t.executed ++ t.in_execution := by
  obtain ⟨_, _, hsp⟩ := step_spec hs
  unfold in_execution at h ⊢
  cases a with
  | add_work work =>
    simp only at hsp
    subst hsp
    obtain ⟨f1, _, _, _, _, _, _, _, f9, f10⟩ := add_work_frame s work
    rw [f1, f9, f10]
    exact ⟨hl, h⟩
  | worker_wake i =>
    simp only at hsp
    obtain ⟨hw, _, rfl⟩ := hsp
    obtain ⟨e1, e2⟩ := single_thread s.threads i hl hw
    rw [e1] at h
    simp only [e2, List.length_singleton, true_and]
    simpa [Worker.current] using h
  | worker_claim i =>
    simp only at hsp
    obtain ⟨first_job, hw, rfl⟩ := hsp
    obtain ⟨e1, e2⟩ := single_thread s.threads i hl hw
    rw [e1] at h
    simp only [List.filterMap_cons, Worker.current, List.filterMap_nil, List.append_nil] at h
    by_cases hcl : s.status = _Threadpool_Status.CLOSING
    · rw [critical_closing s first_job hcl]
      simp only [e2, List.length_singleton, true_and]
      simpa [Worker.current] using h
    · cases hj : s.jobs with
      | cons unit_of_work rest =>
        rw [critical_pop s first_job unit_of_work rest hcl hj]
        simp only [e2, List.length_singleton, true_and]
        simp [Worker.current, h]
      | nil =>
        cases first_job with
        | true =>
          rw [critical_surplus s hcl hj]
          simp only [e2, List.length_singleton, true_and]
          simpa [Worker.current] using h
        | false =>
          by_cases hz : (UINT_SIZE - 1 + s.working_threads) % UINT_SIZE = 0
          · rw [critical_last s hcl hj hz]
            simp only [e2, List.length_singleton, true_and]
            simpa [Worker.current] using h
          · rw [critical_leave s hcl hj hz]
            simp only [e2, List.length_singleton, true_and]
            simpa [Worker.current] using h
  | worker_execute i =>
    simp only at hsp
    obtain ⟨unit_of_work, hw, rfl⟩ := hsp
    obtain ⟨e1, e2⟩ := single_thread s.threads i hl hw
    rw [e1] at h
    simp only [e2, List.length_singleton, true_and]
    simpa [Worker.current] using h
  | wait_enter =>
    simp only at hsp
    rcases hsp with ⟨_, rfl⟩ | ⟨_, rfl⟩ <;> exact ⟨hl, h⟩
  | wait_wake => simp only at hsp; obtain ⟨_, _, rfl⟩ := hsp; exact ⟨hl, h⟩
  | wait_check =>
    simp only at hsp
    rcases hsp with ⟨_, ⟨_, rfl⟩ | ⟨_, rfl⟩⟩ <;> exact ⟨hl, h⟩
  | dtor_enter =>
    simp only at hsp
    rcases hsp with ⟨_, ⟨_, rfl⟩ | ⟨_, rfl⟩⟩ <;> exact ⟨hl, h⟩
  | dtor_wake => simp only at hsp; obtain ⟨_, _, rfl⟩ := hsp; exact ⟨hl, h⟩
  | dtor_check =>
    simp only at hsp
    rcases hsp with ⟨_, ⟨_, rfl⟩ | ⟨_, rfl⟩⟩ <;> exact ⟨hl, h⟩
  | dtor_close => simp only at hsp; obtain ⟨_, rfl⟩ := hsp; exact ⟨hl, h⟩
  | dtor_post => simp only at hsp; obtain ⟨_, rfl⟩ := hsp; exact ⟨hl, h⟩
  | dtor_join => simp only at hsp; obtain ⟨_, rfl⟩ := hsp; exact ⟨hl, h⟩

theorem sequential_run : ∀ (acts : List (PoolAction J)) (s t : Threadpool J),
    s.threads.length = 1 → s.dequeued = s.executed ++ s.in_execution →
    s.run acts = some t → t.dequeued = t.executed ++ t.in_execution
  | [], s, t, _, h, hr => by
      simp only [run, Option.some.injEq] at hr
      exact hr ▸ h
  | a :: acts, s, t, hl, h, hr => by
      simp only [run] at hr
      cases hs : s.step a with
      | none => simp [hs] at hr
      | some s1 =>
        simp only [hs, Option.some_bind] at hr
        obtain ⟨k1, k2⟩ := sequential_step hs hl h
        exact sequential_run acts s1 t k1 k2 hr

/-- C11: in a pool constructed with exactly one worker, the jobs are executed in submission
order: in every reachable state the jobs passed to `add_work` so far are the completed
jobs in completion order, then the job in execution (if any), then the queue; and once the
pool is `IDLE` the completion log is the submission sequence itself. -/
theorem single_worker_executes_in_order (n : Nat) (s : Threadpool J)
    (h : Reachable n s) (h1 : n % UINT_SIZE = 1) :
    s.submitted = s.executed ++ s.in_execution ++ s.jobs
    ∧ s.in_execution.length ≤ 1
    ∧ (s.status = _Threadpool_Status.IDLE → s.executed = s.submitted) := by
  obtain ⟨acts, hr⟩ := h
  have hi := inv_run acts _ s (inv_ctor n) hr
  have hseq := sequential_run acts (ctor n) s (by simp [ctor, h1])
    (by simp [ctor, in_execution, h1, Worker.current]) hr
  have hsub : s.submitted = s.executed ++ s.in_execution ++ s.jobs := by
    rw [hi.fifo, hseq]
  refine ⟨hsub, ?_, ?_⟩
  · have hlen : s.in_execution.length ≤ s.threads.length := by
      unfold in_execution
      exact List.length_filterMap_le _ _
    rw [hi.size, h1] at hlen
    exact hlen
  · intro hidle
    obtain ⟨_, hj, hq⟩ := executed_perm_of_idle hi hidle
    rw [hsub, hj, hq, List.append_nil, List.append_nil]

/-- Witness of C11: one worker, three jobs; the third is submitted while the first runs. -/
theorem single_worker_executes_in_order_witness :
    ((ctor 1 : Threadpool Nat).runD
        [PoolAction.add_work 10, PoolAction.add_work 20, PoolAction.worker_wake 0,
         PoolAction.worker_claim 0, PoolAction.add_work 30, PoolAction.worker_execute 0,
         PoolAction.worker_claim 0, PoolAction.worker_execute 0, PoolAction.worker_claim 0,
         PoolAction.worker_execute 0, PoolAction.worker_claim 0]).executed = [10, 20, 30]
    ∧ (((ctor 1 : Threadpool Nat).runD
        [PoolAction.add_work 10, PoolAction.add_work 20, PoolAction.worker_wake 0,
         PoolAction.worker_claim 0, PoolAction.add_work 30, PoolAction.worker_execute 0,
         PoolAction.worker_claim 0, PoolAction.worker_execute 0, PoolAction.worker_claim 0,
         PoolAction.worker_execute 0, PoolAction.worker_claim 0]).status
        = _Threadpool_Status.IDLE →
      ((ctor 1 : Threadpool Nat).runD
        [PoolAction.add_work 10, PoolAction.add_work 20, PoolAction.worker_wake 0,
         PoolAction.worker_claim 0, PoolAction.add_work 30, PoolAction.worker_execute 0,
         PoolAction.worker_claim 0, PoolAction.worker_execute 0, PoolAction.worker_claim 0,
         PoolAction.worker_execute 0, PoolAction.worker_claim 0]).executed
      = ((ctor 1 : Threadpool Nat).runD
        [PoolAction.add_work 10, PoolAction.add_work 20, PoolAction.worker_wake 0,
         PoolAction.worker_claim 0, PoolAction.add_work 30, PoolAction.worker_execute 0,
         PoolAction.worker_claim 0, PoolAction.worker_execute 0, PoolAction.worker_claim 0,
         PoolAction.worker_execute 0, PoolAction.worker_claim 0]).submitted) :=
  ⟨by decide,
   (single_worker_executes_in_order 1 _ (reachable_runD 1 _ (by decide)) (by decide)).2.2⟩

/-! ## The busy counter -/

theorem in_execution_le_busy : ∀ l : List (Worker J),
    (l.filterMap Worker.current).length ≤ l.countP Worker.busy
  | [] => Nat.le_refl _
  | w :: l => by
      have ih := in_execution_le_busy l
      cases w with
      | blocked =>
        simp only [List.filterMap_cons, Worker.current, List.countP_cons, Worker.busy]
        omega
      | claiming first_job =>
        simp only [List.filterMap_cons, Worker.current, List.countP_cons, Worker.busy]
        omega
      | executing unit_of_work =>
        simp only [List.filterMap_cons, Worker.current, List.countP_cons, Worker.busy,
          List.length_cons, if_true]
        omega
      | returned =>
        simp only [List.filterMap_cons, Worker.current, List.countP_cons, Worker.busy]
        omega

/-- A step that ends with status `CLOSING` has not written `working_threads`. -/
theorem step_into_closing {s t : Threadpool J} {a : PoolAction J} (hs : s.step a = some t)
    (hc : t.status = _Threadpool_Status.CLOSING) :
    t.working_threads = s.working_threads := by
  obtain ⟨_, _, hsp⟩ := step_spec hs
  cases a with
  | add_work work =>
    simp only at hsp
    subst hsp
    exact (add_work_frame s work).2.2.1
  | worker_wake i => simp only at hsp; obtain ⟨_, _, rfl⟩ := hsp; rfl
  | worker_claim i =>
    simp only at hsp
    obtain ⟨first_job, hw, rfl⟩ := hsp
    by_cases hcl : s.status = _Threadpool_Status.CLOSING
    · rw [critical_closing s first_job hcl]
    · exfalso
      rcases (critical_frame s first_job).2.2.2.2.2.2.2.1 with h1 | h1
      · exact hcl (h1.symm.trans hc)
      · have : (s._run_worker_critical first_job).1.status = _Threadpool_Status.CLOSING := hc
        rw [h1] at this
        cases this
  | worker_execute i => simp only at hsp; obtain ⟨_, _, rfl⟩ := hsp; rfl
  | wait_enter =>
    simp only at hsp
    rcases hsp with ⟨_, rfl⟩ | ⟨_, rfl⟩ <;> rfl
  | wait_wake => simp only at hsp; obtain ⟨_, _, rfl⟩ := hsp; rfl
  | wait_check =>
    simp only at hsp
    rcases hsp with ⟨_, ⟨_, rfl⟩ | ⟨_, rfl⟩⟩ <;> rfl
  | dtor_enter =>
    simp only at hsp
    rcases hsp with ⟨_, ⟨_, rfl⟩ | ⟨_, rfl⟩⟩ <;> rfl
  | dtor_wake => simp only at hsp; obtain ⟨_, _, rfl⟩ := hsp; rfl
  | dtor_check =>
    simp only at hsp
    rcases hsp with ⟨_, ⟨_, rfl⟩ | ⟨_, rfl⟩⟩ <;> rfl
  | dtor_close => simp only at hsp; obtain ⟨_, rfl⟩ := hsp; rfl
  | dtor_post => simp only at hsp; obtain ⟨_, rfl⟩ := hsp; rfl
  | dtor_join => simp only at hsp; obtain ⟨_, rfl⟩ := hsp; rfl

theorem counter_bound_run {n : Nat} : ∀ (acts : List (PoolAction J)) (s t : Threadpool J),
    Inv n s → s.working_threads ≤ n % UINT_SIZE → s.run acts = some t →
    t.working_threads ≤ n % UINT_SIZE
  | [], s, t, _, hb, hr => by
      simp only [run, Option.some.injEq] at hr
      exact hr ▸ hb
  | a :: acts, s, t, hi, hb, hr => by
      simp only [run] at hr
      cases hs : s.step a with
      | none => simp [hs] at hr
      | some s1 =>
        simp only [hs, Option.some_bind] at hr
        have hi1 := inv_step hi a hs
        have hb1 : s1.working_threads ≤ n % UINT_SIZE := by
          by_cases hc : s1.status = _Threadpool_Status.CLOSING
          · rw [step_into_closing hs hc]
            exact hb
          · rw [hi1.count hc, ← hi1.size]
            exact List.countP_le_length _
        exact counter_bound_run acts s1 t hi1 hb1 hr

/-- C12, as stated, fails: a job is submitted after the `wait_for_idle` of the destructor
has returned; the worker that runs it finds `CLOSING` at its next critical section and leaves
the loop without undoing its increment, so `working_threads` is 1 with no worker left in a
run of claims. -/
theorem counter_equals_busy_fails :
    ¬ (∀ (n : Nat) (s : Threadpool Nat), Reachable n s → s.working_threads = s.busy_count) := by
  intro h
  have h1 := h 1
    ((ctor 1).runD
      [PoolAction.dtor_enter, PoolAction.add_work 7, PoolAction.worker_wake 0,
       PoolAction.worker_claim 0, PoolAction.dtor_close, PoolAction.worker_execute 0,
       PoolAction.worker_claim 0])
    (reachable_runD 1 _ (by decide))
  revert h1
  decide

/-- C12 (amended): in every reachable state of a pool with `N = num_threads mod 2^32` workers,
as long as the status is not `CLOSING`, `working_threads` is the number of workers whose
`first_job` is `false`; in every reachable state each worker executing a job is one of
those, and neither `working_threads` nor the number of workers whose `first_job` is `false`
nor the number of workers executing a job exceeds `N`. -/
theorem counter_equals_busy (n : Nat) (s : Threadpool J) (h : Reachable n s) :
    (s.status ≠ _Threadpool_Status.CLOSING → s.working_threads = s.busy_count)
    ∧ s.in_execution.length ≤ s.busy_count
    ∧ s.busy_count ≤ n % UINT_SIZE
    ∧ s.working_threads ≤ n % UINT_SIZE
    ∧ s.threads.length = n % UINT_SIZE := by
  have hi := inv_of_reachable h
  obtain ⟨acts, hr⟩ := h
  refine ⟨hi.count, in_execution_le_busy s.threads, ?_, ?_, hi.size⟩
  · rw [← hi.size]
    exact List.countP_le_length _
  · exact counter_bound_run acts (ctor n) s (inv_ctor n) (Nat.zero_le _) hr

/-- Witness of C12 (amended): three workers, five jobs, all three workers executing. -/
theorem counter_equals_busy_witness :
    ((ctor 3 : Threadpool Nat).runD
        [PoolAction.add_work 1, PoolAction.add_work 2, PoolAction.add_work 3,
         PoolAction.add_work 4, PoolAction.add_work 5, PoolAction.worker_wake 0,
         PoolAction.worker_claim 0, PoolAction.worker_wake 1, PoolAction.worker_claim 1,
         PoolAction.worker_wake 2, PoolAction.worker_claim 2]).working_threads = 3
    ∧ ((ctor 3 : Threadpool Nat).runD
        [PoolAction.add_work 1, PoolAction.add_work 2, PoolAction.add_work 3,
         PoolAction.add_work 4, PoolAction.add_work 5, PoolAction.worker_wake 0,
         PoolAction.worker_claim 0, PoolAction.worker_wake 1, PoolAction.worker_claim 1,
         PoolAction.worker_wake 2, PoolAction.worker_claim 2]).busy_count ≤ 3 % UINT_SIZE :=
  ⟨by decide,
   (counter_equals_busy 3 _ (reachable_runD 3 _ (by decide))).2.2.1⟩

/-! ## The two branches of the claim step -/

theorem uint_dec (x : Nat) (h1 : 1 ≤ x) (h2 : x < UINT_SIZE) :
    (UINT_SIZE - 1 + x) % UINT_SIZE = x - 1 := by
  have : UINT_SIZE - 1 + x = (x - 1) + UINT_SIZE := by omega
  rw [this, Nat.add_mod_right, Nat.mod_eq_of_lt (by omega)]

/-- C13: the claim step of a worker with status not `CLOSING` and a non-empty queue.  The
head job is removed and is the job the worker executes next; `working_threads` grows by one
exactly when `first_job` is set (the first pop since the worker last passed `sem_wait`); one
permit of `worker_semaphore` is posted when the queue is still non-empty and the updated
`working_threads` is below the number of workers, none otherwise; `status`, `idle_waiting`
and `wait_for_idle_semaphore` are unchanged. -/
theorem claim_pop_effect (n : Nat) (s : Threadpool J) (i : Nat) (first_job : Bool)
    (unit_of_work : J) (rest : List J) (h : Reachable n s)
    (hcl : s.status ≠ _Threadpool_Status.CLOSING) (hj : s.jobs = unit_of_work :: rest)
    (hw : s.threads.get? i = some (Worker.claiming first_job)) :
    (s._run_worker_critical first_job).2 = Worker.executing unit_of_work
    ∧ (s._run_worker_critical first_job).1.jobs = rest
    ∧ (s._run_worker_critical first_job).1.working_threads
        = s.working_threads + (if first_job = true then 1 else 0)
    ∧ (s._run_worker_critical first_job).1.worker_semaphore
        = s.worker_semaphore +
          (if 0 < rest.length ∧
              s.working_threads + (if first_job = true then 1 else 0) < n % UINT_SIZE
           then 1 else 0)
    ∧ (s._run_worker_critical first_job).1.status = s.status
    ∧ (s._run_worker_critical first_job).1.idle_waiting = s.idle_waiting
    ∧ (s._run_worker_critical first_job).1.wait_for_idle_semaphore
        = s.wait_for_idle_semaphore := by
  have hi := inv_of_reachable h
  have hU := uint_lt n
  have hsz := hi.size
  have hwt := hi.count hcl
  simp only [busy_count] at hwt
  have hinc : (if first_job = true then (s.working_threads + 1) % UINT_SIZE
        else s.working_threads) = s.working_threads + (if first_job = true then 1 else 0) := by
    cases first_job
    · simp
    · have hlt := countP_lt_of_get? Worker.busy s.threads i _
        (Worker.executing unit_of_work) hw rfl rfl
      simp only [if_true]
      exact Nat.mod_eq_of_lt (by omega)
  rw [critical_pop s first_job unit_of_work rest hcl hj]
  simp only [hinc, hsz, and_self, and_true, true_and]

/-- Witness of C13: the first pop of worker 0 in a two-worker pool with two queued jobs: the
counter goes from 0 to 1 and one permit is posted. -/
theorem claim_pop_effect_witness :
    (((ctor 2 : Threadpool Nat).runD
        [PoolAction.add_work 1, PoolAction.add_work 2,
         PoolAction.worker_wake 0])._run_worker_critical true).1.working_threads = 1
    ∧ (((ctor 2 : Threadpool Nat).runD
        [PoolAction.add_work 1, PoolAction.add_work 2,
         PoolAction.worker_wake 0])._run_worker_critical true).1.worker_semaphore = 1
    ∧ (((ctor 2 : Threadpool Nat).runD
        [PoolAction.add_work 1, PoolAction.add_work 2,
         PoolAction.worker_wake 0])._run_worker_critical true).2 = Worker.executing 1 :=
  ⟨by decide, by decide,
   (claim_pop_effect 2
      ((ctor 2 : Threadpool Nat).runD
        [PoolAction.add_work 1, PoolAction.add_work 2, PoolAction.worker_wake 0])
      0 true 1 [2] (reachable_runD 2 _ (by decide)) (by decide) (by rfl) (by rfl)).1⟩

/-- C14: the claim step of a worker with status not `CLOSING` and an empty queue.  The
worker goes back to `sem_wait`.  With `first_job` still set (nothing popped in this wake
cycle) the state is unchanged.  Otherwise `working_threads` is at least 1 and is decremented;
when it reaches 0 the status becomes `IDLE`, and when moreover `idle_waiting` was set it is
cleared and one permit of `wait_for_idle_semaphore` is posted; when it does not reach 0,
`status`, `idle_waiting` and `wait_for_idle_semaphore` are unchanged.  `worker_semaphore`
and the queue are unchanged in all cases. -/
theorem claim_empty_effect (n : Nat) (s : Threadpool J) (i : Nat) (first_job : Bool)
    (h : Reachable n s) (hcl : s.status ≠ _Threadpool_Status.CLOSING) (hj : s.jobs = [])
    (hw : s.threads.get? i = some (Worker.claiming first_job)) :
    (s._run_worker_critical first_job).2 = Worker.blocked
    ∧ (first_job = true → (s._run_worker_critical first_job).1 = s)
    ∧ (first_job = false →
        1 ≤ s.working_threads
        ∧ (s._run_worker_critical first_job).1.working_threads = s.working_threads - 1
        ∧ (s._run_worker_critical first_job).1.status
            = (if s.working_threads = 1 then _Threadpool_Status.IDLE else s.status)
        ∧ (s._run_worker_critical first_job).1.idle_waiting
            = (if s.working_threads = 1 then false else s.idle_waiting)
        ∧ (s._run_worker_critical first_job).1.wait_for_idle_semaphore
            = s.wait_for_idle_semaphore
              + (if s.working_threads = 1 ∧ s.idle_waiting = true then 1 else 0))
    ∧ (s._run_worker_critical first_job).1.worker_semaphore = s.worker_semaphore
    ∧ (s._run_worker_critical first_job).1.jobs = [] := by
  have hi := inv_of_reachable h
  have hU := uint_lt n
  have hsz := hi.size
  have hwt := hi.count hcl
  simp only [busy_count] at hwt
  cases first_job with
  | true =>
    rw [critical_surplus s hcl hj]
    exact ⟨rfl, fun _ => rfl, fun hf => Bool.noConfusion hf, rfl, hj⟩
  | false =>
    have hp := countP_pos_of_get? Worker.busy s.threads i _ hw rfl
    have hle : s.threads.countP Worker.busy ≤ s.threads.length := List.countP_le_length _
    have hdec := uint_dec s.working_threads (by omega) (by omega)
    by_cases hz : (UINT_SIZE - 1 + s.working_threads) % UINT_SIZE = 0
    · have h1 : s.working_threads = 1 := by omega
      rw [critical_last s hcl hj hz]
      refine ⟨rfl, fun hf => Bool.noConfusion hf, fun _ => ⟨by omega, hdec, ?_, ?_, ?_⟩,
        rfl, hj⟩
      · simp only [h1, if_true]
      · simp only [h1, if_true]
      · cases hiw : s.idle_waiting <;> simp [h1]
    · have h1 : s.working_threads ≠ 1 := by omega
      rw [critical_leave s hcl hj hz]
      refine ⟨rfl, fun hf => Bool.noConfusion hf, fun _ => ⟨by omega, hdec, ?_, ?_, ?_⟩,
        rfl, hj⟩
      · simp only [h1, if_false]
      · simp only [h1, if_false]
      · simp [h1]

/-- Witness of C14: the only worker comes back from the only job while a caller of
`wait_for_idle` is blocked: the counter goes to 0, the status to `IDLE`, one permit of
`wait_for_idle_semaphore` is posted. -/
theorem claim_empty_effect_witness :
    (((ctor 1 : Threadpool Nat).runD
        [PoolAction.add_work 7, PoolAction.wait_enter, PoolAction.worker_wake 0,
         PoolAction.worker_claim 0,
         PoolAction.worker_execute 0])._run_worker_critical false).1.wait_for_idle_semaphore
      = 1
    ∧ (((ctor 1 : Threadpool Nat).runD
        [PoolAction.add_work 7, PoolAction.wait_enter, PoolAction.worker_wake 0,
         PoolAction.worker_claim 0,
         PoolAction.worker_execute 0])._run_worker_critical false).2 = Worker.blocked :=
  ⟨by decide,
   (claim_empty_effect 1
      ((ctor 1 : Threadpool Nat).runD
        [PoolAction.add_work 7, PoolAction.wait_enter, PoolAction.worker_wake 0,
         PoolAction.worker_claim 0, PoolAction.worker_execute 0])
      0 false (reachable_runD 1 _ (by decide)) (by decide) (by rfl) (by rfl)).1⟩

/-! ## The shutdown cascade -/

theorem mem_set_of_get? {α : Type} : ∀ (l : List α) (i : Nat) (w v : α),
    l.get? i = some w → v ∈ l.set i v
  | [], _, _, _, h => by simp at h
  | x :: l, 0, _, v, _ => by simp
  | x :: l, i + 1, w, v, h => by
      simp only [List.get?_cons_succ] at h
      simp only [List.set_cons_succ]
      exact List.mem_cons_of_mem _ (mem_set_of_get? l i w v h)

theorem get?_of_mem {α : Type} : ∀ (l : List α) (w : α), w ∈ l → ∃ i, l.get? i = some w
  | [], _, h => by cases h
  | x :: l, w, h => by
      rcases List.mem_cons.mp h with rfl | h
      · exact ⟨0, rfl⟩
      · obtain ⟨i, hi⟩ := get?_of_mem l w h
        exact ⟨i + 1, by simpa using hi⟩

theorem sum_map_set_of_get? {α : Type} (f : α → Nat) : ∀ (l : List α) (i : Nat) (w v : α),
    l.get? i = some w → ((l.set i v).map f).sum + f w = (l.map f).sum + f v
  | [], _, _, _, h => by simp at h
  | x :: l, 0, w, v, h => by
      simp only [List.get?_cons_zero, Option.some.injEq] at h
      subst h
      simp only [List.set_cons_zero, List.map_cons, List.sum_cons]
      omega
  | x :: l, i + 1, w, v, h => by
      simp only [List.get?_cons_succ] at h
      have ih := sum_map_set_of_get? f l i w v h
      simp only [List.set_cons_succ, List.map_cons, List.sum_cons]
      omega

/-- What `add_work` does to the status and to the permits. -/
theorem add_work_closing (s : Threadpool J) (work : J) :
    (s.status = _Threadpool_Status.CLOSING →
      (s.add_work work).status = _Threadpool_Status.CLOSING)
    ∧ s.worker_semaphore ≤ (s.add_work work).worker_semaphore := by
  unfold add_work
  by_cases hst : s.status = _Threadpool_Status.IDLE
  · simp only [hst, if_true]
    exact ⟨fun hc => _Threadpool_Status.noConfusion hc, Nat.le_succ _⟩
  · simp only [hst, if_false]
    exact ⟨fun hc => hc, Nat.le_refl _⟩

theorem cascade_ctor (n : Nat) : Cascade (ctor n : Threadpool J) where
  closed := by
    intro h
    rcases h with h | h | h <;> cases h
  signal := by
    intro h
    rcases h with h | h <;> cases h

/-- A step after which the destructor is still before line 94 keeps `Cascade`. -/
theorem cascade_early {t : Threadpool J}
    (e : t.dtor = Dtor.alive ∨ t.dtor = Dtor.wait_sem ∨ t.dtor = Dtor.wait_check
      ∨ t.dtor = Dtor.close) : Cascade t := by
  refine ⟨?_, ?_⟩
  · intro h
    rcases e with e | e | e | e <;> rw [e] at h <;> rcases h with h | h | h <;> cases h
  · intro h
    rcases e with e | e | e | e <;> rw [e] at h <;> rcases h with h | h <;> cases h

theorem cascade_step {s t : Threadpool J} {a : PoolAction J} (h : Cascade s)
    (hs : s.step a = some t) : Cascade t := by
  obtain ⟨_, _, hsp⟩ := step_spec hs
  obtain ⟨h1, h2⟩ := h
  cases a with
  | add_work work =>
    simp only at hsp
    subst hsp
    obtain ⟨f1, _, _, _, _, _, f7, _, _, _⟩ := add_work_frame s work
    obtain ⟨g1, g2⟩ := add_work_closing s work
    refine ⟨?_, ?_⟩
    · rw [f7]
      exact fun hd => g1 (h1 hd)
    · rw [f7, f1]
      intro hd
      rcases h2 hd with k | k
      · exact Or.inl (Nat.le_trans k g2)
      · exact Or.inr k
  | worker_wake i =>
    simp only at hsp
    obtain ⟨hw, _, rfl⟩ := hsp
    refine ⟨h1, fun _ => Or.inr ⟨Worker.claiming true, ?_, rfl⟩⟩
    exact mem_set_of_get? s.threads i _ _ hw
  | worker_claim i =>
    simp only at hsp
    obtain ⟨first_job, hw, rfl⟩ := hsp
    obtain ⟨_, _, _, _, e5, _, _, _, _⟩ := critical_frame s first_job
    refine ⟨?_, ?_⟩
    · intro hd
      have hc := h1 (e5 ▸ hd)
      rw [critical_closing s first_job hc]
      exact hc
    · intro hd
      have hd0 : s.dtor = Dtor.join ∨ s.dtor = Dtor.destroyed := e5 ▸ hd
      have hc := h1 (Or.inr hd0)
      rw [critical_closing s first_job hc]
      exact Or.inl (Nat.le_add_left 1 _)
  | worker_execute i =>
    simp only at hsp
    obtain ⟨unit_of_work, hw, rfl⟩ := hsp
    refine ⟨h1, fun _ => Or.inr ⟨Worker.claiming false, ?_, rfl⟩⟩
    exact mem_set_of_get? s.threads i _ _ hw
  | wait_enter =>
    simp only at hsp
    rcases hsp with ⟨_, rfl⟩ | ⟨_, rfl⟩
    · exact ⟨h1, h2⟩
    · exact ⟨h1, h2⟩
  | wait_wake => simp only at hsp; obtain ⟨_, _, rfl⟩ := hsp; exact ⟨h1, h2⟩
  | wait_check =>
    simp only at hsp
    rcases hsp with ⟨_, ⟨_, rfl⟩ | ⟨_, rfl⟩⟩
    · exact ⟨h1, h2⟩
    · exact ⟨h1, h2⟩
  | dtor_enter =>
    simp only at hsp
    rcases hsp with ⟨_, ⟨_, rfl⟩ | ⟨_, rfl⟩⟩
    · exact cascade_early (Or.inr (Or.inr (Or.inr rfl)))
    · exact cascade_early (Or.inr (Or.inl rfl))
  | dtor_wake =>
    simp only at hsp
    obtain ⟨_, _, rfl⟩ := hsp
    exact cascade_early (Or.inr (Or.inr (Or.inl rfl)))
  | dtor_check =>
    simp only at hsp
    rcases hsp with ⟨hd, ⟨_, rfl⟩ | ⟨_, rfl⟩⟩
    · exact cascade_early (Or.inr (Or.inr (Or.inr rfl)))
    · exact cascade_early (Or.inr (Or.inr (Or.inl hd)))
  | dtor_close =>
    simp only at hsp
    obtain ⟨_, rfl⟩ := hsp
    refine ⟨fun _ => rfl, ?_⟩
    intro hd
    rcases hd with hd | hd <;> cases hd
  | dtor_post =>
    simp only at hsp
    obtain ⟨hd, rfl⟩ := hsp
    exact ⟨fun _ => h1 (Or.inl hd), fun _ => Or.inl (Nat.le_add_left 1 _)⟩
  | dtor_join =>
    simp only at hsp
    obtain ⟨hd, rfl⟩ := hsp
    exact ⟨fun _ => h1 (Or.inr (Or.inl hd)), fun _ => h2 (Or.inl hd)⟩

theorem cascade_run : ∀ (acts : List (PoolAction J)) (s t : Threadpool J),
    Cascade s → s.run acts = some t → Cascade t
  | [], s, t, h, hr => by
      simp only [run, Option.some.injEq] at hr
      exact hr ▸ h
  | a :: acts, s, t, h, hr => by
      simp only [run] at hr
      cases hs : s.step a with
      | none => simp [hs] at hr
      | some s1 =>
        simp only [hs, Option.some_bind] at hr
        exact cascade_run acts s1 t (cascade_step h hs) hr

/-- While the process is alive and the pool not destroyed, a worker past `sem_wait` can take
its next step, and a blocked worker can take a permit when there is one. -/
theorem worker_step_enabled (s : Threadpool J) (i : Nat) (w : Worker J)
    (hab : s.aborted = false) (hd : s.dtor ≠ Dtor.destroyed)
    (hw : s.threads.get? i = some w)
    (hen : w.active = true ∨ (w = Worker.blocked ∧ 0 < s.worker_semaphore)) :
    ∃ a : PoolAction J, a.is_worker = true ∧ (s.step a).isSome = true := by
  have hlive : ¬ (s.aborted = true ∨ s.dtor = Dtor.destroyed) := by
    rintro (h | h)
    · rw [hab] at h; cases h
    · exact hd h
  cases w with
  | blocked =>
    rcases hen with h | ⟨_, hp⟩
    · cases h
    · refine ⟨PoolAction.worker_wake i, rfl, ?_⟩
      simp only [step, if_neg hlive, hw, if_pos hp, Option.isSome_some]
  | claiming first_job =>
    refine ⟨PoolAction.worker_claim i, rfl, ?_⟩
    simp only [step, if_neg hlive, hw, Option.isSome_some]
  | executing unit_of_work =>
    refine ⟨PoolAction.worker_execute i, rfl, ?_⟩
    simp only [step, if_neg hlive, hw, Option.isSome_some]
  | returned =>
    rcases hen with h | ⟨h, _⟩
    · cases h
    · cases h

/-- A worker that has left the loop takes no further step. -/
theorem returned_is_final (s : Threadpool J) (i : Nat)
    (hw : s.threads.get? i = some Worker.returned) :
    s.step (PoolAction.worker_wake i) = none ∧ s.step (PoolAction.worker_claim i) = none
    ∧ s.step (PoolAction.worker_execute i) = none := by
  refine ⟨?_, ?_, ?_⟩ <;>
    (unfold step
     split
     · rfl
     · simp only [hw])

/-- With status `CLOSING` every step of a worker lowers the sum of the ranks, and changes
neither the status nor the destructor nor `aborted`. -/
theorem rank_step {s t : Threadpool J} {a : PoolAction J} (hs : s.step a = some t)
    (hc : s.status = _Threadpool_Status.CLOSING) (ha : a.is_worker = true) :
    t.closing_rank < s.closing_rank ∧ t.status = _Threadpool_Status.CLOSING
    ∧ t.dtor = s.dtor ∧ t.aborted = s.aborted := by
  obtain ⟨_, _, hsp⟩ := step_spec hs
  unfold closing_rank
  cases a with
  | worker_wake i =>
    simp only at hsp
    obtain ⟨hw, _, rfl⟩ := hsp
    have := sum_map_set_of_get? Worker.rank s.threads i _ (Worker.claiming true) hw
    simp only [Worker.rank] at this
    exact ⟨by simp only; omega, hc, rfl, rfl⟩
  | worker_claim i =>
    simp only at hsp
    obtain ⟨first_job, hw, rfl⟩ := hsp
    have := sum_map_set_of_get? Worker.rank s.threads i _ Worker.returned hw
    simp only [Worker.rank] at this
    rw [critical_closing s first_job hc]
    exact ⟨by simp only; omega, hc, rfl, rfl⟩
  | worker_execute i =>
    simp only at hsp
    obtain ⟨unit_of_work, hw, rfl⟩ := hsp
    have := sum_map_set_of_get? Worker.rank s.threads i _ (Worker.claiming false) hw
    simp only [Worker.rank] at this
    exact ⟨by simp only; omega, hc, rfl, rfl⟩
  | add_work work => cases ha
  | wait_enter => cases ha
  | wait_wake => cases ha
  | wait_check => cases ha
  | dtor_enter => cases ha
  | dtor_wake => cases ha
  | dtor_check => cases ha
  | dtor_close => cases ha
  | dtor_post => cases ha
  | dtor_join => cases ha

/-- C15: the shutdown cascade.  In every reachable state after the destructor has set
`CLOSING` and posted its single permit (it is joining), with the process alive: the status
is `CLOSING`; a worker that enters its critical section posts exactly one permit of
`worker_semaphore` and leaves the loop without touching the queue; there is a permit of
`worker_semaphore` or a worker between `sem_wait` and its next look at the status; as long
as some worker has not left the loop some worker can take a step, every step of a worker
lowers the sum of the ranks (so the workers take finitely many steps) and keeps the
destructor joining; a worker that has left the loop takes no further step; and when all have
left the loop the join of the destructor completes. -/
theorem shutdown_cascade (n : Nat) (s : Threadpool J) (h : Reachable n s)
    (hd : s.dtor = Dtor.join) (hab : s.aborted = false) :
    s.status = _Threadpool_Status.CLOSING
    ∧ (∀ first_job, (s._run_worker_critical first_job).2 = Worker.returned
        ∧ (s._run_worker_critical first_job).1.worker_semaphore = s.worker_semaphore + 1
        ∧ (s._run_worker_critical first_job).1.jobs = s.jobs)
    ∧ (1 ≤ s.worker_semaphore ∨ ∃ w ∈ s.threads, w.active = true)
    ∧ ((∃ w ∈ s.threads, w.is_returned = false) →
        ∃ a : PoolAction J, a.is_worker = true ∧ (s.step a).isSome = true)
    ∧ (∀ (a : PoolAction J) (t : Threadpool J), a.is_worker = true → s.step a = some t →
        t.closing_rank < s.closing_rank ∧ t.dtor = Dtor.join ∧ t.aborted = false)
    ∧ (∀ i, s.threads.get? i = some Worker.returned →
        s.step (PoolAction.worker_wake i) = none ∧ s.step (PoolAction.worker_claim i) = none
        ∧ s.step (PoolAction.worker_execute i) = none)
    ∧ ((∀ w ∈ s.threads, w.is_returned = true) →
        (s.step PoolAction.dtor_join).isSome = true) := by
  obtain ⟨acts, hr⟩ := h
  obtain ⟨hclosed, hsignal⟩ := cascade_run acts _ s (cascade_ctor n) hr
  have hc := hclosed (Or.inr (Or.inl hd))
  have hsig := hsignal (Or.inl hd)
  have hnd : s.dtor ≠ Dtor.destroyed := by
    rw [hd]
    exact fun hf => Dtor.noConfusion hf
  refine ⟨hc, ?_, hsig, ?_, ?_, returned_is_final s, ?_⟩
  · intro first_job
    rw [critical_closing s first_job hc]
    exact ⟨rfl, rfl, rfl⟩
  · rintro ⟨w, hwm, hwr⟩
    rcases hsig with hp | ⟨v, hvm, hva⟩
    · obtain ⟨i, hi⟩ := get?_of_mem s.threads w hwm
      refine worker_step_enabled s i w hab hnd hi ?_
      cases w with
      | blocked => exact Or.inr ⟨rfl, hp⟩
      | claiming first_job => exact Or.inl rfl
      | executing unit_of_work => exact Or.inl rfl
      | returned => cases hwr
    · obtain ⟨i, hi⟩ := get?_of_mem s.threads v hvm
      exact worker_step_enabled s i v hab hnd hi (Or.inl hva)
  · intro a t ha hs
    obtain ⟨k1, _, k3, k4⟩ := rank_step hs hc ha
    exact ⟨k1, k3.trans hd, k4.trans hab⟩
  · intro hall
    have hlive : ¬ (s.aborted = true ∨ s.dtor = Dtor.destroyed) := by
      rintro (hf | hf)
      · rw [hab] at hf; cases hf
      · exact hnd hf
    have hall2 : s.threads.all (fun w => match w with
                                         | Worker.returned => true
                                         | _ => false) = true := by
      rw [List.all_eq_true]
      intro w hw
      have := hall w hw
      cases w <;> first | rfl | cases this
    unfold step
    rw [if_neg hlive]
    simp only [hd, hall2, and_self, if_true, Option.isSome_some]

/-- Witness of C15: a pool of two workers is destroyed right after construction; the
destructor is joining, its permit is there, and worker 0 can take it. -/
theorem shutdown_cascade_witness :
    ((ctor 2 : Threadpool Nat).runD
        [PoolAction.dtor_enter, PoolAction.dtor_close, PoolAction.dtor_post]).worker_semaphore
      = 1
    ∧ ((ctor 2 : Threadpool Nat).runD
        [PoolAction.dtor_enter, PoolAction.dtor_close, PoolAction.dtor_post,
         PoolAction.worker_wake 0, PoolAction.worker_claim 0, PoolAction.worker_wake 1,
         PoolAction.worker_claim 1, PoolAction.dtor_join]).dtor = Dtor.destroyed
    ∧ ((ctor 2 : Threadpool Nat).runD
        [PoolAction.dtor_enter, PoolAction.dtor_close, PoolAction.dtor_post]).status
      = _Threadpool_Status.CLOSING :=
  ⟨by decide, by decide,
   (shutdown_cascade 2
      ((ctor 2 : Threadpool Nat).runD
        [PoolAction.dtor_enter, PoolAction.dtor_close, PoolAction.dtor_post])
      (reachable_runD 2 _ (by decide)) (by decide) (by decide)).1⟩

/-! ## Bounded wake -/

theorem wake_bound_step {n : Nat} {s t : Threadpool J} {a : PoolAction J}
    (hi : Inv n s) (hcas : Cascade s)
    (hb : s.status ≠ _Threadpool_Status.CLOSING →
      s.wake_posts ≤ s.dequeued.length + min 1 s.jobs.length)
    (hs : s.step a = some t) :
    t.status ≠ _Threadpool_Status.CLOSING →
      t.wake_posts ≤ t.dequeued.length + min 1 t.jobs.length := by
  obtain ⟨_, _, hsp⟩ := step_spec hs
  cases a with
  | add_work work =>
    simp only at hsp
    subst hsp
    unfold add_work
    by_cases hst : s.status = _Threadpool_Status.IDLE
    · have hb0 := hb (by rw [hst]; exact fun hf => _Threadpool_Status.noConfusion hf)
      have hj := (hi.idle hst).1
      simp only [hst, if_true, hj, List.nil_append, List.length_singleton]
      rw [hj] at hb0
      simp only [List.length_nil] at hb0
      intro _
      omega
    · simp only [hst, if_false, List.length_append, List.length_singleton]
      intro hc
      have hb0 := hb hc
      omega
  | worker_wake i => simp only at hsp; obtain ⟨_, _, rfl⟩ := hsp; exact hb
  | worker_claim i =>
    simp only at hsp
    obtain ⟨first_job, hw, rfl⟩ := hsp
    by_cases hcl : s.status = _Threadpool_Status.CLOSING
    · rw [critical_closing s first_job hcl]
      intro hc
      exact absurd hcl hc
    · have hb0 := hb hcl
      cases hj : s.jobs with
      | cons unit_of_work rest =>
        rw [critical_pop s first_job unit_of_work rest hcl hj]
        rw [hj] at hb0
        simp only [List.length_cons, List.length_append, List.length_singleton,
          List.length_nil] at hb0 ⊢
        intro _
        have key : ∀ (c : Prop) [Decidable c], (c → 0 < rest.length) →
            s.wake_posts + (if c then 1 else 0)
              ≤ s.dequeued.length + (0 + 1) + min 1 rest.length := by
          intro c _ hc
          by_cases hcc : c
          · have := hc hcc
            simp only [hcc, if_true]
            omega
          · simp only [hcc, if_false]
            omega
        exact key _ (fun hcond => hcond.1)
      | nil =>
        rw [hj] at hb0
        cases first_job with
        | true =>
          rw [critical_surplus s hcl hj]
          intro _
          rw [hj]
          exact hb0
        | false =>
          by_cases hz : (UINT_SIZE - 1 + s.working_threads) % UINT_SIZE = 0
          · rw [critical_last s hcl hj hz]
            intro _
            simp only [hj]
            exact hb0
          · rw [critical_leave s hcl hj hz]
            intro _
            simp only [hj]
            exact hb0
  | worker_execute i => simp only at hsp; obtain ⟨_, _, rfl⟩ := hsp; exact hb
  | wait_enter =>
    simp only at hsp
    rcases hsp with ⟨_, rfl⟩ | ⟨_, rfl⟩ <;> exact hb
  | wait_wake => simp only at hsp; obtain ⟨_, _, rfl⟩ := hsp; exact hb
  | wait_check =>
    simp only at hsp
    rcases hsp with ⟨_, ⟨_, rfl⟩ | ⟨_, rfl⟩⟩ <;> exact hb
  | dtor_enter =>
    simp only at hsp
    rcases hsp with ⟨_, ⟨_, rfl⟩ | ⟨_, rfl⟩⟩ <;> exact hb
  | dtor_wake => simp only at hsp; obtain ⟨_, _, rfl⟩ := hsp; exact hb
  | dtor_check =>
    simp only at hsp
    rcases hsp with ⟨_, ⟨_, rfl⟩ | ⟨_, rfl⟩⟩ <;> exact hb
  | dtor_close =>
    simp only at hsp
    obtain ⟨_, rfl⟩ := hsp
    intro hc
    exact absurd rfl hc
  | dtor_post =>
    simp only at hsp
    obtain ⟨hd, rfl⟩ := hsp
    intro hc
    exact absurd (hcas.closed (Or.inl hd)) hc
  | dtor_join => simp only at hsp; obtain ⟨_, rfl⟩ := hsp; exact hb

theorem wake_bound_run {n : Nat} : ∀ (acts : List (PoolAction J)) (s t : Threadpool J),
    Inv n s → Cascade s →
    (s.status ≠ _Threadpool_Status.CLOSING →
      s.wake_posts ≤ s.dequeued.length + min 1 s.jobs.length) →
    s.run acts = some t →
    (t.status ≠ _Threadpool_Status.CLOSING →
      t.wake_posts ≤ t.dequeued.length + min 1 t.jobs.length)
  | [], s, t, _, _, hb, hr => by
      simp only [run, Option.some.injEq] at hr
      exact hr ▸ hb
  | a :: acts, s, t, hi, hc, hb, hr => by
      simp only [run] at hr
      cases hs : s.step a with
      | none => simp [hs] at hr
      | some s1 =>
        simp only [hs, Option.some_bind] at hr
        exact wake_bound_run acts s1 t (inv_step hi a hs) (cascade_step hc hs)
          (wake_bound_step hi hc hb hs) hr

/-- C16: bounded wake.  In every reachable state before the destructor has set `CLOSING`,
the number of permits of `worker_semaphore` posted so far (by `add_work` and by the claim
steps of the workers) is at most the number of jobs submitted so far; more precisely, at
most the number of jobs dequeued so far, plus one when the queue is non-empty. -/
theorem bounded_wake (n : Nat) (s : Threadpool J) (h : Reachable n s)
    (hc : s.status ≠ _Threadpool_Status.CLOSING) :
    s.wake_posts ≤ s.submitted.length
    ∧ s.wake_posts ≤ s.dequeued.length + min 1 s.jobs.length := by
  have hi := inv_of_reachable h
  obtain ⟨acts, hr⟩ := h
  have hb := wake_bound_run acts (ctor n) s (inv_ctor n) (cascade_ctor n)
    (fun _ => Nat.zero_le _) hr hc
  refine ⟨?_, hb⟩
  rw [hi.fifo, List.length_append]
  omega

/-- Witness of C16: five jobs queued before any worker runs, three workers: three permits
posted in all (one by `add_work`, two by the first two claims). -/
theorem bounded_wake_witness :
    ((ctor 3 : Threadpool Nat).runD
        [PoolAction.add_work 1, PoolAction.add_work 2, PoolAction.add_work 3,
         PoolAction.add_work 4, PoolAction.add_work 5, PoolAction.worker_wake 0,
         PoolAction.worker_claim 0, PoolAction.worker_wake 1, PoolAction.worker_claim 1,
         PoolAction.worker_wake 2, PoolAction.worker_claim 2]).wake_posts = 3
    ∧ ((ctor 3 : Threadpool Nat).runD
        [PoolAction.add_work 1, PoolAction.add_work 2, PoolAction.add_work 3,
         PoolAction.add_work 4, PoolAction.add_work 5, PoolAction.worker_wake 0,
         PoolAction.worker_claim 0, PoolAction.worker_wake 1, PoolAction.worker_claim 1,
         PoolAction.worker_wake 2, PoolAction.worker_claim 2]).wake_posts
      ≤ ((ctor 3 : Threadpool Nat).runD
        [PoolAction.add_work 1, PoolAction.add_work 2, PoolAction.add_work 3,
         PoolAction.add_work 4, PoolAction.add_work 5, PoolAction.worker_wake 0,
         PoolAction.worker_claim 0, PoolAction.worker_wake 1, PoolAction.worker_claim 1,
         PoolAction.worker_wake 2, PoolAction.worker_claim 2]).submitted.length :=
  ⟨by decide,
   (bounded_wake 3 _ (reachable_runD 3 _ (by decide)) (by decide)).1⟩

/-! ## A failing job -/

theorem job_fails_spec {s t : Threadpool J} {i : Nat} (hs : s.job_fails i = some t) :
    ∃ unit_of_work, s.threads.get? i = some (Worker.executing unit_of_work)
      ∧ t = { s with aborted := true } := by
  unfold job_fails at hs
  split at hs
  · cases hs
  · split at hs
    · rename_i unit_of_work hw
      simp only [Option.some.injEq] at hs
      exact ⟨unit_of_work, hw, hs.symm⟩
    · cases hs

/-- Once the process is gone no thread takes a step. -/
theorem step_of_aborted (s : Threadpool J) (a : PoolAction J) (h : s.aborted = true) :
    s.step a = none := by
  unfold step
  rw [if_pos (Or.inl h)]

/-- Once the process is gone the only schedule that can be run is the empty one. -/
theorem run_of_aborted (s t : Threadpool J) (acts : List (PoolAction J))
    (h : s.aborted = true) (hr : s.run acts = some t) : acts = [] ∧ t = s := by
  cases acts with
  | nil =>
    simp only [run, Option.some.injEq] at hr
    exact ⟨rfl, hr.symm⟩
  | cons a acts =>
    simp only [run, step_of_aborted s a h, Option.none_bind] at hr
    cases hr

/-- C17, as stated, fails: worker 0 of a two-worker pool fails inside the first of two
jobs.  The second job is still queued, a permit for it is posted and the status is
`RUNNING`, but the process is gone: the remaining worker cannot take a step, and no schedule
drains the queue or brings the pool back to `IDLE`. -/
theorem job_failure_only_stops_worker_fails :
    ¬ (∀ (n : Nat) (s t : Threadpool Nat) (i : Nat), Reachable n s →
        s.job_fails i = some t →
        ∃ (acts : List (PoolAction Nat)) (u : Threadpool Nat),
          t.run acts = some u ∧ u.jobs = [] ∧ u.status = _Threadpool_Status.IDLE)
    ∧ example_after_failure.jobs = [2]
    ∧ example_after_failure.worker_semaphore = 1
    ∧ example_after_failure.status = _Threadpool_Status.RUNNING
    ∧ example_after_failure.aborted = true
    ∧ example_after_failure.step (PoolAction.worker_wake 1) = none := by
  refine ⟨?_, by decide, by decide, by decide, by decide,
    step_of_aborted _ _ (by decide)⟩
  intro h
  obtain ⟨acts, u, hr, _, hu⟩ := h 2
    ((ctor 2).runD [PoolAction.add_work 1, PoolAction.add_work 2, PoolAction.worker_wake 0,
      PoolAction.worker_claim 0])
    example_after_failure 0 (reachable_runD 2 _ (by decide)) (by rfl)
  obtain ⟨_, rfl⟩ := run_of_aborted _ u acts (by decide) hr
  revert hu
  decide

/-- C17 (amended): when a failure escapes from the job that worker `i` is executing, in a
reachable state, the loop does not intercept it and the process is ended: no shared field is
written (queue, status, `working_threads`, `idle_waiting`, both semaphores and the control
state of every worker are as before, the job is not logged as completed), the status is not
`IDLE`, and from then on no thread takes a step, so every schedule that can still be run is
empty: the queue is not drained and the pool does not come back to `IDLE`. -/
theorem job_failure_terminates_process (n : Nat) (s t : Threadpool J) (i : Nat)
    (h : Reachable n s) (hf : s.job_fails i = some t) :
    t.aborted = true
    ∧ t.jobs = s.jobs ∧ t.status = s.status ∧ t.working_threads = s.working_threads
    ∧ t.idle_waiting = s.idle_waiting ∧ t.worker_semaphore = s.worker_semaphore
    ∧ t.wait_for_idle_semaphore = s.wait_for_idle_semaphore
    ∧ t.threads = s.threads ∧ t.executed = s.executed
    ∧ t.status ≠ _Threadpool_Status.IDLE
    ∧ (∀ a : PoolAction J, t.step a = none)
    ∧ (∀ (acts : List (PoolAction J)) (u : Threadpool J),
        t.run acts = some u → acts = [] ∧ u = t) := by
  have hi := inv_of_reachable h
  obtain ⟨unit_of_work, hw, rfl⟩ := job_fails_spec hf
  have hp := countP_pos_of_get? Worker.busy s.threads i _ hw rfl
  have hne : s.status ≠ _Threadpool_Status.IDLE := by
    intro hst
    have hcl : s.status ≠ _Threadpool_Status.CLOSING := by
      rw [hst]
      exact fun hc => _Threadpool_Status.noConfusion hc
    have hwt := hi.count hcl
    have h0 := (hi.idle hst).2
    simp only [busy_count] at hwt
    omega
  exact ⟨rfl, rfl, rfl, rfl, rfl, rfl, rfl, rfl, rfl, hne,
    fun a => step_of_aborted _ a rfl, fun acts u hr => run_of_aborted _ u acts rfl hr⟩

/-- Witness of C17 (amended): worker 0 of a two-worker pool fails inside the first of two
jobs; the second job stays queued. -/
theorem job_failure_terminates_process_witness :
    example_after_failure.jobs = [2]
    ∧ example_after_failure.aborted = true
    ∧ example_after_failure.status ≠ _Threadpool_Status.IDLE
    ∧ (∀ a : PoolAction Nat, example_after_failure.step a = none) :=
  ⟨by decide,
   (job_failure_terminates_process 2
      ((ctor 2 : Threadpool Nat).runD
        [PoolAction.add_work 1, PoolAction.add_work 2, PoolAction.worker_wake 0,
         PoolAction.worker_claim 0])
      example_after_failure 0 (reachable_runD 2 _ (by decide)) (by rfl)).1,
   (job_failure_terminates_process 2
      ((ctor 2 : Threadpool Nat).runD
        [PoolAction.add_work 1, PoolAction.add_work 2, PoolAction.worker_wake 0,
         PoolAction.worker_claim 0])
      example_after_failure 0 (reachable_runD 2 _ (by decide)) (by rfl)).2.2.2.2.2.2.2.2.2.1,
   (job_failure_terminates_process 2
      ((ctor 2 : Threadpool Nat).runD
        [PoolAction.add_work 1, PoolAction.add_work 2, PoolAction.worker_wake 0,
         PoolAction.worker_claim 0])
      example_after_failure 0 (reachable_runD 2 _ (by decide))
      (by rfl)).2.2.2.2.2.2.2.2.2.2.1⟩

/-! ## Progress: the pool can always be drained -/

theorem add_work_cases (s : Threadpool J) (work : J) :
    (s.status = _Threadpool_Status.IDLE
      ∧ (s.add_work work).status = _Threadpool_Status.RUNNING
      ∧ (s.add_work work).worker_semaphore = s.worker_semaphore + 1)
    ∨ (s.status ≠ _Threadpool_Status.IDLE
      ∧ (s.add_work work).status = s.status
      ∧ (s.add_work work).worker_semaphore = s.worker_semaphore) := by
  unfold add_work
  by_cases hst : s.status = _Threadpool_Status.IDLE
  · rw [if_pos hst]
    exact Or.inl ⟨hst, rfl, rfl⟩
  · rw [if_neg hst]
    exact Or.inr ⟨hst, rfl, rfl⟩

theorem busy_is_active (w : Worker J) (h : w.busy = true) : w.active = true := by
  cases w with
  | blocked => cases h
  | claiming first_job => rfl
  | executing unit_of_work => rfl
  | returned => cases h

/-- In a state with an empty queue and status `RUNNING` some worker is in a run of claims. -/
theorem active_of_running_empty {n : Nat} {s : Threadpool J} (hi : Inv n s)
    (hr : s.status = _Threadpool_Status.RUNNING) (hj : s.jobs = []) :
    ∃ w ∈ s.threads, w.active = true := by
  have hne : s.status ≠ _Threadpool_Status.CLOSING := by
    rw [hr]
    exact fun hf => _Threadpool_Status.noConfusion hf
  have hwt := hi.count hne
  have h0 : s.working_threads ≠ 0 := fun h0 => hi.drained hj h0 hr
  have hpos : 0 < s.threads.countP Worker.busy := by
    simp only [busy_count] at hwt
    omega
  obtain ⟨w, hw, hb⟩ := List.countP_pos_iff.mp hpos
  exact ⟨w, hw, busy_is_active w hb⟩

theorem no_exit_set {l : List (Worker J)} (i : Nat) (v : Worker J)
    (h : ∀ w ∈ l, w.is_returned = false) (hv : v.is_returned = false) :
    ∀ w ∈ l.set i v, w.is_returned = false := by
  intro w hw
  rcases List.mem_or_eq_of_mem_set hw with h1 | h1
  · exact h w h1
  · rw [h1]
    exact hv

theorem awake_ctor (n : Nat) : Awake (ctor n : Threadpool J) where
  no_exit := by
    intro _ w hw
    have := List.eq_of_mem_replicate hw
    rw [this]
    rfl
  signal := by
    intro h
    cases h

theorem awake_step {n : Nat} {s t : Threadpool J} {a : PoolAction J} (hi : Inv n s)
    (h : Awake s) (hs : s.step a = some t) : Awake t := by
  have hit := inv_step hi a hs
  obtain ⟨_, _, hsp⟩ := step_spec hs
  obtain ⟨h1, h2⟩ := h
  cases a with
  | add_work work =>
    simp only at hsp
    subst hsp
    have f1 := (add_work_frame s work).1
    rcases add_work_cases s work with ⟨hst, e1, e2⟩ | ⟨hst, e1, e2⟩
    · refine ⟨?_, ?_⟩
      · intro _
        rw [f1]
        exact h1 (by rw [hst]; exact fun hf => _Threadpool_Status.noConfusion hf)
      · intro _
        rw [e2]
        exact Or.inl (Nat.le_add_left 1 _)
    · refine ⟨?_, ?_⟩
      · rw [e1, f1]
        exact h1
      · rw [e1, e2, f1]
        exact h2
  | worker_wake i =>
    simp only at hsp
    obtain ⟨hw, _, rfl⟩ := hsp
    exact ⟨fun hc => no_exit_set i _ (h1 hc) rfl,
      fun _ => Or.inr ⟨Worker.claiming true, mem_set_of_get? s.threads i _ _ hw, rfl⟩⟩
  | worker_claim i =>
    simp only at hsp
    obtain ⟨first_job, hw, rfl⟩ := hsp
    by_cases hcl : s.status = _Threadpool_Status.CLOSING
    · rw [critical_closing s first_job hcl]
      refine ⟨fun hc => absurd hcl hc, fun hr => ?_⟩
      rw [hcl] at hr
      cases hr
    · cases hj : s.jobs with
      | cons unit_of_work rest =>
        rw [critical_pop s first_job unit_of_work rest hcl hj]
        exact ⟨fun _ => no_exit_set i _ (h1 hcl) rfl,
          fun _ => Or.inr ⟨Worker.executing unit_of_work,
            mem_set_of_get? s.threads i _ _ hw, rfl⟩⟩
      | nil =>
        have hempty : ∀ (r : Threadpool J × Worker J),
            s._run_worker_critical first_job = r → r.2 = Worker.blocked → r.1.jobs = [] →
            r.1.threads = s.threads →
            Inv n { r.1 with threads := r.1.threads.set i r.2 } →
            Awake { r.1 with threads := r.1.threads.set i r.2 } := by
          intro r _ hr2 hrj hrt hir
          refine ⟨fun _ => ?_, fun hrun => Or.inr ?_⟩
          · simp only [hr2, hrt]
            exact no_exit_set i _ (h1 hcl) rfl
          · exact active_of_running_empty hir hrun hrj
        cases first_job with
        | true =>
          exact hempty _ rfl (by rw [critical_surplus s hcl hj])
            (by rw [critical_surplus s hcl hj]; exact hj)
            (by rw [critical_surplus s hcl hj]) hit
        | false =>
          by_cases hz : (UINT_SIZE - 1 + s.working_threads) % UINT_SIZE = 0
          · exact hempty _ rfl (by rw [critical_last s hcl hj hz])
              (by rw [critical_last s hcl hj hz]; exact hj)
              (by rw [critical_last s hcl hj hz]) hit
          · exact hempty _ rfl (by rw [critical_leave s hcl hj hz])
              (by rw [critical_leave s hcl hj hz]; exact hj)
              (by rw [critical_leave s hcl hj hz]) hit
  | worker_execute i =>
    simp only at hsp
    obtain ⟨unit_of_work, hw, rfl⟩ := hsp
    exact ⟨fun hc => no_exit_set i _ (h1 hc) rfl,
      fun _ => Or.inr ⟨Worker.claiming false, mem_set_of_get? s.threads i _ _ hw, rfl⟩⟩
  | wait_enter =>
    simp only at hsp
    rcases hsp with ⟨_, rfl⟩ | ⟨_, rfl⟩ <;> exact ⟨h1, h2⟩
  | wait_wake => simp only at hsp; obtain ⟨_, _, rfl⟩ := hsp; exact ⟨h1, h2⟩
  | wait_check =>
    simp only at hsp
    rcases hsp with ⟨_, ⟨_, rfl⟩ | ⟨_, rfl⟩⟩ <;> exact ⟨h1, h2⟩
  | dtor_enter =>
    simp only at hsp
    rcases hsp with ⟨_, ⟨_, rfl⟩ | ⟨_, rfl⟩⟩ <;> exact ⟨h1, h2⟩
  | dtor_wake => simp only at hsp; obtain ⟨_, _, rfl⟩ := hsp; exact ⟨h1, h2⟩
  | dtor_check =>
    simp only at hsp
    rcases hsp with ⟨_, ⟨_, rfl⟩ | ⟨_, rfl⟩⟩ <;> exact ⟨h1, h2⟩
  | dtor_close =>
    simp only at hsp
    obtain ⟨_, rfl⟩ := hsp
    exact ⟨fun hc => absurd rfl hc, fun hr => _Threadpool_Status.noConfusion hr⟩
  | dtor_post =>
    simp only at hsp
    obtain ⟨_, rfl⟩ := hsp
    exact ⟨h1, fun _ => Or.inl (Nat.le_add_left 1 _)⟩
  | dtor_join => simp only at hsp; obtain ⟨_, rfl⟩ := hsp; exact ⟨h1, h2⟩

theorem awake_run {n : Nat} : ∀ (acts : List (PoolAction J)) (s t : Threadpool J),
    Inv n s → Awake s → s.run acts = some t → Awake t
  | [], s, t, _, h, hr => by
      simp only [run, Option.some.injEq] at hr
      exact hr ▸ h
  | a :: acts, s, t, hi, h, hr => by
      simp only [run] at hr
      cases hs : s.step a with
      | none => simp [hs] at hr
      | some s1 =>
        simp only [hs, Option.some_bind] at hr
        exact awake_run acts s1 t (inv_step hi a hs) (awake_step hi h hs) hr

theorem awake_of_reachable {n : Nat} {s : Threadpool J} (h : Reachable n s) : Awake s := by
  obtain ⟨acts, hr⟩ := h
  exact awake_run acts _ s (inv_ctor n) (awake_ctor n) hr

/-- While the status is not `CLOSING` every step of a worker lowers `drain_measure`; it
leaves the callers of `wait_for_idle` alone, and either keeps the status, the flag
`idle_waiting` and the permits of the idle semaphore, or sets the status to `IDLE`, clears
the flag and posts a permit if the flag was set. -/
theorem drain_step {s t : Threadpool J} {a : PoolAction J} (hs : s.step a = some t)
    (hc : s.status ≠ _Threadpool_Status.CLOSING) (ha : a.is_worker = true) :
    t.drain_measure < s.drain_measure
    ∧ t.submitted = s.submitted ∧ t.waiting = s.waiting ∧ t.checking = s.checking
    ∧ t.dtor = s.dtor ∧ t.aborted = s.aborted ∧ t.threads.length = s.threads.length
    ∧ ((t.status = s.status ∧ t.idle_waiting = s.idle_waiting
          ∧ t.wait_for_idle_semaphore = s.wait_for_idle_semaphore)
       ∨ (t.status = _Threadpool_Status.IDLE ∧ t.idle_waiting = false
          ∧ t.wait_for_idle_semaphore
              = if s.idle_waiting then s.wait_for_idle_semaphore + 1
                else s.wait_for_idle_semaphore)) := by
  obtain ⟨_, _, hsp⟩ := step_spec hs
  unfold drain_measure
  cases a with
  | worker_wake i =>
    simp only at hsp
    obtain ⟨hw, hp, rfl⟩ := hsp
    have := sum_map_set_of_get? Worker.drain_rank s.threads i _ (Worker.claiming true) hw
    simp only [Worker.drain_rank] at this
    refine ⟨by simp only; omega, rfl, rfl, rfl, rfl, rfl, ?_, Or.inl ⟨rfl, rfl, rfl⟩⟩
    simp only [List.length_set]
  | worker_claim i =>
    simp only at hsp
    obtain ⟨first_job, hw, rfl⟩ := hsp
    cases hj : s.jobs with
    | cons unit_of_work rest =>
      have := sum_map_set_of_get? Worker.drain_rank s.threads i _
        (Worker.executing unit_of_work) hw
      simp only [Worker.drain_rank] at this
      rw [critical_pop s first_job unit_of_work rest hc hj]
      have key : (if 0 < rest.length ∧
                  (if first_job then (s.working_threads + 1) % UINT_SIZE
                   else s.working_threads) < s.threads.length
               then 1 else 0) ≤ 1 := by
        by_cases hp : 0 < rest.length ∧
                  (if first_job then (s.working_threads + 1) % UINT_SIZE
                   else s.working_threads) < s.threads.length
        · rw [if_pos hp]
        · rw [if_neg hp]
          exact Nat.zero_le 1
      refine ⟨?_, rfl, rfl, rfl, rfl, rfl, ?_, Or.inl ⟨rfl, rfl, rfl⟩⟩
      · simp only [List.length_cons]
        omega
      · simp only [List.length_set]
    | nil =>
      have := sum_map_set_of_get? Worker.drain_rank s.threads i _ Worker.blocked hw
      simp only [Worker.drain_rank] at this
      cases first_job with
      | true =>
        rw [critical_surplus s hc hj]
        refine ⟨?_, rfl, rfl, rfl, rfl, rfl, ?_, Or.inl ⟨rfl, rfl, rfl⟩⟩
        · simp only [hj, List.length_nil]
          omega
        · simp only [List.length_set]
      | false =>
        by_cases hz : (UINT_SIZE - 1 + s.working_threads) % UINT_SIZE = 0
        · rw [critical_last s hc hj hz]
          refine ⟨?_, rfl, rfl, rfl, rfl, rfl, ?_, Or.inr ⟨rfl, rfl, rfl⟩⟩
          · simp only [hj, List.length_nil]
            omega
          · simp only [List.length_set]
        · rw [critical_leave s hc hj hz]
          refine ⟨?_, rfl, rfl, rfl, rfl, rfl, ?_, Or.inl ⟨rfl, rfl, rfl⟩⟩
          · simp only [hj, List.length_nil]
            omega
          · simp only [List.length_set]
  | worker_execute i =>
    simp only at hsp
    obtain ⟨unit_of_work, hw, rfl⟩ := hsp
    have := sum_map_set_of_get? Worker.drain_rank s.threads i _ (Worker.claiming false) hw
    simp only [Worker.drain_rank] at this
    refine ⟨by simp only; omega, rfl, rfl, rfl, rfl, rfl, ?_, Or.inl ⟨rfl, rfl, rfl⟩⟩
    simp only [List.length_set]
  | add_work work => cases ha
  | wait_enter => cases ha
  | wait_wake => cases ha
  | wait_check => cases ha
  | dtor_enter => cases ha
  | dtor_wake => cases ha
  | dtor_check => cases ha
  | dtor_close => cases ha
  | dtor_post => cases ha
  | dtor_join => cases ha

/-- While the status is `RUNNING` in a pool with at least one worker, some worker can take
a step. -/
theorem drain_enabled {s : Threadpool J} (ha : Awake s) (hn : 0 < s.threads.length)
    (hab : s.aborted = false) (hd : s.dtor ≠ Dtor.destroyed)
    (hr : s.status = _Threadpool_Status.RUNNING) :
    ∃ a : PoolAction J, a.is_worker = true ∧ (s.step a).isSome = true := by
  have hne : s.status ≠ _Threadpool_Status.CLOSING := by
    rw [hr]
    exact fun hf => _Threadpool_Status.noConfusion hf
  by_cases hact : ∃ w ∈ s.threads, w.active = true
  · obtain ⟨w, hw, hwa⟩ := hact
    obtain ⟨i, hi⟩ := get?_of_mem s.threads w hw
    exact worker_step_enabled s i w hab hd hi (Or.inl hwa)
  · have hsem : 1 ≤ s.worker_semaphore := by
      rcases ha.signal hr with h | h
      · exact h
      · exact absurd h hact
    cases hth : s.threads with
    | nil => rw [hth] at hn; cases hn
    | cons w rest =>
      have hw : w ∈ s.threads := by rw [hth]; exact List.mem_cons_self _ _
      have hi : s.threads.get? 0 = some w := by rw [hth]; rfl
      have hnr := ha.no_exit hne w hw
      have hb : w = Worker.blocked := by
        cases w with
        | blocked => rfl
        | claiming first_job => exact absurd ⟨_, hw, rfl⟩ hact
        | executing unit_of_work => exact absurd ⟨_, hw, rfl⟩ hact
        | returned => cases hnr
      exact worker_step_enabled s 0 w hab hd hi (Or.inr ⟨hb, hsem⟩)

/-- From a state with status `RUNNING` of a pool with at least one worker, the workers
alone bring the pool to `IDLE`: some schedule of worker steps can be run and ends in a state
with status `IDLE`, in which the flag `idle_waiting` is cleared and a permit of the idle
semaphore was posted if the flag was set. -/
theorem drain {n : Nat} : ∀ (m : Nat) (s : Threadpool J), s.drain_measure ≤ m →
    Inv n s → Awake s → 0 < s.threads.length → s.aborted = false →
    s.dtor ≠ Dtor.destroyed → s.status = _Threadpool_Status.RUNNING →
    ∃ (acts : List (PoolAction J)) (t : Threadpool J),
      (∀ a ∈ acts, a.is_worker = true) ∧ s.run acts = some t
      ∧ t.status = _Threadpool_Status.IDLE ∧ t.submitted = s.submitted
      ∧ t.waiting = s.waiting ∧ t.checking = s.checking ∧ t.dtor = s.dtor
      ∧ t.aborted = false ∧ t.idle_waiting = false
      ∧ t.wait_for_idle_semaphore
          = if s.idle_waiting then s.wait_for_idle_semaphore + 1
            else s.wait_for_idle_semaphore := by
  intro m
  induction m with
  | zero =>
    intro s hm _ ha hn hab hd hr
    have hne : s.status ≠ _Threadpool_Status.CLOSING := by
      rw [hr]
      exact fun hf => _Threadpool_Status.noConfusion hf
    obtain ⟨a, haw, hen⟩ := drain_enabled ha hn hab hd hr
    obtain ⟨s1, hs1⟩ := Option.isSome_iff_exists.mp hen
    have := (drain_step hs1 hne haw).1
    omega
  | succ m ih =>
    intro s hm hi ha hn hab hd hr
    have hne : s.status ≠ _Threadpool_Status.CLOSING := by
      rw [hr]
      exact fun hf => _Threadpool_Status.noConfusion hf
    obtain ⟨a, haw, hen⟩ := drain_enabled ha hn hab hd hr
    obtain ⟨s1, hs1⟩ := Option.isSome_iff_exists.mp hen
    obtain ⟨hlt, e1, e2, e3, e4, e5, e6, hcase⟩ := drain_step hs1 hne haw
    rcases hcase with ⟨k1, k2, k3⟩ | ⟨k1, k2, k3⟩
    · obtain ⟨acts, t, hall, hrun, r1, r2, r3, r4, r5, r6, r7, r8⟩ :=
        ih s1 (by omega) (inv_step hi a hs1) (awake_step hi ha hs1) (by rw [e6]; exact hn)
          (by rw [e5]; exact hab) (by rw [e4]; exact hd) (by rw [k1]; exact hr)
      refine ⟨a :: acts, t, ?_, ?_, r1, r2.trans e1, r3.trans e2, r4.trans e3, r5.trans e4,
        r6, r7, ?_⟩
      · intro b hb
        rcases List.mem_cons.mp hb with rfl | hb
        · exact haw
        · exact hall b hb
      · simp only [run, hs1, Option.some_bind]
        exact hrun
      · rw [r8, k2, k3]
    · refine ⟨[a], s1, ?_, ?_, k1, e1, e2, e3, e4, by rw [e5]; exact hab, k2, k3⟩
      · intro b hb
        rcases List.mem_cons.mp hb with rfl | hb
        · exact haw
        · cases hb
      · simp only [run, hs1, Option.some_bind]

/-- The critical section of `wait_for_idle`, as a step of the pool. -/
theorem wait_enter_eq (s : Threadpool J) (hab : s.aborted = false)
    (hd : s.dtor ≠ Dtor.destroyed) :
    s.step PoolAction.wait_enter
      = some (if s.status = _Threadpool_Status.IDLE then s
              else { s with idle_waiting := true, waiting := s.waiting + 1 }) := by
  have hlive : ¬ (s.aborted = true ∨ s.dtor = Dtor.destroyed) := by
    rintro (h | h)
    · rw [hab] at h; cases h
    · exact hd h
  unfold step
  rw [if_neg hlive]
  unfold wait_for_idle_critical
  by_cases hst : s.status = _Threadpool_Status.IDLE
  · simp only [if_pos hst, if_true]
  · simp only [if_neg hst, Bool.false_eq_true, if_false]

/-- A blocked caller of `wait_for_idle` takes a permit of the idle semaphore. -/
theorem wait_wake_eq (s : Threadpool J) (hab : s.aborted = false)
    (hd : s.dtor ≠ Dtor.destroyed) (hw : 0 < s.waiting)
    (hp : 0 < s.wait_for_idle_semaphore) :
    s.step PoolAction.wait_wake
      = some { s with wait_for_idle_semaphore := s.wait_for_idle_semaphore - 1,
                      waiting := s.waiting - 1, checking := s.checking + 1 } := by
  have hlive : ¬ (s.aborted = true ∨ s.dtor = Dtor.destroyed) := by
    rintro (h | h)
    · rw [hab] at h; cases h
    · exact hd h
  unfold step
  rw [if_neg hlive]
  simp only [if_pos (And.intro hw hp)]

/-- A woken caller of `wait_for_idle` that reads `IDLE` returns. -/
theorem wait_check_eq (s : Threadpool J) (hab : s.aborted = false)
    (hd : s.dtor ≠ Dtor.destroyed) (hc : 0 < s.checking)
    (hi : s.status = _Threadpool_Status.IDLE) :
    s.step PoolAction.wait_check = some { s with checking := s.checking - 1 } := by
  have hlive : ¬ (s.aborted = true ∨ s.dtor = Dtor.destroyed) := by
    rintro (h | h)
    · rw [hab] at h; cases h
    · exact hd h
  have hni : ¬ (s.status ≠ _Threadpool_Status.IDLE) := fun h => h hi
  unfold step
  rw [if_neg hlive]
  simp only [if_pos hc, if_neg hni]

/-! ## When `wait_for_idle` returns -/

/-- A step at which `wait_for_idle` returns is one of the four places where the function
can return, and it has read `status == IDLE` there. -/
theorem returns_spec {s t : Threadpool J} {a : PoolAction J} (hs : s.step a = some t)
    (hret : s.wait_for_idle_returns a t = true) :
    a.is_wait_exit = true ∧ s.status = _Threadpool_Status.IDLE := by
  obtain ⟨_, _, h⟩ := step_spec hs
  cases a with
  | wait_enter =>
    simp only at h
    simp only [wait_for_idle_returns, beq_iff_eq] at hret
    rcases h with ⟨hi, _⟩ | ⟨_, rfl⟩
    · exact ⟨rfl, hi⟩
    · simp only at hret
      omega
  | wait_check =>
    simp only at h
    simp only [wait_for_idle_returns] at hret
    rcases h with ⟨_, ⟨hi, _⟩ | ⟨_, rfl⟩⟩
    · exact ⟨rfl, hi⟩
    · simp only [Bool.not_true] at hret
      cases hret
  | dtor_enter =>
    simp only at h
    simp only [wait_for_idle_returns, beq_iff_eq] at hret
    rcases h with ⟨_, ⟨hi, _⟩ | ⟨_, rfl⟩⟩
    · exact ⟨rfl, hi⟩
    · simp only at hret
      cases hret
  | dtor_check =>
    simp only at h
    simp only [wait_for_idle_returns, beq_iff_eq] at hret
    rcases h with ⟨hd, ⟨hi, _⟩ | ⟨_, rfl⟩⟩
    · exact ⟨rfl, hi⟩
    · simp only at hret
      rw [hd] at hret
      cases hret
  | add_work work => simp only [wait_for_idle_returns] at hret; cases hret
  | worker_wake i => simp only [wait_for_idle_returns] at hret; cases hret
  | worker_claim i => simp only [wait_for_idle_returns] at hret; cases hret
  | worker_execute i => simp only [wait_for_idle_returns] at hret; cases hret
  | wait_wake => simp only [wait_for_idle_returns] at hret; cases hret
  | dtor_wake => simp only [wait_for_idle_returns] at hret; cases hret
  | dtor_close => simp only [wait_for_idle_returns] at hret; cases hret
  | dtor_post => simp only [wait_for_idle_returns] at hret; cases hret
  | dtor_join => simp only [wait_for_idle_returns] at hret; cases hret

/-- At a step at which `wait_for_idle` returns every job submitted so far has been executed
exactly once. -/
theorem returns_all_executed {n : Nat} {s t : Threadpool J} {a : PoolAction J}
    (hi : Inv n s) (hs : s.step a = some t) (hret : s.wait_for_idle_returns a t = true) :
    t.executed.Perm s.submitted ∧ t.jobs = [] ∧ t.in_execution = [] ∧ t.aborted = false := by
  obtain ⟨ha, hst⟩ := returns_spec hs hret
  obtain ⟨e1, _, e3, e4, _, e6⟩ := step_wait_exit hs ha hst
  obtain ⟨p1, p2, p3⟩ := executed_perm_of_idle hi hst
  refine ⟨?_, ?_, ?_, e6⟩
  · rw [e1]; exact p1
  · rw [e3]; exact p2
  · simpa [in_execution, e4] using p3

/-- The status is `CLOSING` only after the destructor has run lines 94-95. -/
theorem closing_dtor_step {s t : Threadpool J} {a : PoolAction J}
    (h : s.status = _Threadpool_Status.CLOSING →
      s.dtor = Dtor.post ∨ s.dtor = Dtor.join ∨ s.dtor = Dtor.destroyed)
    (hs : s.step a = some t) :
    t.status = _Threadpool_Status.CLOSING →
      t.dtor = Dtor.post ∨ t.dtor = Dtor.join ∨ t.dtor = Dtor.destroyed := by
  obtain ⟨_, _, hsp⟩ := step_spec hs
  have hearly : ∀ d : Dtor, s.dtor = d → d ≠ Dtor.post → d ≠ Dtor.join →
      d ≠ Dtor.destroyed → s.status ≠ _Threadpool_Status.CLOSING := by
    intro d hd h1 h2 h3 hc
    rcases h hc with k | k | k
    · exact h1 (hd.symm.trans k)
    · exact h2 (hd.symm.trans k)
    · exact h3 (hd.symm.trans k)
  cases a with
  | add_work work =>
    simp only at hsp
    subst hsp
    have f := (add_work_frame s work).2.2.2.2.2.2.1
    rcases add_work_cases s work with ⟨_, e, _⟩ | ⟨_, e, _⟩
    · intro hc
      rw [e] at hc
      cases hc
    · rw [e, f]
      exact h
  | worker_wake i => simp only at hsp; obtain ⟨_, _, rfl⟩ := hsp; exact h
  | worker_claim i =>
    simp only at hsp
    obtain ⟨first_job, _, rfl⟩ := hsp
    obtain ⟨_, _, _, _, f5, _, _, f8, _⟩ := critical_frame s first_job
    intro hc
    have hc2 : (s._run_worker_critical first_job).1.status = _Threadpool_Status.CLOSING := hc
    rcases f8 with k | k
    · rw [k] at hc2
      have := h hc2
      rw [← f5] at this
      exact this
    · rw [k] at hc2
      cases hc2
  | worker_execute i => simp only at hsp; obtain ⟨_, _, rfl⟩ := hsp; exact h
  | wait_enter =>
    simp only at hsp
    rcases hsp with ⟨_, rfl⟩ | ⟨_, rfl⟩ <;> exact h
  | wait_wake => simp only at hsp; obtain ⟨_, _, rfl⟩ := hsp; exact h
  | wait_check =>
    simp only at hsp
    rcases hsp with ⟨_, ⟨_, rfl⟩ | ⟨_, rfl⟩⟩ <;> exact h
  | dtor_enter =>
    simp only at hsp
    obtain ⟨hd, hcase⟩ := hsp
    have hne := hearly _ hd (by decide) (by decide) (by decide)
    rcases hcase with ⟨_, rfl⟩ | ⟨_, rfl⟩ <;> exact fun hc => absurd hc hne
  | dtor_wake =>
    simp only at hsp
    obtain ⟨hd, _, rfl⟩ := hsp
    have hne := hearly _ hd (by decide) (by decide) (by decide)
    exact fun hc => absurd hc hne
  | dtor_check =>
    simp only at hsp
    obtain ⟨hd, hcase⟩ := hsp
    have hne := hearly _ hd (by decide) (by decide) (by decide)
    rcases hcase with ⟨_, rfl⟩ | ⟨_, rfl⟩ <;> exact fun hc => absurd hc hne
  | dtor_close => simp only at hsp; obtain ⟨_, rfl⟩ := hsp; exact fun _ => Or.inl rfl
  | dtor_post => simp only at hsp; obtain ⟨_, rfl⟩ := hsp; exact fun _ => Or.inr (Or.inl rfl)
  | dtor_join => simp only at hsp; obtain ⟨_, rfl⟩ := hsp; exact fun _ => Or.inr (Or.inr rfl)

theorem closing_dtor_run : ∀ (acts : List (PoolAction J)) (s t : Threadpool J),
    (s.status = _Threadpool_Status.CLOSING →
      s.dtor = Dtor.post ∨ s.dtor = Dtor.join ∨ s.dtor = Dtor.destroyed) →
    s.run acts = some t →
    t.status = _Threadpool_Status.CLOSING →
      t.dtor = Dtor.post ∨ t.dtor = Dtor.join ∨ t.dtor = Dtor.destroyed
  | [], s, t, h, hr => by
      simp only [run, Option.some.injEq] at hr
      exact hr ▸ h
  | a :: acts, s, t, h, hr => by
      simp only [run] at hr
      cases hs : s.step a with
      | none => simp [hs] at hr
      | some s1 =>
        simp only [hs, Option.some_bind] at hr
        exact closing_dtor_run acts s1 t (closing_dtor_step h hs) hr

/-- While the destructor has not been called the status is `IDLE` or `RUNNING`. -/
theorem open_of_alive {n : Nat} {s : Threadpool J} (h : Reachable n s)
    (hd : s.dtor = Dtor.alive) : s.status ≠ _Threadpool_Status.CLOSING := by
  obtain ⟨acts, hr⟩ := h
  intro hc
  have := closing_dtor_run acts _ s (fun hf => _Threadpool_Status.noConfusion hf) hr hc
  rw [hd] at this
  rcases this with k | k | k <;> cases k

/-- The critical section of the destructor's `wait_for_idle`, as a step of the pool. -/
theorem dtor_enter_eq (s : Threadpool J) (hab : s.aborted = false)
    (hd : s.dtor = Dtor.alive) :
    s.step PoolAction.dtor_enter
      = some (if s.status = _Threadpool_Status.IDLE then { s with dtor := Dtor.close }
              else { s with idle_waiting := true, dtor := Dtor.wait_sem }) := by
  have hlive : ¬ (s.aborted = true ∨ s.dtor = Dtor.destroyed) := by
    rintro (h | h)
    · rw [hab] at h; cases h
    · rw [hd] at h; cases h
  unfold step
  rw [if_neg hlive]
  unfold wait_for_idle_critical
  by_cases hst : s.status = _Threadpool_Status.IDLE
  · simp only [if_pos hd, if_pos hst, if_true]
  · simp only [if_pos hd, if_neg hst, Bool.false_eq_true, if_false]

/-- The destructor, blocked in its `wait_for_idle`, takes a permit of the idle semaphore. -/
theorem dtor_wake_eq (s : Threadpool J) (hab : s.aborted = false)
    (hd : s.dtor = Dtor.wait_sem) (hp : 0 < s.wait_for_idle_semaphore) :
    s.step PoolAction.dtor_wake
      = some { s with wait_for_idle_semaphore := s.wait_for_idle_semaphore - 1,
                      dtor := Dtor.wait_check } := by
  have hlive : ¬ (s.aborted = true ∨ s.dtor = Dtor.destroyed) := by
    rintro (h | h)
    · rw [hab] at h; cases h
    · rw [hd] at h; cases h
  unfold step
  rw [if_neg hlive]
  simp only [if_pos (And.intro hd hp)]

/-- The destructor, woken in its `wait_for_idle`, reads `IDLE` and returns from it. -/
theorem dtor_check_eq (s : Threadpool J) (hab : s.aborted = false)
    (hd : s.dtor = Dtor.wait_check) (hi : s.status = _Threadpool_Status.IDLE) :
    s.step PoolAction.dtor_check = some { s with dtor := Dtor.close } := by
  have hlive : ¬ (s.aborted = true ∨ s.dtor = Dtor.destroyed) := by
    rintro (h | h)
    · rw [hab] at h; cases h
    · rw [hd] at h; cases h
  have hni : ¬ (s.status ≠ _Threadpool_Status.IDLE) := fun h => h hi
  unfold step
  rw [if_neg hlive]
  simp only [if_pos hd, if_neg hni]

/-- A call of `wait_for_idle` on a pool with at least one worker, made while the process is
alive and the destructor has not been called, can return: some schedule that starts with the
call and is made of steps of the workers and of callers of `wait_for_idle` reaches a step at
which `wait_for_idle` returns. -/
theorem wait_for_idle_can_return {n : Nat} {s : Threadpool J} (h : Reachable n s)
    (hn : 0 < n % UINT_SIZE) (hab : s.aborted = false) (hd : s.dtor = Dtor.alive) :
    ∃ (acts : List (PoolAction J)) (s1 t : Threadpool J) (a : PoolAction J),
      s.run acts = some s1 ∧ (∀ b ∈ acts, b.is_worker = true ∨ b.is_wait = true)
      ∧ a.is_wait = true ∧ s1.step a = some t ∧ s1.wait_for_idle_returns a t = true
      ∧ Inv n s1 ∧ s1.submitted = s.submitted := by
  have hi := inv_of_reachable h
  have hd2 : s.dtor ≠ Dtor.destroyed := by
    rw [hd]
    exact fun hf => Dtor.noConfusion hf
  have henter := wait_enter_eq s hab hd2
  by_cases hst : s.status = _Threadpool_Status.IDLE
  · rw [if_pos hst] at henter
    refine ⟨[], s, s, PoolAction.wait_enter, rfl, ?_, rfl, henter, ?_, hi, rfl⟩
    · intro b hb
      cases hb
    · simp only [wait_for_idle_returns, beq_self_eq_true]
  · rw [if_neg hst] at henter
    have hr : s.status = _Threadpool_Status.RUNNING := by
      cases hs : s.status with
      | IDLE => exact absurd hs hst
      | RUNNING => rfl
      | CLOSING => exact absurd hs (open_of_alive h hd)
    have hi0 := inv_step hi _ henter
    have hlen : 0 < s.threads.length := by
      rw [hi.size]
      exact hn
    obtain ⟨acts, t1, hall, hrun, r1, r2, r3, r4, r5, r6, _, r8⟩ :=
      drain (drain_measure { s with idle_waiting := true, waiting := s.waiting + 1 })
        { s with idle_waiting := true, waiting := s.waiting + 1 } (Nat.le_refl _)
        hi0 (awake_step hi (awake_of_reachable h) henter) hlen hab hd2 hr
    simp only [if_true] at r8
    have hi1 := inv_run acts _ t1 hi0 hrun
    have hd1 : t1.dtor ≠ Dtor.destroyed := by
      rw [r5]
      exact hd2
    have hwake := wait_wake_eq t1 r6 hd1 (by rw [r3]; exact Nat.succ_pos _)
      (by rw [r8]; exact Nat.succ_pos _)
    have hi2 := inv_step hi1 _ hwake
    have hcheck := wait_check_eq
      { t1 with wait_for_idle_semaphore := t1.wait_for_idle_semaphore - 1,
                waiting := t1.waiting - 1, checking := t1.checking + 1 }
      r6 hd1 (Nat.succ_pos _) r1
    refine ⟨PoolAction.wait_enter :: (acts ++ [PoolAction.wait_wake]), _, _,
      PoolAction.wait_check, ?_, ?_, rfl, hcheck, ?_, hi2, r2⟩
    · simp only [run, henter, Option.some_bind, run_append, hrun, hwake]
    · intro b hb
      rcases List.mem_cons.mp hb with rfl | hb
      · exact Or.inr rfl
      · rcases List.mem_append.mp hb with h1 | h1
        · exact Or.inl (hall b h1)
        · rcases List.mem_cons.mp h1 with rfl | h2
          · exact Or.inr rfl
          · cases h2
    · simp only [wait_for_idle_returns, r6, Bool.not_false]

/-- The destructor of a pool with at least one worker, called while the process is alive,
can return from its `wait_for_idle`: some schedule made of steps of the workers and of the
destructor reaches a step at which that call returns. -/
theorem dtor_wait_can_return {n : Nat} {s : Threadpool J} (h : Reachable n s)
    (hn : 0 < n % UINT_SIZE) (hab : s.aborted = false) (hd : s.dtor = Dtor.alive) :
    ∃ (acts : List (PoolAction J)) (s1 t : Threadpool J) (a : PoolAction J),
      s.run acts = some s1 ∧ (∀ b ∈ acts, b.is_worker = true ∨ b.is_dtor = true)
      ∧ a.is_dtor = true ∧ s1.step a = some t ∧ s1.wait_for_idle_returns a t = true
      ∧ Inv n s1 ∧ s1.submitted = s.submitted := by
  have hi := inv_of_reachable h
  have henter := dtor_enter_eq s hab hd
  by_cases hst : s.status = _Threadpool_Status.IDLE
  · rw [if_pos hst] at henter
    refine ⟨[], s, _, PoolAction.dtor_enter, rfl, ?_, rfl, henter, ?_, hi, rfl⟩
    · intro b hb
      cases hb
    · simp only [wait_for_idle_returns, beq_self_eq_true]
  · rw [if_neg hst] at henter
    have hr : s.status = _Threadpool_Status.RUNNING := by
      cases hs : s.status with
      | IDLE => exact absurd hs hst
      | RUNNING => rfl
      | CLOSING => exact absurd hs (open_of_alive h hd)
    have hi0 := inv_step hi _ henter
    have hlen : 0 < s.threads.length := by
      rw [hi.size]
      exact hn
    obtain ⟨acts, t1, hall, hrun, r1, r2, _, _, r5, r6, _, r8⟩ :=
      drain (drain_measure { s with idle_waiting := true, dtor := Dtor.wait_sem })
        { s with idle_waiting := true, dtor := Dtor.wait_sem } (Nat.le_refl _)
        hi0 (awake_step hi (awake_of_reachable h) henter) hlen hab
        (fun hf => Dtor.noConfusion hf) hr
    simp only [if_true] at r8
    have hi1 := inv_run acts _ t1 hi0 hrun
    have hwake := dtor_wake_eq t1 r6 r5 (by rw [r8]; exact Nat.succ_pos _)
    have hi2 := inv_step hi1 _ hwake
    have hcheck := dtor_check_eq
      { t1 with wait_for_idle_semaphore := t1.wait_for_idle_semaphore - 1,
                dtor := Dtor.wait_check }
      r6 rfl r1
    refine ⟨PoolAction.dtor_enter :: (acts ++ [PoolAction.dtor_wake]), _, _,
      PoolAction.dtor_check, ?_, ?_, rfl, hcheck, ?_, hi2, r2⟩
    · simp only [run, henter, Option.some_bind, run_append, hrun, hwake]
    · intro b hb
      rcases List.mem_cons.mp hb with rfl | hb
      · exact Or.inr rfl
      · rcases List.mem_append.mp hb with h1 | h1
        · exact Or.inl (hall b h1)
        · rcases List.mem_cons.mp h1 with rfl | h2
          · exact Or.inr rfl
          · cases h2
    · simp only [wait_for_idle_returns, beq_self_eq_true]

/-- C3: in a reachable state in which the jobs submitted so far are `js` (a client has
submitted them and nobody else submits).  First, at every step at which a call of
`wait_for_idle` returns (directly or inside the destructor, at line 82 or after line 86),
every job of `js` has been executed to completion exactly once: the completion log is a
permutation of `js`, the queue is empty, no job is in execution, and the process is alive.
Second, when the pool has at least one worker, the process is alive, the destructor has not
been called and nobody is inside `wait_for_idle`, a call of `wait_for_idle` made now, and
likewise the one made by the destructor, does return after all jobs of `js` have been
executed: some schedule of steps of the workers and of the caller, with no `add_work`,
reaches such a step. -/
theorem wait_for_idle_returns_after_all_jobs (n : Nat) (js : List J) (s : Threadpool J)
    (h : Reachable n s) (hsub : s.submitted = js) :
    (∀ (a : PoolAction J) (t : Threadpool J), s.step a = some t →
        s.wait_for_idle_returns a t = true →
        t.executed.Perm js ∧ t.jobs = [] ∧ t.in_execution = [] ∧ t.aborted = false)
    ∧ (0 < n % UINT_SIZE → s.aborted = false → s.dtor = Dtor.alive →
        s.waiting + s.checking = 0 →
        (∃ (acts : List (PoolAction J)) (s1 t : Threadpool J) (a : PoolAction J),
          s.run acts = some s1 ∧ (∀ b ∈ acts, b.is_worker = true ∨ b.is_wait = true)
          ∧ a.is_wait = true ∧ s1.step a = some t ∧ s1.wait_for_idle_returns a t = true
          ∧ t.executed.Perm js ∧ t.jobs = [] ∧ t.in_execution = [] ∧ t.aborted = false)
        ∧ (∃ (acts : List (PoolAction J)) (s1 t : Threadpool J) (a : PoolAction J),
          s.run acts = some s1 ∧ (∀ b ∈ acts, b.is_worker = true ∨ b.is_dtor = true)
          ∧ a.is_dtor = true ∧ s1.step a = some t ∧ s1.wait_for_idle_returns a t = true
          ∧ t.executed.Perm js ∧ t.jobs = [] ∧ t.in_execution = [] ∧ t.aborted = false)) := by
  refine ⟨fun a t hs hret => ?_, fun hn hab hd _ => ⟨?_, ?_⟩⟩
  · rw [← hsub]
    exact returns_all_executed (inv_of_reachable h) hs hret
  · obtain ⟨acts, s1, t, a, hrun, hall, ha, hs, hret, hi1, e⟩ :=
      wait_for_idle_can_return h hn hab hd
    refine ⟨acts, s1, t, a, hrun, hall, ha, hs, hret, ?_⟩
    rw [← hsub, ← e]
    exact returns_all_executed hi1 hs hret
  · obtain ⟨acts, s1, t, a, hrun, hall, ha, hs, hret, hi1, e⟩ :=
      dtor_wait_can_return h hn hab hd
    refine ⟨acts, s1, t, a, hrun, hall, ha, hs, hret, ?_⟩
    rw [← hsub, ← e]
    exact returns_all_executed hi1 hs hret

/-- Witness of C3: the run `example_wait_schedule`.  Two workers, three jobs; the client
blocks in `wait_for_idle`, is released by the worker that finds the queue drained, and
returns at its read of `status`, after all three jobs have run; and right after the three
calls of `add_work` a call of `wait_for_idle`, by the client or by the destructor, can
return. -/
theorem wait_for_idle_returns_after_all_jobs_witness :
    ((ctor 2 : Threadpool Nat).runD example_wait_schedule).executed = [2, 1, 3]
    ∧ (((ctor 2 : Threadpool Nat).runD example_wait_schedule).executed.Perm [1, 2, 3]
      ∧ ((ctor 2 : Threadpool Nat).runD example_wait_schedule).jobs = []
      ∧ ((ctor 2 : Threadpool Nat).runD example_wait_schedule).in_execution = []
      ∧ ((ctor 2 : Threadpool Nat).runD example_wait_schedule).aborted = false)
    ∧ ((∃ (acts : List (PoolAction Nat)) (s1 t : Threadpool Nat) (a : PoolAction Nat),
          ((ctor 2 : Threadpool Nat).runD (example_wait_schedule.take 3)).run acts = some s1
          ∧ (∀ b ∈ acts, b.is_worker = true ∨ b.is_wait = true)
          ∧ a.is_wait = true ∧ s1.step a = some t ∧ s1.wait_for_idle_returns a t = true
          ∧ t.executed.Perm [1, 2, 3] ∧ t.jobs = [] ∧ t.in_execution = []
          ∧ t.aborted = false)
      ∧ (∃ (acts : List (PoolAction Nat)) (s1 t : Threadpool Nat) (a : PoolAction Nat),
          ((ctor 2 : Threadpool Nat).runD (example_wait_schedule.take 3)).run acts = some s1
          ∧ (∀ b ∈ acts, b.is_worker = true ∨ b.is_dtor = true)
          ∧ a.is_dtor = true ∧ s1.step a = some t ∧ s1.wait_for_idle_returns a t = true
          ∧ t.executed.Perm [1, 2, 3] ∧ t.jobs = [] ∧ t.in_execution = []
          ∧ t.aborted = false)) :=
  ⟨by decide,
   (wait_for_idle_returns_after_all_jobs 2 [1, 2, 3]
      ((ctor 2 : Threadpool Nat).runD (example_wait_schedule.take 15))
      (reachable_runD 2 _ (by decide)) (by decide)).1
      PoolAction.wait_check ((ctor 2 : Threadpool Nat).runD example_wait_schedule)
      (by rfl) (by decide),
   (wait_for_idle_returns_after_all_jobs 2 [1, 2, 3]
      ((ctor 2 : Threadpool Nat).runD (example_wait_schedule.take 3))
      (reachable_runD 2 _ (by decide)) (by decide)).2
      (by decide) (by decide) (by decide) (by decide)⟩

end Threadpool

/-! ## The result collector: invariants -/

namespace ThreadpoolResultCollector

variable {T : Type}

/-- A step of the collector is a step of its pool, or leaves the pool alone. -/
theorem collector_step_inner {c d : ThreadpoolResultCollector T} {a : CollectorAction T}
    (hs : c.step a = some d) :
    match inner_action a with
    | some b => c.inner.step b = some d.inner
    | none => d.inner = c.inner := by
  unfold step at hs
  cases a with
  | add_work func =>
    simp only [inner_action]
    simp only at hs
    split at hs
    · cases hs
    · rename_i hlive
      simp only [Option.some.injEq] at hs
      subst hs
      simp only [Threadpool.step, if_neg hlive, add_work]
  | pool a =>
    simp only [inner_action]
    cases a with
    | add_work work => simp at hs
    | worker_execute i =>
      simp only at hs
      split at hs
      · simp only [Option.map_eq_some'] at hs
        obtain ⟨p, hp, rfl⟩ := hs
        exact hp
      · cases hs
    | worker_wake i =>
      simp only [Option.map_eq_some'] at hs
      obtain ⟨p, hp, rfl⟩ := hs
      exact hp
    | worker_claim i =>
      simp only [Option.map_eq_some'] at hs
      obtain ⟨p, hp, rfl⟩ := hs
      exact hp
    | wait_enter =>
      simp only [Option.map_eq_some'] at hs
      obtain ⟨p, hp, rfl⟩ := hs
      exact hp
    | wait_wake =>
      simp only [Option.map_eq_some'] at hs
      obtain ⟨p, hp, rfl⟩ := hs
      exact hp
    | wait_check =>
      simp only [Option.map_eq_some'] at hs
      obtain ⟨p, hp, rfl⟩ := hs
      exact hp
    | dtor_enter =>
      simp only [Option.map_eq_some'] at hs
      obtain ⟨p, hp, rfl⟩ := hs
      exact hp
    | dtor_wake =>
      simp only [Option.map_eq_some'] at hs
      obtain ⟨p, hp, rfl⟩ := hs
      exact hp
    | dtor_check =>
      simp only [Option.map_eq_some'] at hs
      obtain ⟨p, hp, rfl⟩ := hs
      exact hp
    | dtor_close =>
      simp only [Option.map_eq_some'] at hs
      obtain ⟨p, hp, rfl⟩ := hs
      exact hp
    | dtor_post =>
      simp only [Option.map_eq_some'] at hs
      obtain ⟨p, hp, rfl⟩ := hs
      exact hp
    | dtor_join =>
      simp only [Option.map_eq_some'] at hs
      obtain ⟨p, hp, rfl⟩ := hs
      exact hp
  | get_enter =>
    simp only [inner_action]
    simp only [Option.map_eq_some'] at hs
    obtain ⟨p, hp, rfl⟩ := hs
    rw [hp]
    split <;> rfl
  | get_wake =>
    simp only [inner_action]
    simp only at hs
    split at hs
    · simp only [Option.map_eq_some'] at hs
      obtain ⟨p, hp, rfl⟩ := hs
      exact hp
    · cases hs
  | get_check =>
    simp only [inner_action]
    simp only at hs
    split at hs
    · simp only [Option.map_eq_some'] at hs
      obtain ⟨p, hp, rfl⟩ := hs
      rw [hp]
      split <;> rfl
    · cases hs
  | get_swap =>
    simp only [inner_action]
    simp only at hs
    split at hs
    · simp only [Option.some.injEq] at hs
      subst hs
      rfl
    · cases hs

/-- What one step of the collector does, action by action. -/
theorem collector_step_spec {c d : ThreadpoolResultCollector T} {a : CollectorAction T}
    (hs : c.step a = some d) :
    match a with
    | CollectorAction.add_work func => d = { c with inner := c.inner.add_work func }
    | CollectorAction.pool a =>
      (∀ work, a ≠ PoolAction.add_work work) ∧
      ∃ p, c.inner.step a = some p
        ∧ d = { c with inner := p, results := c.results ++ c.completed a }
    | CollectorAction.get_enter =>
      ∃ p, c.inner.step PoolAction.wait_enter = some p ∧
        ((c.inner.status = _Threadpool_Status.IDLE
            ∧ d = { c with inner := p, get_swapping := c.get_swapping + 1 })
         ∨ (c.inner.status ≠ _Threadpool_Status.IDLE
            ∧ d = { c with inner := p, get_waiting := c.get_waiting + 1 }))
    | CollectorAction.get_wake =>
      0 < c.get_waiting ∧
      ∃ p, c.inner.step PoolAction.wait_wake = some p
        ∧ d = { c with inner := p, get_waiting := c.get_waiting - 1,
                       get_checking := c.get_checking + 1 }
    | CollectorAction.get_check =>
      0 < c.get_checking ∧
      ∃ p, c.inner.step PoolAction.wait_check = some p ∧
        ((p.aborted = true ∧ d = { c with inner := p, get_checking := c.get_checking - 1 })
         ∨ (p.aborted = false
            ∧ d = { c with inner := p, get_checking := c.get_checking - 1,
                           get_swapping := c.get_swapping + 1 }))
    | CollectorAction.get_swap =>
      0 < c.get_swapping ∧ c.inner.aborted = false
      ∧ d = { c with results := [], get_swapping := c.get_swapping - 1,
                     returned := c.returned ++ [c.results] } := by
  unfold step at hs
  cases a with
  | add_work func =>
    simp only at hs ⊢
    split at hs
    · cases hs
    · simp only [Option.some.injEq] at hs
      exact hs.symm
  | pool a =>
    cases a with
    | add_work work => simp at hs
    | worker_execute i =>
      simp only at hs
      show (∀ work, _ ≠ PoolAction.add_work work) ∧ ∃ p, _ ∧ _
      refine ⟨fun _ hw => PoolAction.noConfusion hw, ?_⟩
      split at hs
      · rename_i func hw
        simp only [Option.map_eq_some'] at hs
        obtain ⟨p, hp, rfl⟩ := hs
        exact ⟨p, hp, by simp only [completed, Threadpool.finished, hw, run_job, List.map]⟩
      · cases hs
    | worker_wake i =>
      simp only [Option.map_eq_some'] at hs
      obtain ⟨p, hp, rfl⟩ := hs
      show (∀ work, _ ≠ PoolAction.add_work work) ∧ ∃ p, _ ∧ _
      exact ⟨fun _ hw => PoolAction.noConfusion hw, p, hp, by simp [completed, Threadpool.finished]⟩
    | worker_claim i =>
      simp only [Option.map_eq_some'] at hs
      obtain ⟨p, hp, rfl⟩ := hs
      show (∀ work, _ ≠ PoolAction.add_work work) ∧ ∃ p, _ ∧ _
      exact ⟨fun _ hw => PoolAction.noConfusion hw, p, hp, by simp [completed, Threadpool.finished]⟩
    | wait_enter =>
      simp only [Option.map_eq_some'] at hs
      obtain ⟨p, hp, rfl⟩ := hs
      show (∀ work, _ ≠ PoolAction.add_work work) ∧ ∃ p, _ ∧ _
      exact ⟨fun _ hw => PoolAction.noConfusion hw, p, hp, by simp [completed, Threadpool.finished]⟩
    | wait_wake =>
      simp only [Option.map_eq_some'] at hs
      obtain ⟨p, hp, rfl⟩ := hs
      show (∀ work, _ ≠ PoolAction.add_work work) ∧ ∃ p, _ ∧ _
      exact ⟨fun _ hw => PoolAction.noConfusion hw, p, hp, by simp [completed, Threadpool.finished]⟩
    | wait_check =>
      simp only [Option.map_eq_some'] at hs
      obtain ⟨p, hp, rfl⟩ := hs
      show (∀ work, _ ≠ PoolAction.add_work work) ∧ ∃ p, _ ∧ _
      exact ⟨fun _ hw => PoolAction.noConfusion hw, p, hp, by simp [completed, Threadpool.finished]⟩
    | dtor_enter =>
      simp only [Option.map_eq_some'] at hs
      obtain ⟨p, hp, rfl⟩ := hs
      show (∀ work, _ ≠ PoolAction.add_work work) ∧ ∃ p, _ ∧ _
      exact ⟨fun _ hw => PoolAction.noConfusion hw, p, hp, by simp [completed, Threadpool.finished]⟩
    | dtor_wake =>
      simp only [Option.map_eq_some'] at hs
      obtain ⟨p, hp, rfl⟩ := hs
      show (∀ work, _ ≠ PoolAction.add_work work) ∧ ∃ p, _ ∧ _
      exact ⟨fun _ hw => PoolAction.noConfusion hw, p, hp, by simp [completed, Threadpool.finished]⟩
    | dtor_check =>
      simp only [Option.map_eq_some'] at hs
      obtain ⟨p, hp, rfl⟩ := hs
      show (∀ work, _ ≠ PoolAction.add_work work) ∧ ∃ p, _ ∧ _
      exact ⟨fun _ hw => PoolAction.noConfusion hw, p, hp, by simp [completed, Threadpool.finished]⟩
    | dtor_close =>
      simp only [Option.map_eq_some'] at hs
      obtain ⟨p, hp, rfl⟩ := hs
      show (∀ work, _ ≠ PoolAction.add_work work) ∧ ∃ p, _ ∧ _
      exact ⟨fun _ hw => PoolAction.noConfusion hw, p, hp, by simp [completed, Threadpool.finished]⟩
    | dtor_post =>
      simp only [Option.map_eq_some'] at hs
      obtain ⟨p, hp, rfl⟩ := hs
      show (∀ work, _ ≠ PoolAction.add_work work) ∧ ∃ p, _ ∧ _
      exact ⟨fun _ hw => PoolAction.noConfusion hw, p, hp, by simp [completed, Threadpool.finished]⟩
    | dtor_join =>
      simp only [Option.map_eq_some'] at hs
      obtain ⟨p, hp, rfl⟩ := hs
      show (∀ work, _ ≠ PoolAction.add_work work) ∧ ∃ p, _ ∧ _
      exact ⟨fun _ hw => PoolAction.noConfusion hw, p, hp, by simp [completed, Threadpool.finished]⟩
  | get_enter =>
    simp only [Option.map_eq_some'] at hs ⊢
    obtain ⟨p, hp, rfl⟩ := hs
    refine ⟨p, hp, ?_⟩
    by_cases hst : c.inner.status = _Threadpool_Status.IDLE
    · exact Or.inl ⟨hst, by simp [Threadpool.wait_for_idle_critical, hst]⟩
    · exact Or.inr ⟨hst, by simp [Threadpool.wait_for_idle_critical, hst]⟩
  | get_wake =>
    simp only at hs ⊢
    split at hs
    · rename_i hen
      simp only [Option.map_eq_some'] at hs
      obtain ⟨p, hp, rfl⟩ := hs
      exact ⟨hen, p, hp, rfl⟩
    · cases hs
  | get_check =>
    simp only at hs ⊢
    split at hs
    · rename_i hen
      simp only [Option.map_eq_some'] at hs
      obtain ⟨p, hp, rfl⟩ := hs
      refine ⟨hen, p, hp, ?_⟩
      cases hpa : p.aborted
      · exact Or.inr ⟨rfl, by simp⟩
      · exact Or.inl ⟨rfl, by simp⟩
    · cases hs
  | get_swap =>
    simp only at hs ⊢
    split at hs
    · rename_i hen
      simp only [Option.some.injEq] at hs
      exact ⟨hen.1, hen.2, by rw [← hs]; rfl⟩
    · cases hs

theorem collector_inv_ctor (n : Nat) : Inv n (ctor (Threadpool.ctor n) : ThreadpoolResultCollector T) where
  pool := Threadpool.inv_ctor n
  once := by simp [ctor, Threadpool.ctor]

theorem collector_inv_step {n : Nat} {c d : ThreadpoolResultCollector T} (h : Inv n c)
    (a : CollectorAction T) (hs : c.step a = some d) : Inv n d := by
  have hsp := collector_step_spec hs
  obtain ⟨hp, ho⟩ := h
  cases a with
  | add_work func =>
    simp only at hsp
    subst hsp
    refine ⟨Threadpool.inv_add_work hp func, ?_⟩
    have : (c.inner.add_work func).executed = c.inner.executed :=
      (Threadpool.add_work_frame c.inner func).2.2.2.2.2.2.2.2.2
    simp only [this]
    exact ho
  | pool a =>
    simp only at hsp
    obtain ⟨_, p, hstep, rfl⟩ := hsp
    refine ⟨Threadpool.inv_step hp a hstep, ?_⟩
    have he := Threadpool.step_executed hstep
    simp only [he, List.map_append, ← List.append_assoc, ho, completed]
  | get_enter =>
    simp only at hsp
    obtain ⟨p, hstep, hd⟩ := hsp
    have he := Threadpool.step_executed hstep
    simp only [Threadpool.finished, List.append_nil] at he
    rcases hd with ⟨_, rfl⟩ | ⟨_, rfl⟩
    · exact ⟨Threadpool.inv_step hp _ hstep, by simp only [he]; exact ho⟩
    · exact ⟨Threadpool.inv_step hp _ hstep, by simp only [he]; exact ho⟩
  | get_wake =>
    simp only at hsp
    obtain ⟨_, p, hstep, rfl⟩ := hsp
    have he := Threadpool.step_executed hstep
    simp only [Threadpool.finished, List.append_nil] at he
    exact ⟨Threadpool.inv_step hp _ hstep, by simp only [he]; exact ho⟩
  | get_check =>
    simp only at hsp
    obtain ⟨_, p, hstep, hd⟩ := hsp
    have he := Threadpool.step_executed hstep
    simp only [Threadpool.finished, List.append_nil] at he
    rcases hd with ⟨_, rfl⟩ | ⟨_, rfl⟩
    · exact ⟨Threadpool.inv_step hp _ hstep, by simp only [he]; exact ho⟩
    · exact ⟨Threadpool.inv_step hp _ hstep, by simp only [he]; exact ho⟩
  | get_swap =>
    simp only at hsp
    obtain ⟨_, _, rfl⟩ := hsp
    exact ⟨hp, by simpa using ho⟩

theorem collector_inv_run {n : Nat} : ∀ (acts : List (CollectorAction T))
    (c d : ThreadpoolResultCollector T), Inv n c → c.run acts = some d → Inv n d
  | [], c, d, h, hr => by
      simp only [run, Option.some.injEq] at hr
      exact hr ▸ h
  | a :: acts, c, d, h, hr => by
      simp only [run] at hr
      cases hs : c.step a with
      | none => simp [hs] at hr
      | some c1 =>
        simp only [hs, Option.some_bind] at hr
        exact collector_inv_run acts c1 d (collector_inv_step h a hs) hr

theorem collector_inv_of_reachable {n : Nat} {c : ThreadpoolResultCollector T} (h : Reachable n c) :
    Inv n c := by
  obtain ⟨acts, hr⟩ := h
  exact collector_inv_run acts _ c (collector_inv_ctor n) hr

theorem collector_run_of_run_where
    (ok : ThreadpoolResultCollector T → CollectorAction T → Bool) :
    ∀ (acts : List (CollectorAction T)) (c d : ThreadpoolResultCollector T),
      c.run_where ok acts = some d → c.run acts = some d
  | [], c, d, hr => by
      simp only [run_where, Option.some.injEq] at hr
      simp only [run, hr]
  | a :: acts, c, d, hr => by
      simp only [run_where] at hr
      split at hr
      · cases hs : c.step a with
        | none => simp [hs] at hr
        | some c1 =>
          simp only [hs, Option.some_bind] at hr
          simp only [run, hs, Option.some_bind]
          exact collector_run_of_run_where ok acts c1 d hr
      · cases hr

/-- A schedule that can be run ends in a reachable state. -/
theorem collector_reachable_runD (n : Nat) (acts : List (CollectorAction T))
    (h : ((ctor (Threadpool.ctor n) : ThreadpoolResultCollector T).run acts).isSome = true) :
    Reachable n ((ctor (Threadpool.ctor n) : ThreadpoolResultCollector T).runD acts) := by
  refine ⟨acts, ?_⟩
  unfold runD
  cases hr : (ctor (Threadpool.ctor n) : ThreadpoolResultCollector T).run acts with
  | none => simp [hr] at h
  | some t => rfl

theorem solo_ctor (n : Nat) : Solo (ctor (Threadpool.ctor n) : ThreadpoolResultCollector T) where
  swap_idle := fun _ => rfl

theorem solo_step {c d : ThreadpoolResultCollector T} {a : CollectorAction T} (h : Solo c)
    (hok : c.single_client a = true) (hs : c.step a = some d) : Solo d := by
  have hsp := collector_step_spec hs
  obtain ⟨hsw⟩ := h
  cases a with
  | add_work func =>
    simp only at hsp
    subst hsp
    simp only [single_client, beq_iff_eq] at hok
    refine ⟨fun hp => ?_⟩
    simp only at hp
    omega
  | pool a =>
    simp only at hsp
    obtain ⟨_, p, hstep, rfl⟩ := hsp
    refine ⟨fun hp => ?_⟩
    have hidle := hsw hp
    have hw : a.is_worker = true := by
      cases a <;> first | rfl | (simp only [single_client] at hok; cases hok)
    rcases Threadpool.step_worker_status hstep hw with h1 | h1
    · exact h1.trans hidle
    · exact h1
  | get_enter =>
    simp only at hsp
    obtain ⟨p, hstep, hd⟩ := hsp
    simp only [single_client, beq_iff_eq] at hok
    have hst := (Threadpool.step_wait_status hstep rfl).1
    rcases hd with ⟨hidle, rfl⟩ | ⟨_, rfl⟩
    · exact ⟨fun _ => hst.trans hidle⟩
    · refine ⟨fun hp => ?_⟩
      simp only at hp
      omega
  | get_wake =>
    simp only at hsp
    obtain ⟨_, p, hstep, rfl⟩ := hsp
    have hst := (Threadpool.step_wait_status hstep rfl).1
    exact ⟨fun hp => hst.trans (hsw hp)⟩
  | get_check =>
    simp only at hsp
    obtain ⟨_, p, hstep, hd⟩ := hsp
    obtain ⟨hst, hret⟩ := Threadpool.step_wait_status hstep rfl
    rcases hd with ⟨_, rfl⟩ | ⟨hab, rfl⟩
    · exact ⟨fun hp => hst.trans (hsw hp)⟩
    · exact ⟨fun _ => hst.trans (hret rfl hab)⟩
  | get_swap =>
    simp only at hsp
    obtain ⟨hp0, _, rfl⟩ := hsp
    exact ⟨fun _ => hsw hp0⟩

theorem solo_run : ∀ (acts : List (CollectorAction T)) (c d : ThreadpoolResultCollector T),
    Solo c → c.run_where single_client acts = some d → Solo d
  | [], c, d, h, hr => by
      simp only [run_where, Option.some.injEq] at hr
      exact hr ▸ h
  | a :: acts, c, d, h, hr => by
      simp only [run_where] at hr
      split at hr
      · rename_i hok
        cases hs : c.step a with
        | none => simp [hs] at hr
        | some c1 =>
          simp only [hs, Option.some_bind] at hr
          exact solo_run acts c1 d (solo_step h hok hs) hr
      · cases hr

/-! ## The result collector: `get_results` can return -/

theorem client_ctor (n : Nat) :
    Client (ctor (Threadpool.ctor n) : ThreadpoolResultCollector T) where
  calm := Threadpool.calm_ctor n
  alive := rfl
  running := fun h => _Threadpool_Status.noConfusion h
  waiting := rfl
  checking := rfl

theorem client_step {c d : ThreadpoolResultCollector T} {a : CollectorAction T}
    (h : Client c) (hok : c.single_client a = true) (hs : c.step a = some d) : Client d := by
  have hin := collector_step_inner hs
  have hsp := collector_step_spec hs
  obtain ⟨hcalm, halive, hrun, hwait, hcheck⟩ := h
  cases a with
  | add_work func =>
    simp only [inner_action] at hin
    simp only at hsp
    subst hsp
    simp only [single_client, beq_iff_eq] at hok
    have hw0 : c.inner.waiting = 0 := by omega
    have hc0 : c.inner.checking = 0 := by omega
    have hs0 : c.inner.wait_for_idle_semaphore = 0 := by
      by_contra hne
      have := hcalm.permit_for (Nat.pos_of_ne_zero hne)
      omega
    have hq : c.inner.single_waiter_quiet_wake (PoolAction.add_work func) = true := by
      simp [Threadpool.single_waiter_quiet_wake, Threadpool.single_waiter,
        PoolAction.is_dtor, hs0, hc0]
    obtain ⟨_, _, _, _, f5, f6, f7, _⟩ := Threadpool.add_work_frame c.inner func
    refine ⟨Threadpool.calm_step hcalm hq hin, f7.trans halive, ?_, f5.trans hwait,
      f6.trans hcheck⟩
    show (c.inner.add_work func).status ≠ _Threadpool_Status.CLOSING
    rcases Threadpool.add_work_cases c.inner func with ⟨_, e, _⟩ | ⟨_, e, _⟩
    · rw [e]
      exact fun hf => _Threadpool_Status.noConfusion hf
    · rw [e]
      exact hrun
  | pool a =>
    simp only [inner_action] at hin
    simp only at hsp
    obtain ⟨_, p, hstep, rfl⟩ := hsp
    have hw : a.is_worker = true := by
      cases a <;> first | rfl | (simp only [single_client] at hok; cases hok)
    have hq : c.inner.single_waiter_quiet_wake a = true := by
      cases a <;> first | rfl | cases hw
    obtain ⟨_, _, e2, e3, e4, _, _, hcase⟩ := Threadpool.drain_step hstep hrun hw
    refine ⟨Threadpool.calm_step hcalm hq hstep, e4.trans halive, ?_, e2.trans hwait,
      e3.trans hcheck⟩
    show p.status ≠ _Threadpool_Status.CLOSING
    rcases hcase with ⟨k, _, _⟩ | ⟨k, _, _⟩
    · rw [k]
      exact hrun
    · rw [k]
      exact fun hf => _Threadpool_Status.noConfusion hf
  | get_enter =>
    simp only [inner_action] at hin
    simp only at hsp
    obtain ⟨p, hstep, hd⟩ := hsp
    simp only [single_client, beq_iff_eq] at hok
    have hq : c.inner.single_waiter_quiet_wake PoolAction.wait_enter = true := by
      have : c.inner.waiting + c.inner.checking = 0 := by omega
      simp [Threadpool.single_waiter_quiet_wake, Threadpool.single_waiter,
        PoolAction.is_dtor, this]
    have hcalm2 := Threadpool.calm_step hcalm hq hstep
    obtain ⟨_, _, hp⟩ := Threadpool.step_spec hstep
    simp only at hp
    rcases hd with ⟨hidle, rfl⟩ | ⟨hnid, rfl⟩
    · rcases hp with ⟨_, rfl⟩ | ⟨hne, _⟩
      · exact ⟨hcalm2, halive, hrun, hwait, hcheck⟩
      · exact absurd hidle hne
    · rcases hp with ⟨hi, _⟩ | ⟨_, rfl⟩
      · exact absurd hi hnid
      · refine ⟨hcalm2, halive, hrun, ?_, hcheck⟩
        show c.inner.waiting + 1 = c.get_waiting + 1
        rw [hwait]
  | get_wake =>
    simp only [inner_action] at hin
    simp only at hsp
    obtain ⟨_, p, hstep, rfl⟩ := hsp
    have hcalm2 := Threadpool.calm_step hcalm (by rfl) hstep
    obtain ⟨_, _, hp⟩ := Threadpool.step_spec hstep
    simp only at hp
    obtain ⟨_, _, rfl⟩ := hp
    refine ⟨hcalm2, halive, hrun, ?_, ?_⟩
    · show c.inner.waiting - 1 = c.get_waiting - 1
      rw [hwait]
    · show c.inner.checking + 1 = c.get_checking + 1
      rw [hcheck]
  | get_check =>
    simp only [inner_action] at hin
    simp only at hsp
    obtain ⟨_, p, hstep, hd⟩ := hsp
    have hcalm2 := Threadpool.calm_step hcalm (by rfl) hstep
    obtain ⟨_, _, hp⟩ := Threadpool.step_spec hstep
    simp only at hp
    have hst : p.status = c.inner.status ∧ p.dtor = c.inner.dtor
        ∧ p.waiting = c.inner.waiting ∧ p.checking = c.inner.checking - 1 := by
      rcases hp.2 with ⟨_, rfl⟩ | ⟨_, rfl⟩ <;> exact ⟨rfl, rfl, rfl, rfl⟩
    obtain ⟨q1, q2, q3, q4⟩ := hst
    have hch : p.checking = c.get_checking - 1 := by rw [q4, hcheck]
    rcases hd with ⟨_, rfl⟩ | ⟨_, rfl⟩
    · exact ⟨hcalm2, q2.trans halive, by show p.status ≠ _; rw [q1]; exact hrun,
        q3.trans hwait, hch⟩
    · exact ⟨hcalm2, q2.trans halive, by show p.status ≠ _; rw [q1]; exact hrun,
        q3.trans hwait, hch⟩
  | get_swap =>
    simp only at hsp
    obtain ⟨_, _, rfl⟩ := hsp
    exact ⟨hcalm, halive, hrun, hwait, hcheck⟩

theorem client_run : ∀ (acts : List (CollectorAction T)) (c d : ThreadpoolResultCollector T),
    Client c → c.run_where single_client acts = some d → Client d
  | [], c, d, h, hr => by
      simp only [run_where, Option.some.injEq] at hr
      exact hr ▸ h
  | a :: acts, c, d, h, hr => by
      simp only [run_where] at hr
      split at hr
      · rename_i hok
        cases hs : c.step a with
        | none => simp [hs] at hr
        | some c1 =>
          simp only [hs, Option.some_bind] at hr
          exact client_run acts c1 d (client_step h hok hs) hr
      · cases hr

theorem awake_of_collector_run {n : Nat} : ∀ (acts : List (CollectorAction T))
    (c d : ThreadpoolResultCollector T), Inv n c → c.inner.Awake → c.run acts = some d →
    d.inner.Awake
  | [], c, d, _, h, hr => by
      simp only [run, Option.some.injEq] at hr
      exact hr ▸ h
  | a :: acts, c, d, hi, h, hr => by
      simp only [run] at hr
      cases hs : c.step a with
      | none => simp [hs] at hr
      | some c1 =>
        simp only [hs, Option.some_bind] at hr
        have hin := collector_step_inner hs
        have h1 : c1.inner.Awake := by
          cases hb : inner_action a with
          | none =>
            rw [hb] at hin
            simp only at hin
            rw [hin]
            exact h
          | some b =>
            rw [hb] at hin
            simp only at hin
            exact Threadpool.awake_step hi.pool h hin
        exact awake_of_collector_run acts c1 d (collector_inv_step hi a hs) h1 hr

theorem collector_run_where_append
    (ok : ThreadpoolResultCollector T → CollectorAction T → Bool) :
    ∀ (l1 l2 : List (CollectorAction T)) (c d e : ThreadpoolResultCollector T),
      c.run_where ok l1 = some d → d.run_where ok l2 = some e →
      c.run_where ok (l1 ++ l2) = some e
  | [], l2, c, d, e, h1, h2 => by
      simp only [run_where, Option.some.injEq] at h1
      rw [List.nil_append, h1]
      exact h2
  | a :: l1, l2, c, d, e, h1, h2 => by
      simp only [run_where] at h1
      split at h1
      · rename_i hok
        cases hs : c.step a with
        | none => simp [hs] at h1
        | some c1 =>
          simp only [hs, Option.some_bind] at h1
          simp only [List.cons_append, run_where, if_pos hok, hs, Option.some_bind]
          exact collector_run_where_append ok l1 l2 c1 d e h1 h2
      · cases h1

/-- A step of a worker of the pool is a step of the collector that follows `single_client`
and leaves the callers of `get_results` and what they returned alone. -/
theorem lift_worker_step {c : ThreadpoolResultCollector T} {a : PoolAction (Unit → T)}
    {p : Threadpool (Unit → T)} (hw : a.is_worker = true) (hs : c.inner.step a = some p) :
    c.single_client (CollectorAction.pool a) = true ∧
    ∃ d, c.step (CollectorAction.pool a) = some d ∧ d.inner = p
      ∧ d.get_waiting = c.get_waiting ∧ d.get_checking = c.get_checking
      ∧ d.get_swapping = c.get_swapping ∧ d.returned = c.returned := by
  cases a with
  | worker_wake i =>
    exact ⟨rfl, { c with inner := p }, by simp only [step, hs, Option.map_some'],
      rfl, rfl, rfl, rfl, rfl⟩
  | worker_claim i =>
    exact ⟨rfl, { c with inner := p }, by simp only [step, hs, Option.map_some'],
      rfl, rfl, rfl, rfl, rfl⟩
  | worker_execute i =>
    obtain ⟨_, _, hsp⟩ := Threadpool.step_spec hs
    simp only at hsp
    obtain ⟨func, hget, _⟩ := hsp
    exact ⟨rfl, { c.run_job func with inner := p },
      by simp only [step, hget, hs, Option.map_some'], rfl, rfl, rfl, rfl, rfl⟩
  | add_work work => cases hw
  | wait_enter => cases hw
  | wait_wake => cases hw
  | wait_check => cases hw
  | dtor_enter => cases hw
  | dtor_wake => cases hw
  | dtor_check => cases hw
  | dtor_close => cases hw
  | dtor_post => cases hw
  | dtor_join => cases hw

theorem lift_workers : ∀ (acts : List (PoolAction (Unit → T)))
    (c : ThreadpoolResultCollector T) (t : Threadpool (Unit → T)),
    (∀ a ∈ acts, a.is_worker = true) → c.inner.run acts = some t →
    ∃ d, c.run_where single_client (acts.map CollectorAction.pool) = some d ∧ d.inner = t
      ∧ d.get_waiting = c.get_waiting ∧ d.get_checking = c.get_checking
      ∧ d.get_swapping = c.get_swapping ∧ d.returned = c.returned
  | [], c, t, _, hr => by
      simp only [Threadpool.run, Option.some.injEq] at hr
      exact ⟨c, rfl, hr, rfl, rfl, rfl, rfl⟩
  | a :: acts, c, t, hall, hr => by
      simp only [Threadpool.run] at hr
      cases hs : c.inner.step a with
      | none => simp [hs] at hr
      | some p =>
        simp only [hs, Option.some_bind] at hr
        obtain ⟨hok, c1, hstep, e1, e2, e3, e4, e5⟩ :=
          lift_worker_step (hall a (List.mem_cons_self _ _)) hs
        obtain ⟨d, hrun, r1, r2, r3, r4, r5⟩ :=
          lift_workers acts c1 t (fun b hb => hall b (List.mem_cons_of_mem _ hb))
            (by rw [e1]; exact hr)
        refine ⟨d, ?_, r1, r2.trans e2, r3.trans e3, r4.trans e4, r5.trans e5⟩
        simp only [List.map_cons, run_where, if_pos hok, hstep, Option.some_bind]
        exact hrun

/-- The call of `get_results` enters `inner.wait_for_idle()`: it goes on to the swap when it
reads `IDLE`, and sets the flag and blocks otherwise. -/
theorem get_enter_step (c : ThreadpoolResultCollector T) (hab : c.inner.aborted = false)
    (hd : c.inner.dtor ≠ Dtor.destroyed) :
    ∃ d, c.step CollectorAction.get_enter = some d
      ∧ c.inner.step PoolAction.wait_enter = some d.inner
      ∧ d.returned = c.returned ∧ d.inner.submitted = c.inner.submitted
      ∧ d.inner.aborted = false
      ∧ ((c.inner.status = _Threadpool_Status.IDLE ∧ d.get_swapping = c.get_swapping + 1)
         ∨ (c.inner.status ≠ _Threadpool_Status.IDLE
            ∧ d.get_waiting = c.get_waiting + 1 ∧ d.inner.idle_waiting = true
            ∧ d.inner.waiting = c.inner.waiting + 1 ∧ d.inner.status = c.inner.status
            ∧ d.inner.threads = c.inner.threads ∧ d.inner.dtor = c.inner.dtor)) := by
  have henter := Threadpool.wait_enter_eq c.inner hab hd
  by_cases hst : c.inner.status = _Threadpool_Status.IDLE
  · rw [if_pos hst] at henter
    refine ⟨{ c with inner := c.inner, get_swapping := c.get_swapping + 1 }, ?_, henter,
      rfl, rfl, hab, Or.inl ⟨hst, rfl⟩⟩
    simp only [step, henter, Option.map_some', Threadpool.wait_for_idle_critical, if_pos hst,
      if_true]
  · rw [if_neg hst] at henter
    refine ⟨{ c with
              inner := { c.inner with idle_waiting := true, waiting := c.inner.waiting + 1 },
              get_waiting := c.get_waiting + 1 }, ?_, henter,
      rfl, rfl, hab, Or.inr ⟨hst, rfl, rfl, rfl, rfl, rfl, rfl⟩⟩
    simp only [step, henter, Option.map_some', Threadpool.wait_for_idle_critical, if_neg hst,
      Bool.false_eq_true, if_false]

/-- A blocked caller of `get_results` takes the permit of the idle semaphore. -/
theorem get_wake_step (c : ThreadpoolResultCollector T) (hab : c.inner.aborted = false)
    (hd : c.inner.dtor ≠ Dtor.destroyed) (hgw : 0 < c.get_waiting)
    (hw : 0 < c.inner.waiting) (hp : 0 < c.inner.wait_for_idle_semaphore) :
    ∃ d, c.step CollectorAction.get_wake = some d
      ∧ d.returned = c.returned ∧ d.inner.submitted = c.inner.submitted
      ∧ d.inner.aborted = false ∧ d.inner.dtor = c.inner.dtor
      ∧ d.inner.status = c.inner.status ∧ d.inner.checking = c.inner.checking + 1
      ∧ d.get_checking = c.get_checking + 1 ∧ d.get_swapping = c.get_swapping := by
  have hwake := Threadpool.wait_wake_eq c.inner hab hd hw hp
  refine ⟨{ c with inner := { c.inner with
                      wait_for_idle_semaphore := c.inner.wait_for_idle_semaphore - 1,
                      waiting := c.inner.waiting - 1, checking := c.inner.checking + 1 },
                   get_waiting := c.get_waiting - 1,
                   get_checking := c.get_checking + 1 }, ?_,
    rfl, rfl, hab, rfl, rfl, rfl, rfl, rfl⟩
  simp only [step, if_pos hgw, hwake, Option.map_some']

/-- A woken caller of `get_results` that reads `IDLE` goes on to the swap. -/
theorem get_check_step (c : ThreadpoolResultCollector T) (hab : c.inner.aborted = false)
    (hd : c.inner.dtor ≠ Dtor.destroyed) (hgc : 0 < c.get_checking)
    (hc : 0 < c.inner.checking) (hi : c.inner.status = _Threadpool_Status.IDLE) :
    ∃ d, c.step CollectorAction.get_check = some d
      ∧ d.returned = c.returned ∧ d.inner.submitted = c.inner.submitted
      ∧ d.inner.aborted = false ∧ d.get_swapping = c.get_swapping + 1 := by
  have hcheck := Threadpool.wait_check_eq c.inner hab hd hc hi
  refine ⟨{ c with inner := { c.inner with checking := c.inner.checking - 1 },
                   get_checking := c.get_checking - 1,
                   get_swapping := c.get_swapping + 1 }, ?_, rfl, rfl, hab, rfl⟩
  simp only [step, if_pos hgc, hcheck, Option.map_some', hab, Bool.false_eq_true, if_false]

/-- A client that is not inside `get_results`, on a pool with at least one worker, can call
`get_results` and reach its swap: some schedule that follows `single_client`, starts with
the call and contains no `add_work` brings the caller to the critical section of lines
95-99, with the process alive, nothing else submitted and nothing returned meanwhile. -/
theorem get_results_progress {n : Nat} {c : ThreadpoolResultCollector T}
    (hi : Inv n c) (hcl : Client c) (haw : c.inner.Awake) (hn : 0 < n % UINT_SIZE)
    (hout : c.get_waiting + c.get_checking + c.get_swapping = 0) :
    ∃ (more : List (CollectorAction T)) (c1 : ThreadpoolResultCollector T),
      c.run_where single_client (CollectorAction.get_enter :: more) = some c1
      ∧ (∀ a ∈ more, is_add_work a = false)
      ∧ 0 < c1.get_swapping ∧ c1.inner.aborted = false
      ∧ c1.inner.submitted = c.inner.submitted ∧ c1.returned = c.returned := by
  have hab : c.inner.aborted = false := hcl.calm.alive
  have hd : c.inner.dtor ≠ Dtor.destroyed := by
    rw [hcl.alive]
    exact fun hf => Dtor.noConfusion hf
  have hok : c.single_client CollectorAction.get_enter = true := by
    simp only [single_client, hout, beq_self_eq_true]
  have hw0 : c.inner.waiting = 0 := by
    have := hcl.waiting
    omega
  have hc0 : c.inner.checking = 0 := by
    have := hcl.checking
    omega
  obtain ⟨c0, hstep0, hin0, e1, e2, e3, hcase⟩ := get_enter_step c hab hd
  rcases hcase with ⟨_, hsw⟩ | ⟨hst, g1, g2, g3, g4, g5, g6⟩
  · refine ⟨[], c0, ?_, ?_, by omega, e3, e2, e1⟩
    · simp only [run_where, if_pos hok, hstep0, Option.some_bind]
    · intro a ha
      cases ha
  · have hr : c0.inner.status = _Threadpool_Status.RUNNING := by
      rw [g4]
      cases hs : c.inner.status with
      | IDLE => exact absurd hs hst
      | RUNNING => rfl
      | CLOSING => exact absurd hs hcl.running
    have hd0 : c0.inner.dtor ≠ Dtor.destroyed := by
      rw [g6]
      exact hd
    have hlen : 0 < c0.inner.threads.length := by
      rw [g5, hi.pool.size]
      exact hn
    obtain ⟨acts, t, hall, hrun, r1, r2, r3, r4, r5, r6, _, r8⟩ :=
      Threadpool.drain c0.inner.drain_measure c0.inner (Nat.le_refl _)
        (Threadpool.inv_step hi.pool _ hin0) (Threadpool.awake_step hi.pool haw hin0)
        hlen e3 hd0 hr
    rw [g2, if_pos rfl] at r8
    obtain ⟨c2, hrun2, q1, q2, _, q4, q5⟩ := lift_workers acts c0 t hall hrun
    have hab2 : c2.inner.aborted = false := by rw [q1]; exact r6
    have hd2 : c2.inner.dtor ≠ Dtor.destroyed := by rw [q1, r5]; exact hd0
    obtain ⟨c3, hstep3, w1, w2, w3, w4, w5, w6, w7, w8⟩ :=
      get_wake_step c2 hab2 hd2 (by omega) (by rw [q1, r3, g3]; omega) (by rw [q1, r8]; omega)
    have hd3 : c3.inner.dtor ≠ Dtor.destroyed := by rw [w4]; exact hd2
    obtain ⟨c4, hstep4, v1, v2, v3, v4⟩ :=
      get_check_step c3 w3 hd3 (by omega) (by omega) (by rw [w5, q1]; exact r1)
    refine ⟨acts.map CollectorAction.pool ++ [CollectorAction.get_wake,
      CollectorAction.get_check], c4, ?_, ?_, by omega, v3, ?_, ?_⟩
    · simp only [run_where, if_pos hok, hstep0, Option.some_bind]
      refine collector_run_where_append single_client _ _ c0 c2 c4 hrun2 ?_
      simp only [run_where, single_client, if_true, hstep3, hstep4, Option.some_bind]
    · intro a ha
      rcases List.mem_append.mp ha with h1 | h1
      · obtain ⟨b, _, rfl⟩ := List.mem_map.mp h1
        rfl
      · rcases List.mem_cons.mp h1 with rfl | h2
        · rfl
        · rcases List.mem_cons.mp h2 with rfl | h3
          · rfl
          · cases h3
    · rw [v2, w2, q1, r2, e2]
    · rw [v1, w1, q5, e1]

/-- At the swap of the first `get_results` of a single client that has submitted `fs`, the
returned sequence is `results`, a permutation of the results of `fs`, and `results` is left
empty. -/
theorem first_swap_permutation {n : Nat} {fs : List (Unit → T)}
    {c d : ThreadpoolResultCollector T} (hi : Inv n c) (hsolo : Solo c)
    (hsub : c.inner.submitted = fs) (hfirst : c.returned = [])
    (hswap : c.step CollectorAction.get_swap = some d) :
    d.returned = [c.get_results_critical.1] ∧ d.results = []
    ∧ c.get_results_critical.1.Perm (fs.map (fun func => func ()))
    ∧ c.get_results_critical.1.length = fs.length := by
  obtain ⟨hp, ho⟩ := hi
  have hsp := collector_step_spec hswap
  simp only at hsp
  obtain ⟨hpos, _, rfl⟩ := hsp
  have hidle := hsolo.swap_idle hpos
  obtain ⟨hperm, _, _⟩ := Threadpool.executed_perm_of_idle hp hidle
  rw [hfirst, List.flatten_nil, List.nil_append] at ho
  have hres : c.results.Perm (fs.map (fun func => func ())) := by
    rw [ho, ← hsub]
    exact hperm.map _
  refine ⟨by simp only [hfirst, List.nil_append, get_results_critical], rfl, hres, ?_⟩
  simpa using hres.length_eq

/-- C9: a single client submits the functions `fs` through the collector (and nobody else
uses the pool), and no `get_results` has returned yet.  First, whenever the swap of
`get_results` is taken, the returned sequence is a permutation of the results
`fs.map (fun func => func ())`, of the same length, and it is what the call returns, leaving
`results` empty.  Second, when the pool has at least one worker and the client is not inside
`get_results`, a following `get_results` does return: some schedule that follows
`single_client`, starts with the call and contains no `add_work` reaches the swap, and the
swap returns such a permutation. -/
theorem get_results_permutation (n : Nat) (fs : List (Unit → T))
    (acts : List (CollectorAction T)) (c : ThreadpoolResultCollector T)
    (hrun : (ctor (Threadpool.ctor n)).run_where single_client acts = some c)
    (hsub : c.inner.submitted = fs) (hfirst : c.returned = []) :
    (∀ d, c.step CollectorAction.get_swap = some d →
      d.returned = [c.get_results_critical.1] ∧ d.results = []
      ∧ c.get_results_critical.1.Perm (fs.map (fun func => func ()))
      ∧ c.get_results_critical.1.length = fs.length)
    ∧ (0 < n % UINT_SIZE → c.get_waiting + c.get_checking + c.get_swapping = 0 →
        ∃ (more : List (CollectorAction T)) (c1 d : ThreadpoolResultCollector T),
          c.run_where single_client (CollectorAction.get_enter :: more) = some c1
          ∧ (∀ a ∈ more, is_add_work a = false)
          ∧ c1.step CollectorAction.get_swap = some d
          ∧ d.returned = [c1.get_results_critical.1] ∧ d.results = []
          ∧ c1.get_results_critical.1.Perm (fs.map (fun func => func ()))
          ∧ c1.get_results_critical.1.length = fs.length) := by
  have hreach : Reachable n c := ⟨acts, collector_run_of_run_where _ acts _ c hrun⟩
  have hi := collector_inv_of_reachable hreach
  have hsolo := solo_run acts _ c (solo_ctor n) hrun
  refine ⟨fun d hswap => first_swap_permutation hi hsolo hsub hfirst hswap, ?_⟩
  intro hn hout
  have hcl := client_run acts _ c (client_ctor n) hrun
  have haw : c.inner.Awake :=
    awake_of_collector_run acts _ c (collector_inv_ctor n) (Threadpool.awake_ctor n)
      (collector_run_of_run_where _ acts _ c hrun)
  obtain ⟨more, c1, hrun1, hno, hpos, hab, e1, e2⟩ := get_results_progress hi hcl haw hn hout
  have hall := collector_run_where_append single_client acts _ _ c c1 hrun hrun1
  have hi1 : Inv n c1 :=
    collector_inv_of_reachable ⟨_, collector_run_of_run_where _ _ _ c1 hall⟩
  have hsolo1 := solo_run _ _ c1 (solo_ctor n) hall
  have hswap : c1.step CollectorAction.get_swap
      = some { c1.get_results_critical.2 with
               get_swapping := c1.get_swapping - 1,
               returned := c1.returned ++ [c1.get_results_critical.1] } := by
    simp only [step, if_pos (And.intro hpos hab)]
  exact ⟨more, c1, _, hrun1, hno, hswap,
    first_swap_permutation hi1 hsolo1 (e1.trans hsub) (e2.trans hfirst) hswap⟩

set_option maxRecDepth 100000 in
/-- Witness of C9: the example run.  Four workers, ten jobs each returning the sum
1 + ... + 1000; `get_results` blocks, is released, and returns ten elements, all 500500; and
right after the ten calls of `add_work` a following `get_results` can return. -/
theorem get_results_permutation_witness :
    ((ctor (Threadpool.ctor 4)).runD example_schedule).get_results_critical.1
      = List.replicate 10 500500
    ∧ (((ctor (Threadpool.ctor 4)).runD (example_schedule ++ [CollectorAction.get_swap])).returned
        = [((ctor (Threadpool.ctor 4)).runD example_schedule).get_results_critical.1]
      ∧ ((ctor (Threadpool.ctor 4)).runD
          (example_schedule ++ [CollectorAction.get_swap])).results = []
      ∧ ((ctor (Threadpool.ctor 4)).runD example_schedule).get_results_critical.1.Perm
          ((List.replicate 10 (fun _ : Unit => sum_1_to 1000)).map (fun func => func ()))
      ∧ ((ctor (Threadpool.ctor 4)).runD example_schedule).get_results_critical.1.length
          = (List.replicate 10 (fun _ : Unit => sum_1_to 1000)).length)
    ∧ ∃ (more : List (CollectorAction Nat)) (c1 d : ThreadpoolResultCollector Nat),
        ((ctor (Threadpool.ctor 4)).runD (example_schedule.take 10)).run_where single_client
            (CollectorAction.get_enter :: more) = some c1
        ∧ (∀ a ∈ more, is_add_work a = false)
        ∧ c1.step CollectorAction.get_swap = some d
        ∧ d.returned = [c1.get_results_critical.1] ∧ d.results = []
        ∧ c1.get_results_critical.1.Perm
            ((List.replicate 10 (fun _ : Unit => sum_1_to 1000)).map (fun func => func ()))
        ∧ c1.get_results_critical.1.length
            = (List.replicate 10 (fun _ : Unit => sum_1_to 1000)).length :=
  ⟨by decide,
   (get_results_permutation 4 (List.replicate 10 (fun _ : Unit => sum_1_to 1000))
     example_schedule ((ctor (Threadpool.ctor 4)).runD example_schedule)
     (by rfl) (by rfl) (by rfl)).1
     ((ctor (Threadpool.ctor 4)).runD (example_schedule ++ [CollectorAction.get_swap]))
     (by rfl),
   (get_results_permutation 4 (List.replicate 10 (fun _ : Unit => sum_1_to 1000))
     (example_schedule.take 10) ((ctor (Threadpool.ctor 4)).runD (example_schedule.take 10))
     (by rfl) (by rfl) (by rfl)).2 (by decide) (by rfl)⟩

/-- With an empty queue and no job in execution, a step other than `add_work` keeps both,
and appends nothing to `results`: `results` stays as it is or is emptied by a swap. -/
theorem collector_quiet_step {c d : ThreadpoolResultCollector T} {a : CollectorAction T}
    (hs : c.step a = some d) (ha : is_add_work a = false)
    (hj : c.inner.jobs = []) (hq : c.inner.in_execution = []) :
    d.inner.jobs = [] ∧ d.inner.in_execution = [] ∧ (c.results = [] → d.results = []) := by
  have hsp := collector_step_spec hs
  cases a with
  | add_work func => cases ha
  | pool a =>
    simp only at hsp
    obtain ⟨hna, p, hstep, rfl⟩ := hsp
    obtain ⟨k1, k2, _⟩ := Threadpool.quiet_step hstep hna hj hq
    refine ⟨k1, k2, fun hr => ?_⟩
    simp only [completed, Threadpool.finished_nil_of_quiet c.inner a hq, hr, List.map_nil,
      List.append_nil]
  | get_enter =>
    simp only at hsp
    obtain ⟨p, hstep, hd⟩ := hsp
    obtain ⟨k1, k2, _⟩ :=
      Threadpool.quiet_step hstep (fun _ hw => PoolAction.noConfusion hw) hj hq
    rcases hd with ⟨_, rfl⟩ | ⟨_, rfl⟩
    · exact ⟨k1, k2, fun hr => hr⟩
    · exact ⟨k1, k2, fun hr => hr⟩
  | get_wake =>
    simp only at hsp
    obtain ⟨_, p, hstep, rfl⟩ := hsp
    obtain ⟨k1, k2, _⟩ :=
      Threadpool.quiet_step hstep (fun _ hw => PoolAction.noConfusion hw) hj hq
    exact ⟨k1, k2, fun hr => hr⟩
  | get_check =>
    simp only at hsp
    obtain ⟨_, p, hstep, hd⟩ := hsp
    obtain ⟨k1, k2, _⟩ :=
      Threadpool.quiet_step hstep (fun _ hw => PoolAction.noConfusion hw) hj hq
    rcases hd with ⟨_, rfl⟩ | ⟨_, rfl⟩
    · exact ⟨k1, k2, fun hr => hr⟩
    · exact ⟨k1, k2, fun hr => hr⟩
  | get_swap =>
    simp only at hsp
    obtain ⟨_, _, rfl⟩ := hsp
    exact ⟨hj, hq, fun _ => rfl⟩

theorem collector_quiet_run : ∀ (acts : List (CollectorAction T))
    (c d : ThreadpoolResultCollector T), (∀ a ∈ acts, is_add_work a = false) →
    c.inner.jobs = [] → c.inner.in_execution = [] → c.run acts = some d →
    d.inner.jobs = [] ∧ d.inner.in_execution = [] ∧ (c.results = [] → d.results = [])
  | [], c, d, _, hj, hq, hr => by
      simp only [run, Option.some.injEq] at hr
      subst hr
      exact ⟨hj, hq, fun h => h⟩
  | a :: acts, c, d, hno, hj, hq, hr => by
      simp only [run] at hr
      cases hs : c.step a with
      | none => simp [hs] at hr
      | some c1 =>
        simp only [hs, Option.some_bind] at hr
        obtain ⟨k1, k2, k3⟩ :=
          collector_quiet_step hs (hno a (List.mem_cons_self _ _)) hj hq
        obtain ⟨m1, m2, m3⟩ := collector_quiet_run acts c1 d
          (fun b hb => hno b (List.mem_cons_of_mem _ hb)) k1 k2 hr
        exact ⟨m1, m2, fun h => m3 (k3 h)⟩

/-- A step at which a caller of `get_results` gets past `inner.wait_for_idle()` has read
`status == IDLE`, and leaves the pool idle. -/
theorem pass_idle {b c0 : ThreadpoolResultCollector T} {a0 : CollectorAction T}
    (hs : b.step a0 = some c0) (hpass : b.get_swapping < c0.get_swapping) :
    c0.inner.status = _Threadpool_Status.IDLE := by
  have hsp := collector_step_spec hs
  cases a0 with
  | add_work func =>
    simp only at hsp
    subst hsp
    simp only at hpass
    omega
  | pool a =>
    simp only at hsp
    obtain ⟨_, p, _, rfl⟩ := hsp
    simp only at hpass
    omega
  | get_enter =>
    simp only at hsp
    obtain ⟨p, hstep, hd⟩ := hsp
    have hst := (Threadpool.step_wait_status hstep rfl).1
    rcases hd with ⟨hidle, rfl⟩ | ⟨_, rfl⟩
    · exact hst.trans hidle
    · simp only at hpass
      omega
  | get_wake =>
    simp only at hsp
    obtain ⟨_, p, _, rfl⟩ := hsp
    simp only at hpass
    omega
  | get_check =>
    simp only at hsp
    obtain ⟨_, p, hstep, hd⟩ := hsp
    obtain ⟨hst, hret⟩ := Threadpool.step_wait_status hstep rfl
    rcases hd with ⟨_, rfl⟩ | ⟨hab, rfl⟩
    · simp only at hpass
      omega
    · exact hst.trans (hret rfl hab)
  | get_swap =>
    simp only at hsp
    obtain ⟨_, _, rfl⟩ := hsp
    simp only at hpass
    omega

/-- C10: the swap of `get_results` returns exactly `results`, the results accumulated since
the previous swap, and leaves `results` empty.  When a first call gets past its
`inner.wait_for_idle()` (the step from `b` to `c0`), swaps (from `c` to `d`), a second call
swaps (from `e` to `f`), and no `add_work` happens from the first call's return from
`wait_for_idle` until the second swap, the second call returns the empty sequence.  In every
reachable state the returned sequences, one after the other, followed by `results`, list the
result of each completed job exactly once, so no result is returned by two calls.  And when
a single client uses a pool with at least one worker, its second call of `get_results` does
return, with the empty sequence. -/
theorem get_results_takes_all (n : Nat) (b c0 c d e f : ThreadpoolResultCollector T)
    (a0 : CollectorAction T) (acts1 acts2 : List (CollectorAction T))
    (hreach : Reachable n b) (hstep0 : b.step a0 = some c0)
    (hpass : b.get_swapping < c0.get_swapping)
    (hno1 : ∀ a ∈ acts1, is_add_work a = false) (hrun1 : c0.run acts1 = some c)
    (hswap : c.step CollectorAction.get_swap = some d)
    (hno2 : ∀ a ∈ acts2, is_add_work a = false) (hrun2 : d.run acts2 = some e)
    (hswap2 : e.step CollectorAction.get_swap = some f) :
    d.returned = c.returned ++ [c.get_results_critical.1]
    ∧ c.get_results_critical.1 = c.results
    ∧ d.results = []
    ∧ e.get_results_critical.1 = []
    ∧ f.returned = e.returned ++ [[]]
    ∧ f.returned.flatten ++ f.results = f.inner.executed.map (fun func => func ())
    ∧ (∀ acts0 : List (CollectorAction T),
        (ctor (Threadpool.ctor n)).run_where single_client acts0 = some d →
        0 < n % UINT_SIZE → d.get_waiting + d.get_checking + d.get_swapping = 0 →
        ∃ (more : List (CollectorAction T)) (e2 f2 : ThreadpoolResultCollector T),
          d.run_where single_client (CollectorAction.get_enter :: more) = some e2
          ∧ (∀ a ∈ more, is_add_work a = false)
          ∧ e2.step CollectorAction.get_swap = some f2
          ∧ f2.returned = d.returned ++ [[]]) := by
  have hib := collector_inv_of_reachable hreach
  have hi0 := collector_inv_step hib _ hstep0
  have hic := collector_inv_run acts1 c0 c hi0 hrun1
  have hsp := collector_step_spec hswap
  have hid := collector_inv_step hic _ hswap
  have hie := collector_inv_run acts2 d e hid hrun2
  have hif := collector_inv_step hie _ hswap2
  have hidle := pass_idle hstep0 hpass
  obtain ⟨_, hj0, hq0⟩ := Threadpool.executed_perm_of_idle hi0.pool hidle
  obtain ⟨hj1, hq1, _⟩ := collector_quiet_run acts1 c0 c hno1 hj0 hq0 hrun1
  obtain ⟨hj2, hq2, hr2⟩ := collector_quiet_step hswap rfl hj1 hq1
  simp only at hsp
  obtain ⟨_, _, hd⟩ := hsp
  have hdr : d.results = [] := by rw [hd]
  obtain ⟨_, _, hr3⟩ := collector_quiet_run acts2 d e hno2 hj2 hq2 hrun2
  have her : e.results = [] := hr3 hdr
  have hsp2 := collector_step_spec hswap2
  simp only at hsp2
  obtain ⟨_, _, hf⟩ := hsp2
  refine ⟨by rw [hd]; rfl, rfl, hdr, her, by rw [hf, her], hif.once, ?_⟩
  intro acts0 hrun0 hn hout
  have hcl := client_run acts0 _ d (client_ctor n) hrun0
  have haw : d.inner.Awake :=
    awake_of_collector_run acts0 _ d (collector_inv_ctor n) (Threadpool.awake_ctor n)
      (collector_run_of_run_where _ acts0 _ d hrun0)
  obtain ⟨more, e2, hrun3, hno3, hpos, hab, _, e5⟩ := get_results_progress hid hcl haw hn hout
  have hno4 : ∀ a ∈ CollectorAction.get_enter :: more, is_add_work a = false := by
    intro a ha
    rcases List.mem_cons.mp ha with rfl | ha
    · rfl
    · exact hno3 a ha
  obtain ⟨_, _, hr4⟩ := collector_quiet_run _ d e2 hno4 hj2 hq2
    (collector_run_of_run_where _ _ _ e2 hrun3)
  have her2 : e2.results = [] := hr4 hdr
  have hswap3 : e2.step CollectorAction.get_swap
      = some { e2.get_results_critical.2 with
               get_swapping := e2.get_swapping - 1,
               returned := e2.returned ++ [e2.get_results_critical.1] } := by
    simp only [step, if_pos (And.intro hpos hab)]
  refine ⟨more, e2, _, hrun3, hno3, hswap3, ?_⟩
  show e2.returned ++ [e2.results] = d.returned ++ [[]]
  rw [her2, e5]

set_option maxRecDepth 100000 in
/-- Witness of C10: in the example run the client gets past `wait_for_idle` at the last
step, swaps, calls `get_results` again at once, and swaps again: the second call returns the
empty sequence. -/
theorem get_results_takes_all_witness :
    ((ctor (Threadpool.ctor 4)).runD example_schedule).results.length = 10
    ∧ ((ctor (Threadpool.ctor 4)).runD (example_schedule ++ [CollectorAction.get_swap,
        CollectorAction.get_enter, CollectorAction.get_swap])).returned
        = [List.replicate 10 500500, []]
    ∧ ((ctor (Threadpool.ctor 4)).runD
        (example_schedule ++ [CollectorAction.get_swap])).results = []
    ∧ ((ctor (Threadpool.ctor 4)).runD
        (example_schedule ++ [CollectorAction.get_swap, CollectorAction.get_enter])
        ).get_results_critical.1 = []
    ∧ ∃ (more : List (CollectorAction Nat)) (e2 f2 : ThreadpoolResultCollector Nat),
        ((ctor (Threadpool.ctor 4)).runD
          (example_schedule ++ [CollectorAction.get_swap])).run_where single_client
            (CollectorAction.get_enter :: more) = some e2
        ∧ (∀ a ∈ more, is_add_work a = false)
        ∧ e2.step CollectorAction.get_swap = some f2
        ∧ f2.returned = ((ctor (Threadpool.ctor 4)).runD
            (example_schedule ++ [CollectorAction.get_swap])).returned ++ [[]] :=
  ⟨by decide, by decide,
   (get_results_takes_all 4
      ((ctor (Threadpool.ctor 4)).runD example_schedule.dropLast)
      ((ctor (Threadpool.ctor 4)).runD example_schedule)
      ((ctor (Threadpool.ctor 4)).runD example_schedule)
      ((ctor (Threadpool.ctor 4)).runD (example_schedule ++ [CollectorAction.get_swap]))
      ((ctor (Threadpool.ctor 4)).runD
        (example_schedule ++ [CollectorAction.get_swap, CollectorAction.get_enter]))
      ((ctor (Threadpool.ctor 4)).runD
        (example_schedule ++ [CollectorAction.get_swap, CollectorAction.get_enter,
          CollectorAction.get_swap]))
      CollectorAction.get_check [] [CollectorAction.get_enter]
      (collector_reachable_runD 4 _ (by decide)) (by rfl) (by decide)
      (by intro a ha; cases ha) (by rfl) (by rfl)
      (by intro a ha; simp only [List.mem_singleton] at ha; subst ha; rfl)
      (by rfl) (by rfl)).2.2.1,
   (get_results_takes_all 4
      ((ctor (Threadpool.ctor 4)).runD example_schedule.dropLast)
      ((ctor (Threadpool.ctor 4)).runD example_schedule)
      ((ctor (Threadpool.ctor 4)).runD example_schedule)
      ((ctor (Threadpool.ctor 4)).runD (example_schedule ++ [CollectorAction.get_swap]))
      ((ctor (Threadpool.ctor 4)).runD
        (example_schedule ++ [CollectorAction.get_swap, CollectorAction.get_enter]))
      ((ctor (Threadpool.ctor 4)).runD
        (example_schedule ++ [CollectorAction.get_swap, CollectorAction.get_enter,
          CollectorAction.get_swap]))
      CollectorAction.get_check [] [CollectorAction.get_enter]
      (collector_reachable_runD 4 _ (by decide)) (by rfl) (by decide)
      (by intro a ha; cases ha) (by rfl) (by rfl)
      (by intro a ha; simp only [List.mem_singleton] at ha; subst ha; rfl)
      (by rfl) (by rfl)).2.2.2.1,
   (get_results_takes_all 4
      ((ctor (Threadpool.ctor 4)).runD example_schedule.dropLast)
      ((ctor (Threadpool.ctor 4)).runD example_schedule)
      ((ctor (Threadpool.ctor 4)).runD example_schedule)
      ((ctor (Threadpool.ctor 4)).runD (example_schedule ++ [CollectorAction.get_swap]))
      ((ctor (Threadpool.ctor 4)).runD
        (example_schedule ++ [CollectorAction.get_swap, CollectorAction.get_enter]))
      ((ctor (Threadpool.ctor 4)).runD
        (example_schedule ++ [CollectorAction.get_swap, CollectorAction.get_enter,
          CollectorAction.get_swap]))
      CollectorAction.get_check [] [CollectorAction.get_enter]
      (collector_reachable_runD 4 _ (by decide)) (by rfl) (by decide)
      (by intro a ha; cases ha) (by rfl) (by rfl)
      (by intro a ha; simp only [List.mem_singleton] at ha; subst ha; rfl)
      (by rfl) (by rfl)).2.2.2.2.2.2
      (example_schedule ++ [CollectorAction.get_swap]) (by rfl) (by decide) (by rfl)⟩

end ThreadpoolResultCollector

/-! ## The vector: componentwise operations and the scalar product -/

namespace linalg

variable {T : Type}

theorem zipWith_get? (op : T → T → T) : ∀ (a b : List T) (i : Nat) (x y : T),
    a.get? i = some x → b.get? i = some y → (List.zipWith op a b).get? i = some (op x y)
  | [], _, _, _, _, ha, _ => by simp at ha
  | _ :: _, [], _, _, _, _, hb => by simp at hb
  | u :: a, v :: b, 0, x, y, ha, hb => by
      simp only [List.get?_cons_zero, Option.some.injEq] at ha hb
      simp [ha, hb]
  | u :: a, v :: b, i + 1, x, y, ha, hb => by
      simp only [List.get?_cons_succ] at ha hb
      simpa using zipWith_get? op a b i x y ha hb

/-- What `_binop` does, for any `op`. -/
theorem binop_spec (op : T → T → T) (a b : Vector T) :
    ((∃ e, a._binop b op = Except.error e) ↔ a.dimension ≠ b.dimension)
    ∧ (a.dimension = b.dimension →
        ∃ r, a._binop b op = Except.ok r ∧ r.dimension = a.dimension
          ∧ ∀ i x y, a.inner.get? i = some x → b.inner.get? i = some y →
              r.inner.get? i = some (op x y)) := by
  unfold Vector._binop Vector.dimension
  by_cases h : a.inner.length = b.inner.length
  · simp only [h, ne_eq, not_true_eq_false, if_false, exists_false, forall_true_left]
    refine ⟨by simp, ⟨_, rfl, ?_, ?_⟩⟩
    · simp [Vector.dimension, h]
    · intro i x y hx hy
      exact zipWith_get? op a.inner b.inner i x y hx hy
  · simp only [ne_eq, h, not_false_eq_true, if_true]
    exact ⟨by simp, fun hf => hf.elim⟩

/-- C18: each of `a + b`, `a - b` and `a.componentwise_multiplication(b)` throws exactly when
the dimensions differ; otherwise it returns a vector of the dimension of `a` whose `i`-th
component is `a_i + b_i`, `a_i - b_i`, `a_i * b_i`.  The operands are `const`: the functions
are pure. -/
theorem componentwise_operations [Add T] [Sub T] [Mul T] (a b : Vector T) :
    (((∃ e, a.operator_plus b = Except.error e) ↔ a.dimension ≠ b.dimension)
      ∧ ((∃ e, a.operator_minus b = Except.error e) ↔ a.dimension ≠ b.dimension)
      ∧ ((∃ e, a.componentwise_multiplication b = Except.error e)
          ↔ a.dimension ≠ b.dimension))
    ∧ (a.dimension = b.dimension →
        (∃ r, a.operator_plus b = Except.ok r ∧ r.dimension = a.dimension
          ∧ ∀ i x y, a.inner.get? i = some x → b.inner.get? i = some y →
              r.inner.get? i = some (x + y))
        ∧ (∃ r, a.operator_minus b = Except.ok r ∧ r.dimension = a.dimension
          ∧ ∀ i x y, a.inner.get? i = some x → b.inner.get? i = some y →
              r.inner.get? i = some (x - y))
        ∧ (∃ r, a.componentwise_multiplication b = Except.ok r ∧ r.dimension = a.dimension
          ∧ ∀ i x y, a.inner.get? i = some x → b.inner.get? i = some y →
              r.inner.get? i = some (x * y))) :=
  ⟨⟨(binop_spec (fun a b => a + b) a b).1, (binop_spec (fun a b => a - b) a b).1,
    (binop_spec (fun a b => a * b) a b).1⟩,
   fun h => ⟨(binop_spec (fun a b => a + b) a b).2 h, (binop_spec (fun a b => a - b) a b).2 h,
    (binop_spec (fun a b => a * b) a b).2 h⟩⟩

theorem get?_append_length : ∀ (pre : List T) (x : T) (xs : List T),
    (pre ++ x :: xs).get? pre.length = some x
  | [], _, _ => rfl
  | _ :: pre, x, xs => by
      simp only [List.cons_append, List.length_cons, List.get?_cons_succ]
      exact get?_append_length pre x xs

theorem set_append_length : ∀ (pre : List T) (x v : T) (xs : List T),
    (pre ++ x :: xs).set pre.length v = pre ++ v :: xs
  | [], _, _, _ => rfl
  | u :: pre, x, v, xs => by
      simp only [List.cons_append, List.length_cons, List.set_cons_succ]
      rw [set_append_length pre x v xs]

/-- The in-place loop, started behind an already processed part `pre`, leaves `pre` alone
and replaces the rest by the pairwise results. -/
theorem transform_in_place_eq (op : T → T → T) : ∀ (a b pre pre2 : List T),
    pre.length = pre2.length → a.length = b.length →
    transform_in_place op (pre2 ++ b) a.length pre.length (pre ++ a)
      = pre ++ List.zipWith op a b
  | [], b, pre, pre2, _, _ => by
      simp [transform_in_place]
  | x :: xs, [], _, _, _, hl => by simp at hl
  | x :: xs, y :: ys, pre, pre2, hp, hl => by
      simp only [List.length_cons, Nat.add_right_cancel_iff] at hl
      have h1 := get?_append_length pre x xs
      have h2 : (pre2 ++ y :: ys).get? pre.length = some y := by
        rw [hp]
        exact get?_append_length pre2 y ys
      simp only [List.length_cons, transform_in_place, h1, h2]
      rw [set_append_length pre x (op x y) xs]
      have ih := transform_in_place_eq op xs ys (pre ++ [op x y]) (pre2 ++ [y])
        (by simp [hp]) hl
      simp only [List.length_append, List.length_singleton, List.append_assoc,
        List.singleton_append] at ih
      rw [ih]
      simp

/-- C19: `a += b` agrees with `a + b`: it throws in exactly the same cases, those where the
dimensions differ, and then `a` keeps its value; otherwise the final value of `a`, computed
by the in-place loop, is the vector `a + b` returns.  The operand `b` is `const`. -/
theorem plus_assign_agrees [Add T] (a b : Vector T) :
    (((a.operator_plus_assign b).2.isSome = true) ↔ ∃ e, a.operator_plus b = Except.error e)
    ∧ (((a.operator_plus_assign b).2.isSome = true) ↔ a.dimension ≠ b.dimension)
    ∧ ((a.operator_plus_assign b).2.isSome = true → (a.operator_plus_assign b).1 = a)
    ∧ ((a.operator_plus_assign b).2 = none →
        a.operator_plus b = Except.ok (a.operator_plus_assign b).1) := by
  by_cases h : a.inner.length = b.inner.length
  · have ht := transform_in_place_eq (fun x y : T => x + y) a.inner b.inner [] [] rfl h
    simp only [List.nil_append, List.length_nil] at ht
    have e1 : a.operator_plus_assign b
        = ({ inner := List.zipWith (fun x y => x + y) a.inner b.inner }, none) := by
      unfold Vector.operator_plus_assign
      rw [if_neg (not_not.mpr h), ht]
    have e2 : a.operator_plus b
        = Except.ok { inner := List.zipWith (fun x y => x + y) a.inner b.inner } := by
      unfold Vector.operator_plus Vector._binop
      rw [if_neg (not_not.mpr h)]
    rw [e1, e2]
    refine ⟨⟨fun hf => Bool.noConfusion hf, ?_⟩, ⟨fun hf => Bool.noConfusion hf, ?_⟩,
      fun hf => Bool.noConfusion hf, fun _ => rfl⟩
    · rintro ⟨e, he⟩
      cases he
    · intro hne
      exact absurd h hne
  · have e1 : a.operator_plus_assign b = (a, some "Dimension error on +=") := by
      unfold Vector.operator_plus_assign
      rw [if_pos h]
    have e2 : a.operator_plus b = Except.error "Dimension error" := by
      unfold Vector.operator_plus Vector._binop
      rw [if_pos h]
    rw [e1, e2]
    refine ⟨⟨fun _ => ⟨_, rfl⟩, fun _ => rfl⟩, ⟨fun _ => h, fun _ => rfl⟩, fun _ => rfl, ?_⟩
    intro hf
    cases hf

/-- The accumulator of `inner_product` ends as its start value plus the sum of the pairwise
products. -/
theorem inner_product_eq : ∀ (a b : List Int) (acc : Int),
    inner_product a b acc = acc + (List.zipWith (fun x y => x * y) a b).sum
  | [], _, acc => by simp [inner_product]
  | _ :: _, [], acc => by simp [inner_product]
  | x :: xs, y :: ys, acc => by
      simp only [inner_product, List.zipWith_cons_cons, List.sum_cons]
      rw [inner_product_eq xs ys (acc + x * y)]
      omega

theorem zipWith_mul_comm : ∀ (a b : List Int),
    List.zipWith (fun x y => x * y) a b = List.zipWith (fun x y => x * y) b a
  | [], [] => rfl
  | [], _ :: _ => rfl
  | _ :: _, [] => rfl
  | x :: xs, y :: ys => by
      simp only [List.zipWith_cons_cons, List.cons.injEq]
      exact ⟨Int.mul_comm x y, zipWith_mul_comm xs ys⟩

/-- C20: over the integers, for vectors of equal dimension `a.scalar_product(b)` is the sum
of the components of `a.componentwise_multiplication(b)` (0 for dimension 0); the scalar
product is symmetric; and for unequal dimensions it throws. -/
theorem scalar_product_spec (a b : Vector Int) :
    (a.dimension = b.dimension →
      ∃ r, a.componentwise_multiplication b = Except.ok r
        ∧ a.scalar_product b = Except.ok r.inner.sum)
    ∧ (a.dimension = 0 → b.dimension = 0 → a.scalar_product b = Except.ok 0)
    ∧ a.scalar_product b = b.scalar_product a
    ∧ (a.dimension ≠ b.dimension →
        a.scalar_product b = Except.error "Dimension error on scalar multiplication") := by
  unfold Vector.scalar_product Vector.componentwise_multiplication Vector._binop
    Vector.dimension
  refine ⟨?_, ?_, ?_, ?_⟩
  · intro h
    refine ⟨{ inner := List.zipWith (fun x y => x * y) a.inner b.inner }, ?_, ?_⟩
    · simp only [h, ne_eq, not_true_eq_false, if_false]
    · simp only [h, ne_eq, not_true_eq_false, if_false, inner_product_eq, Int.zero_add]
  · intro ha hb
    have ha0 : a.inner = [] := List.length_eq_zero.mp ha
    have hb0 : b.inner = [] := List.length_eq_zero.mp hb
    simp [ha0, hb0, inner_product]
  · by_cases h : a.inner.length = b.inner.length
    · simp only [h, ne_eq, not_true_eq_false, if_false, inner_product_eq, Int.zero_add,
        zipWith_mul_comm a.inner b.inner]
    · have h2 : ¬ b.inner.length = a.inner.length := fun hf => h hf.symm
      simp only [ne_eq, h, h2, not_false_eq_true, if_true]
  · intro h
    simp only [ne_eq, h, not_false_eq_true, if_true]

end linalg
